import Mathlib

/-!
Shallow embedding of the `kvs` log-structured key-value store
(`src/kvstore.rs`, `src/log.rs`, `src/error.rs`) and proofs about it.

Modelling choices, each matching the source:

* Rust `String`s are modelled as their UTF-8 byte sequences (`Bytes`,
  a list of byte values); `String::from_utf8` becomes a faithful UTF-8
  validity check (`isValidUtf8`) returning the same bytes.
* `usize` size prefixes (`to_ne_bytes` / `from_ne_bytes` on x86-64) are
  8-byte little-endian encodings of numbers reduced modulo 2^64.
* Segment file names are UUIDv7 strings with a `.log` suffix, generated in
  increasing time order, so lexicographic order of names equals creation
  order.  They are modelled as naturals handed out by a counter
  (`Wal.nextId`); `search_log_files`'s lexicographic sort becomes a sort
  of the numeric ids.
* The file system owned by the store is the association list `Wal.disk`
  from segment id to byte content.  `OpenOptions::create(true)` when a
  file is opened for append is modelled by `ensureFile`; on the read-only
  paths (`read_size`, the key read, `read_value`) opening a missing file
  would create it empty and the subsequent `read_exact_at` behaves exactly
  like reading the empty content, so those paths read via `getFile`
  (missing file = empty content), which is observationally equal.
* `HashMap<String, ValueEntry>` is an association list with unique keys;
  iteration order (used only by `compact`) is the list order, one of the
  orders a `HashMap` may present.
* The `f32` comparison `map.len() as f32 / ops_count as f32 <= 0.7` is
  modelled exactly: for `ops_count = 0` the quotient is `inf` or `NaN` and
  the test is false; otherwise the test is the rational comparison
  `len / ops ≤ 7/10`, which agrees with the `f32` computation on all
  concrete stores appearing below.
-/

namespace Kvs

set_option maxRecDepth 100000

/-- Byte strings: contents of files, keys and values. -/
abbrev Bytes := List Nat

/-- The kind of an `std::io::Error`, as far as the program inspects it. -/
inductive IoKind
| unexpectedEof
| other
deriving DecidableEq

/-- Mirror of `error.rs` `KvsError`. -/
inductive KvsError
| ioError (k : IoKind)
| serializationError
| eofError
| keyNotFound (key : Bytes)
deriving DecidableEq

/-- Mirror of `log.rs` `Operation`. -/
inductive Operation
| SET
| RM
deriving DecidableEq

/-- Mirror of `log.rs` `ValueEntry`: location of a value on disk. -/
structure ValueEntry where
  file_id : Nat
  vsz : Nat
  vpos : Nat
deriving DecidableEq

/-- The in-memory index (`HashMap<String, ValueEntry>`). -/
abbrev Map := List (Bytes × ValueEntry)

/-- The log directory: segment id to file content. -/
abbrev Disk := List (Nat × Bytes)

/-- Mirror of `log.rs` `Wal`, together with the directory it owns. -/
structure Wal where
  files : List Nat
  disk : Disk
  nextId : Nat
deriving DecidableEq

/-- Little-endian 8-byte encoding of a machine word
(`usize::to_ne_bytes` on x86-64). -/
def usizeBytes (n : Nat) : Bytes :=
  [n % 256, n / 2 ^ 8 % 256, n / 2 ^ 16 % 256, n / 2 ^ 24 % 256,
   n / 2 ^ 32 % 256, n / 2 ^ 40 % 256, n / 2 ^ 48 % 256, n / 2 ^ 56 % 256]

/-- `usize::from_ne_bytes` on an 8-byte little-endian buffer. -/
def fromLe8 (b : Bytes) : Nat := b.foldr (fun x acc => x + 256 * acc) 0

/-- `FileExt::read_exact_at`: read exactly `len` bytes at offset `off`,
failing with `UnexpectedEof` if the file is too short.  A zero-length read
succeeds without touching the file. -/
def readExactAt (data : Bytes) (off len : Nat) : Except KvsError Bytes :=
  if len = 0 then .ok []
  else if off + len ≤ data.length then .ok ((data.drop off).take len)
  else .error (.ioError .unexpectedEof)

/-- Whether `b` is a UTF-8 continuation byte. -/
def isCont (b : Nat) : Bool := decide (0x80 ≤ b ∧ b ≤ 0xBF)

/-- Validity of a byte sequence as UTF-8 (what `String::from_utf8`
accepts): rejects overlong encodings, surrogates and code points above
U+10FFFF. -/
def isValidUtf8 : Bytes → Bool
  | [] => true
  | b :: t =>
    if b ≤ 0x7F then isValidUtf8 t
    else if b < 0xC2 then false
    else if b ≤ 0xDF then
      match t with
      | c1 :: t' => isCont c1 && isValidUtf8 t'
      | [] => false
    else if b ≤ 0xEF then
      match t with
      | c1 :: c2 :: t' =>
        (if b = 0xE0 then decide (0xA0 ≤ c1 ∧ c1 ≤ 0xBF)
         else if b = 0xED then decide (0x80 ≤ c1 ∧ c1 ≤ 0x9F)
         else isCont c1) && isCont c2 && isValidUtf8 t'
      | _ => false
    else if b ≤ 0xF4 then
      match t with
      | c1 :: c2 :: c3 :: t' =>
        (if b = 0xF0 then decide (0x90 ≤ c1 ∧ c1 ≤ 0xBF)
         else if b = 0xF4 then decide (0x80 ≤ c1 ∧ c1 ≤ 0x8F)
         else isCont c1) && isCont c2 && isCont c3 && isValidUtf8 t'
      | _ => false
    else false

/-- Content of segment `fid`; a missing file reads as empty. -/
def getFile (w : Wal) (fid : Nat) : Bytes :=
  ((w.disk.find? (fun p => p.1 == fid)).map Prod.snd).getD []

/-- Effect of `OpenOptions::create(true)` on an append path: the file is
created empty if absent. -/
def ensureFile (w : Wal) (fid : Nat) : Wal :=
  if (w.disk.find? (fun p => p.1 == fid)).isSome then w
  else { w with disk := w.disk ++ [(fid, [])] }

/-- Append bytes to the named file. -/
def diskAppend (d : Disk) (fid : Nat) (bs : Bytes) : Disk :=
  d.map (fun p => if p.1 == fid then (p.1, p.2 ++ bs) else p)

/-- Delete the named file (`fs::remove_file`). -/
def diskErase (d : Disk) (fid : Nat) : Disk := d.filter (fun p => !(p.1 == fid))

/-- `Wal::generate_log_file_name` plus the push: a fresh identifier that
sorts after every existing one is appended to `files`. -/
def pushNew (w : Wal) : Wal :=
  { files := w.files ++ [w.nextId], disk := w.disk, nextId := w.nextId + 1 }

/-- Design constant `Wal::SEGMENT_SIZE` of this snapshot. -/
def SEGMENT_SIZE : Nat := 128

/-- Mirror of `Wal::create_log_file_if_needed`: roll over to a fresh
segment when the active one has reached `SEGMENT_SIZE`. -/
def Wal.create_log_file_if_needed (w : Wal) : Wal :=
  match w.files.getLast? with
  | some f =>
    let w1 := ensureFile w f
    if SEGMENT_SIZE ≤ (getFile w1 f).length then pushNew w1 else w1
  | none => pushNew w

/-- Mirror of `Wal::write`: ensure an active segment, append the size
prefixes and the key, record the value position, then append the value
when `vsz > 0`.  (The `unwrap` on `files.last()` cannot fail because
`create_log_file_if_needed` leaves `files` non-empty; `getD 0` is its
total rendering.) -/
def Wal.write (w : Wal) (k v : Bytes) (mode : Operation) : Wal × ValueEntry :=
  let w1 := w.create_log_file_if_needed
  let fid := w1.files.getLast?.getD 0
  let w2 := ensureFile w1 fid
  let ksz := k.length
  let vsz := match mode with | .SET => v.length | .RM => 0
  let w3 := { w2 with disk := diskAppend w2.disk fid (usizeBytes ksz ++ usizeBytes vsz ++ k) }
  let vpos := (getFile w3 fid).length
  let w4 := if 0 < vsz then { w3 with disk := diskAppend w3.disk fid v } else w3
  (w4, { file_id := fid, vsz := vsz, vpos := vpos })

/-- Mirror of `Wal::read_value`: read exactly `vsz` bytes at `vpos` and
decode them as UTF-8. -/
def Wal.read_value (w : Wal) (ve : ValueEntry) : Except KvsError Bytes :=
  match readExactAt (getFile w ve.file_id) ve.vpos ve.vsz with
  | .ok buf => if isValidUtf8 buf then .ok buf else .error .serializationError
  | .error e => .error e

/-- Mirror of `Wal::read_size` on file content: 8 bytes at `off` decoded
as a native-order word, returning the advanced offset. -/
def readSizeAt (data : Bytes) (off : Nat) : Except KvsError (Nat × Nat) :=
  match readExactAt data off 8 with
  | .ok buf => .ok (fromLe8 buf, off + 8)
  | .error e => .error e

/-- Mirror of `Wal::read` on file content: key size, value size, then the
key bytes decoded as UTF-8; returns the key, the value size and the offset
just past the key (where the value begins). -/
def readAt (data : Bytes) (off : Nat) : Except KvsError (Bytes × Nat × Nat) :=
  match readSizeAt data off with
  | .error e => .error e
  | .ok (ksz, o1) =>
    match readSizeAt data o1 with
    | .error e => .error e
    | .ok (vsz, o2) =>
      match readExactAt data o2 ksz with
      | .error e => .error e
      | .ok keyBuf =>
        if isValidUtf8 keyBuf then .ok (keyBuf, vsz, o2 + ksz)
        else .error .serializationError

/-- `HashMap::get`. -/
def mapLookup (k : Bytes) (m : Map) : Option ValueEntry :=
  (m.find? (fun p => p.1 == k)).map Prod.snd

/-- `HashMap::remove` (drops the key's entry). -/
def mapRemove (k : Bytes) (m : Map) : Map := m.filter (fun p => !(p.1 == k))

/-- `HashMap::insert` (replaces any existing entry for the key). -/
def mapInsert (k : Bytes) (ve : ValueEntry) (m : Map) : Map :=
  mapRemove k m ++ [(k, ve)]

/-- The loop of `Wal::load_log_file`: decode records sequentially from
offset 0, inserting `SET` records and removing tombstones, until
`UnexpectedEof` ends the segment cleanly or another error aborts.  The
`fuel` argument only makes the recursion structural; `load_log_file`
supplies more fuel than any execution can consume (each iteration advances
the offset by at least 16 bytes). -/
def loadLoopF (data : Bytes) (fid : Nat) : Nat → Map → Nat → Nat → Except KvsError (Map × Nat)
  | 0, m, _, c => .ok (m, c)
  | fuel + 1, m, off, c =>
    match readAt data off with
    | .ok (key, size, o') =>
      if size = 0 then loadLoopF data fid fuel (mapRemove key m) o' (c + 1)
      else loadLoopF data fid fuel (mapInsert key ⟨fid, size, o'⟩ m) (o' + size) (c + 1)
    | .error e =>
      match e with
      | .ioError kind => if kind = .unexpectedEof then .ok (m, c) else .error e
      | _ => .error e

/-- Mirror of `Wal::load_log_file`. -/
def Wal.load_log_file (w : Wal) (fid : Nat) (m : Map) : Except KvsError (Map × Nat) :=
  let data := getFile w fid
  loadLoopF data fid (data.length + 1) m 0 0

/-- The loop of `Wal::replay` over the chronological file list. -/
def replayGo (w : Wal) : List Nat → Map → Nat → Except KvsError (Map × Nat)
  | [], m, c => .ok (m, c)
  | f :: fs, m, c =>
    match w.load_log_file f m with
    | .ok (m', c') => replayGo w fs m' (c + c')
    | .error e => .error e

/-- Mirror of `Wal::replay`: fold every segment into the index, returning
the total number of decoded records. -/
def Wal.replay (w : Wal) (m : Map) : Except KvsError (Map × Nat) :=
  replayGo w w.files m 0

/-- The loop of `Wal::compact`: for each index entry (in iteration order)
read its value, append a fresh `SET` record and update the entry in place.
On error the remaining entries are left untouched, as the Rust `?` does. -/
def compactLoop (w : Wal) (done : Map) : Map → (Except KvsError Unit) × Wal × Map
  | [] => (.ok (), w, done)
  | (k, ve) :: todo =>
    match w.read_value ve with
    | .error e => (.error e, w, done ++ (k, ve) :: todo)
    | .ok value =>
      let p := w.write k value .SET
      compactLoop p.1 (done ++ [(k, p.2)]) todo

/-- The deletion phase of `Wal::compact`: pop the first file `n` times,
deleting each from disk (`fs::remove_file` fails on a missing file; the
impossible `Vec::remove` on an empty vector is rendered as an error). -/
def deleteFirst : Nat → Wal → (Except KvsError Unit) × Wal
  | 0, w => (.ok (), w)
  | n + 1, w =>
    match w.files with
    | [] => (.error (.ioError .other), w)
    | f :: rest =>
      if (w.disk.find? (fun p => p.1 == f)).isSome then
        deleteFirst n { files := rest, disk := diskErase w.disk f, nextId := w.nextId }
      else (.error (.ioError .other), { files := rest, disk := w.disk, nextId := w.nextId })

/-- Mirror of `Wal::compact`: snapshot the number of pre-existing
segments, push a fresh one, rewrite every live entry, then delete the
snapshotted segments. -/
def Wal.compact (w : Wal) (m : Map) : (Except KvsError Unit) × Wal × Map :=
  let before := w.files.length
  let w1 := pushNew w
  match compactLoop w1 [] m with
  | (.ok _, w2, m2) =>
    let p := deleteFirst before w2
    (p.1, p.2, m2)
  | (.error e, w2, m2) => (.error e, w2, m2)

/-- Insertion into a sorted list of segment ids. -/
def insertSorted (x : Nat) : List Nat → List Nat
  | [] => [x]
  | y :: t => if x ≤ y then x :: y :: t else y :: insertSorted x t

/-- The sort in `Wal::search_log_files` (lexicographic on names =
numeric on ids). -/
def sortNat : List Nat → List Nat
  | [] => []
  | x :: t => insertSorted x (sortNat t)

/-- Mirror of `Wal::open` on a directory content: enumerate and sort the
segment files; the UUIDv7 generator is positioned after every existing
identifier. -/
def Wal.openD (d : Disk) : Wal :=
  { files := sortNat (d.map Prod.fst), disk := d,
    nextId := (d.map Prod.fst).foldr max 0 + 1 }

/-- Mirror of `kvstore.rs` `KvStore`. -/
structure KvStore where
  map : Map
  log : Wal
  ops_count : Nat
deriving DecidableEq

/-- The trigger test of `KvStore::compact_if_needed`:
`map.len() as f32 / ops_count as f32 <= COMPACTION_THRESHOLD` with
`COMPACTION_THRESHOLD = 0.7` (false when `ops_count = 0`, where the
quotient is `inf` or `NaN`). -/
def compactCond (m : Map) (ops : Nat) : Bool :=
  decide (0 < ops ∧ 10 * m.length ≤ 7 * ops)

/-- Mirror of `KvStore::compact_if_needed`; the boolean records whether
`Wal::compact` was invoked. -/
def KvStore.compact_if_needed (s : KvStore) : (Except KvsError Unit) × KvStore × Bool :=
  if compactCond s.map s.ops_count then
    match s.log.compact s.map with
    | (.ok _, w', m') => (.ok (), ⟨m', w', s.ops_count⟩, true)
    | (.error e, w', m') => (.error e, ⟨m', w', s.ops_count⟩, true)
  else (.ok (), s, false)

/-- Mirror of `KvStore::set`, also reporting whether compaction ran:
append the record, update the index, maybe compact, then increment
`ops_count` (the increment is skipped when compaction fails, as `?`
returns early). -/
def KvStore.setC (s : KvStore) (key value : Bytes) : ((Except KvsError Unit) × KvStore) × Bool :=
  let p := s.log.write key value .SET
  let m1 := mapInsert key p.2 s.map
  let s1 : KvStore := ⟨m1, p.1, s.ops_count⟩
  match s1.compact_if_needed with
  | (.ok _, s2, fl) => ((.ok (), { s2 with ops_count := s2.ops_count + 1 }), fl)
  | (.error e, s2, fl) => ((.error e, s2), fl)

/-- Mirror of `KvStore::set`. -/
def KvStore.set (s : KvStore) (key value : Bytes) : (Except KvsError Unit) × KvStore :=
  (s.setC key value).1

/-- Mirror of `KvStore::remove`, with the outcome of the log append
abstracted: `failWrite = true` renders an execution where `Wal::write`
fails with an I/O error after the index entry was already removed (the
Rust `?` then returns before `ops_count += 1`). -/
def KvStore.removeG (failWrite : Bool) (s : KvStore) (key : Bytes) : (Except KvsError Unit) × KvStore :=
  if (mapLookup key s.map).isSome then
    let m1 := mapRemove key s.map
    if failWrite then (.error (.ioError .other), ⟨m1, s.log, s.ops_count⟩)
    else
      let p := s.log.write key [] .RM
      (.ok (), ⟨m1, p.1, s.ops_count + 1⟩)
  else (.error (.keyNotFound key), s)

/-- Mirror of `KvStore::remove` (the append succeeds). -/
def KvStore.remove (s : KvStore) (key : Bytes) : (Except KvsError Unit) × KvStore :=
  KvStore.removeG false s key

/-- Mirror of `KvStore::get`: serve from the index; a zero-size entry is
absent; otherwise read the value bytes from the named segment. -/
def KvStore.get (s : KvStore) (key : Bytes) : Except KvsError (Option Bytes) :=
  match mapLookup key s.map with
  | some ve =>
    if 0 < ve.vsz then
      match s.log.read_value ve with
      | .ok v => .ok (some v)
      | .error e => .error e
    else .ok none
  | none => .ok none

/-- Mirror of `KvStore::open` on a directory content.  Note that the
record count returned by `replay` is discarded (`kvstore.rs` line 22), so
`ops_count` starts at 0 regardless of how many records were replayed. -/
def KvStore.openDisk (d : Disk) : Except KvsError KvStore :=
  let w := Wal.openD d
  match w.replay [] with
  | .ok (m, _) => .ok ⟨m, w, 0⟩
  | .error e => .error e

/-- A freshly opened store on an empty directory
(`KvStore.openDisk [] = .ok freshStore`). -/
def freshStore : KvStore := ⟨[], ⟨[], [], 1⟩, 0⟩

/-- Client operations of the public API. -/
inductive Op
| set (k v : Bytes)
| remove (k : Bytes)
| get (k : Bytes)
deriving DecidableEq

/-- Apply one operation, keeping the store state the Rust caller retains. -/
def runOp (s : KvStore) : Op → KvStore
  | .set k v => (s.set k v).2
  | .remove k => (s.remove k).2
  | .get _ => s

/-- Apply a sequence of operations. -/
def runOps (s : KvStore) (S : List Op) : KvStore := S.foldl runOp s

/-- Last-writer-wins abstract state of a sequence: the value of the most
recent `set` of `k` not followed by a `remove` of `k`. -/
def lwwSpec (S : List Op) (k : Bytes) : Option Bytes :=
  S.foldl (fun acc op =>
    match op with
    | .set k' v => if k' == k then some v else acc
    | .remove k' => if k' == k then none else acc
    | .get _ => acc) none

/-- A record as laid out on disk. -/
structure Rec where
  key : Bytes
  value : Bytes
deriving DecidableEq

/-- On-disk size of a record: two size prefixes, key, value. -/
def recSize (r : Rec) : Nat := 16 + r.key.length + r.value.length

/-- Encoding of one record; a tombstone is exactly a record with empty
value (the value payload is omitted when `vsz = 0`). -/
def encodeRec (r : Rec) : Bytes :=
  usizeBytes r.key.length ++ usizeBytes r.value.length ++ r.key ++ r.value

/-- Encoding of a run of records. -/
def encodeRecs (rs : List Rec) : Bytes :=
  rs.foldr (fun r acc => encodeRec r ++ acc) []

/-- Well-formedness of a Rust `String` rendered as bytes: valid UTF-8 and
a length representable in a `usize`. -/
def WfStr (b : Bytes) : Prop := isValidUtf8 b = true ∧ b.length < 2 ^ 64

/-- Well-formedness of an operation's arguments (automatic for Rust
`String`s). -/
def WfOp : Op → Prop
  | .set k v => WfStr k ∧ WfStr v
  | .remove k => WfStr k
  | .get _ => True

/-- Well-formedness of a whole client sequence. -/
def WfOps (S : List Op) : Prop := ∀ op ∈ S, WfOp op

/-- Every `set` in the sequence carries a non-empty value. -/
def NonEmptyVals (S : List Op) : Prop :=
  ∀ op ∈ S, match op with
    | .set _ v => v ≠ []
    | _ => True

/-- Well-formedness of a record (automatic for records the program
writes). -/
def WfRec (r : Rec) : Prop :=
  r.key.length < 2 ^ 64 ∧ r.value.length < 2 ^ 64 ∧
  isValidUtf8 r.key = true ∧ isValidUtf8 r.value = true

/-- Effect of one decoded record, starting at offset `off` of segment
`fid`, on the index: tombstones remove, others insert the value
location. -/
def applyRec (fid off : Nat) (m : Map) (r : Rec) : Map :=
  if r.value.length = 0 then mapRemove r.key m
  else mapInsert r.key ⟨fid, r.value.length, off + 16 + r.key.length⟩ m

/-- Effect of one decoded record given the position of its value bytes. -/
def applyRecV (fid vpos : Nat) (m : Map) (r : Rec) : Map :=
  if r.value.length = 0 then mapRemove r.key m
  else mapInsert r.key ⟨fid, r.value.length, vpos⟩ m

/-- Effect of a run of records of one segment on the index. -/
def replayRecs (fid : Nat) : Nat → Map → List Rec → Map
  | _, m, [] => m
  | off, m, r :: rs => replayRecs fid (off + recSize r) (applyRec fid off m r) rs

/-- Ghost view of the log directory: each segment's decoded record
list. -/
abbrev Hist := List (Nat × List Rec)

/-- The byte-level directory a history denotes. -/
def histDisk (h : Hist) : Disk := h.map (fun p => (p.1, encodeRecs p.2))

/-- Replaying a history in order. -/
def replayHist : Hist → Map → Map
  | [], m => m
  | p :: t, m => replayHist t (replayRecs p.1 0 m p.2)

/-- Total number of records in a history. -/
def countHist (h : Hist) : Nat := (h.map (fun p => p.2.length)).sum

/-- Provenance of a record relative to a client sequence: its pair was
set verbatim, or it is a tombstone for a key that was set. -/
def PairOk (S : List Op) (r : Rec) : Prop :=
  Op.set r.key r.value ∈ S ∨ (r.value = [] ∧ ∃ u, Op.set r.key u ∈ S)

/-- On-disk footprint of one operation's record, as appended by
`set`/`remove` (a `get` appends nothing). -/
def opRecSize : Op → Nat
  | .set k v => 16 + k.length + v.length
  | .remove k => 16 + k.length
  | .get _ => 0

/-- Invariant tying a reachable store to the client sequence that
produced it, through the ghost history `h` of its segments. -/
structure InvH (S : List Op) (s : KvStore) (h : Hist) : Prop where
  disk_eq : s.log.disk = histDisk h
  files_eq : s.log.files = h.map Prod.fst
  files_sorted : (h.map Prod.fst).Pairwise (· < ·)
  files_lt : ∀ fid ∈ h.map Prod.fst, fid < s.log.nextId
  recs_wf : ∀ p ∈ h, ∀ r ∈ p.2, WfRec r ∧ PairOk S r
  size_ok : ∀ p ∈ h, p.2 = [] ∨ (encodeRecs p.2.dropLast).length < SEGMENT_SIZE
  map_nodup : (s.map.map Prod.fst).Nodup
  map_lww : ∀ k, match lwwSpec S k with
    | none => mapLookup k s.map = none
    | some v => ∃ ve, mapLookup k s.map = some ve ∧ ve.vsz = v.length ∧
        s.log.read_value ve = .ok v
  replay_map : ∀ k, mapLookup k (replayHist h []) =
    (mapLookup k s.map).bind (fun ve => if ve.vsz = 0 then none else some ve)

/-- A store is coherent with the sequence `S` when some ghost history
witnesses it. -/
def Inv (S : List Op) (s : KvStore) : Prop := ∃ h, InvH S s h

/-- Consistency of an index with a directory, relative to the intended
value `V k` of each key: every entry names an existing segment whose
bytes at the recorded location are that key's value. -/
def IndexOk (w : Wal) (m : Map) (V : Bytes → Bytes) : Prop :=
  ∀ p ∈ m, (w.disk.find? (fun q => q.1 == p.2.file_id)).isSome ∧
    w.read_value p.2 = .ok (V p.1)

/-- The directory-shape facts `Wal::compact` relies on: the file list
matches the directory, identifiers are unique and below the generator. -/
structure WalShape (w : Wal) : Prop where
  files_eq : w.files = w.disk.map Prod.fst
  files_nodup : w.files.Nodup
  files_lt : ∀ fid ∈ w.files, fid < w.nextId

/-- Invariant of the rewrite loop of `Wal::compact`, relating the current
directory (old history `h` plus compaction output `g`), the rewritten
prefix `done` of the index and the intended value `V k` of every key. -/
structure CLoop (S : List Op) (h : Hist) (id0 : Nat) (V : Bytes → Bytes)
    (w : Wal) (g : Hist) (done : Map) : Prop where
  disk_eq : w.disk = histDisk (h ++ g)
  files_eq : w.files = (h ++ g).map Prod.fst
  sorted : ((h ++ g).map Prod.fst).Pairwise (· < ·)
  lt : ∀ f ∈ (h ++ g).map Prod.fst, f < w.nextId
  le_next : id0 ≤ w.nextId
  gne : g ≠ []
  gids : ∀ f ∈ g.map Prod.fst, id0 ≤ f
  recs : ∀ p ∈ h ++ g, ∀ x ∈ p.2, WfRec x ∧ PairOk S x
  size : ∀ p ∈ h ++ g, p.2 = [] ∨ (encodeRecs p.2.dropLast).length < SEGMENT_SIZE
  dreads : ∀ p ∈ done, w.read_value p.2 = .ok (V p.1) ∧ p.2.vsz = (V p.1).length ∧
    p.2.file_id ∈ g.map Prod.fst
  replay : ∀ q, mapLookup q (replayHist g []) =
    (mapLookup q done).bind (fun ve => if ve.vsz = 0 then none else some ve)

/-- Truncate the named segment by `n` trailing bytes. -/
def truncFile (d : Disk) (fid n : Nat) : Disk :=
  d.map (fun p => if p.1 == fid then (p.1, p.2.take (p.2.length - n)) else p)

/-- Replace the named segment's content. -/
def setFile (d : Disk) (fid : Nat) (bs : Bytes) : Disk :=
  d.map (fun p => if p.1 == fid then (p.1, bs) else p)

/-- The record `Wal::write` lays down for the given arguments (a `RM`
writes no value bytes and a zero value size). -/
def recOf (k v : Bytes) : Operation → Rec
  | .SET => ⟨k, v⟩
  | .RM => ⟨k, []⟩

/-- Result of appending one record at the history level. -/
structure HApp where
  hist : Hist
  fid : Nat
  nid : Nat
  vpos : Nat

/-- History-level mirror of `create_log_file_if_needed` followed by the
append: roll over to segment `nid` when the last segment is full,
otherwise extend the last segment; reports the target segment, the next
fresh identifier and the value position of the new record. -/
def histAppend (h : Hist) (nid : Nat) (r : Rec) : HApp :=
  match h.getLast? with
  | some p =>
    if SEGMENT_SIZE ≤ (encodeRecs p.2).length then
      ⟨h ++ [(nid, [r])], nid, nid + 1, 16 + r.key.length⟩
    else
      ⟨h.dropLast ++ [(p.1, p.2 ++ [r])], p.1, nid,
        (encodeRecs p.2).length + 16 + r.key.length⟩
  | none => ⟨h ++ [(nid, [r])], nid, nid + 1, 16 + r.key.length⟩

/-- The observable value of `get(k)` after a sequence: the most recent
`set(k, v)` not followed by a `remove(k)`, except that an empty `v` reads
back as absent (its index entry has `vsz = 0`). -/
def lwwGet (S : List Op) (k : Bytes) : Option Bytes :=
  match lwwSpec S k with
  | some v => if v = [] then none else some v
  | none => none

theorem usizeBytes_length (n : Nat) : (usizeBytes n).length = 8 := rfl

theorem fromLe8_usizeBytes {n : Nat} (h : n < 2 ^ 64) : fromLe8 (usizeBytes n) = n := by
  simp only [fromLe8, usizeBytes, List.foldr_cons, List.foldr_nil]
  omega

theorem encodeRec_length (r : Rec) : (encodeRec r).length = recSize r := by
  simp [encodeRec, recSize, usizeBytes_length]
  omega

theorem encodeRecs_cons (r : Rec) (rs : List Rec) :
    encodeRecs (r :: rs) = encodeRec r ++ encodeRecs rs := rfl

theorem encodeRecs_append (rs ts : List Rec) :
    encodeRecs (rs ++ ts) = encodeRecs rs ++ encodeRecs ts := by
  induction rs with
  | nil => rfl
  | cons r rs ih => simp [encodeRecs_cons, ih]

theorem length_le_encodeRecs (rs : List Rec) : rs.length ≤ (encodeRecs rs).length := by
  induction rs with
  | nil => simp [encodeRecs]
  | cons r rs ih =>
    simp only [encodeRecs_cons, List.length_append, List.length_cons, encodeRec_length]
    have : 16 ≤ recSize r := by simp [recSize]; omega
    omega

theorem readExactAt_zero (data : Bytes) (off : Nat) :
    readExactAt data off 0 = .ok [] := by
  simp [readExactAt]

theorem readExactAt_ok_bound {data : Bytes} {off len : Nat} {v : Bytes}
    (h : readExactAt data off len = .ok v) : len = 0 ∨ off + len ≤ data.length := by
  by_cases h0 : len = 0
  · exact Or.inl h0
  · by_cases hb : off + len ≤ data.length
    · exact Or.inr hb
    · simp [readExactAt, h0, hb] at h

theorem readExactAt_ok_length {data : Bytes} {off len : Nat} {v : Bytes}
    (h : readExactAt data off len = .ok v) : v.length = len := by
  by_cases h0 : len = 0
  · simp [readExactAt, h0] at h
    simp [← h, h0]
  · by_cases hb : off + len ≤ data.length
    · simp [readExactAt, h0, hb] at h
      subst h
      simp [List.length_take, List.length_drop]
      omega
    · simp [readExactAt, h0, hb] at h

theorem readExactAt_eof {data : Bytes} {off len : Nat}
    (h1 : data.length < off + len) (h2 : len ≠ 0) :
    readExactAt data off len = .error (.ioError .unexpectedEof) := by
  simp [readExactAt, h2]
  omega

theorem readExactAt_of_eq {a pre mid suf : Bytes} {off len : Nat}
    (ha : a = pre ++ (mid ++ suf)) (hoff : off = pre.length) (hlen : len = mid.length) :
    readExactAt a off len = .ok mid := by
  subst ha hoff hlen
  by_cases h0 : mid.length = 0
  · simp [readExactAt, h0, List.length_eq_zero.1 h0]
  · have hb : pre.length + mid.length ≤ (pre ++ (mid ++ suf)).length := by
      simp only [List.length_append]
      omega
    simp only [readExactAt, h0, if_false, hb, if_true]
    congr 1
    rw [List.drop_append_of_le_length (by omega), List.drop_length, List.nil_append,
      List.take_append_of_le_length (by omega), List.take_length]

theorem take_agree_of_append {a : Bytes} {pre suf : Bytes} (h : a = pre ++ suf) :
    a.take pre.length = pre := by
  subst h
  simp

theorem readExactAt_congr {a b : Bytes} {n off len : Nat}
    (hab : a.take n = b.take n) (hna : n ≤ a.length) (h : off + len ≤ n) :
    readExactAt a off len = readExactAt b off len := by
  have hnb : n ≤ b.length := by
    have := congrArg List.length hab
    simp [List.length_take] at this
    omega
  by_cases h0 : len = 0
  · simp [readExactAt, h0]
  · have hba : off + len ≤ a.length := le_trans h hna
    have hbb : off + len ≤ b.length := le_trans h hnb
    simp only [readExactAt, h0, if_false, hba, if_true, hbb]
    congr 1
    have ha' : (a.drop off).take len = ((a.take n).drop off).take len := by
      rw [List.drop_take]
      rw [List.take_take]
      congr 1
      omega
    have hb' : (b.drop off).take len = ((b.take n).drop off).take len := by
      rw [List.drop_take]
      rw [List.take_take]
      congr 1
      omega
    rw [ha', hb', hab]

theorem readSizeAt_of_eq {a pre suf : Bytes} {off n : Nat}
    (ha : a = pre ++ (usizeBytes n ++ suf)) (hoff : off = pre.length) (hn : n < 2 ^ 64) :
    readSizeAt a off = .ok (n, off + 8) := by
  have h8 : (8 : Nat) = (usizeBytes n).length := by rw [usizeBytes_length]
  simp only [readSizeAt, readExactAt_of_eq ha hoff h8, fromLe8_usizeBytes hn]

theorem readSizeAt_eof {data : Bytes} {off : Nat} (h : data.length < off + 8) :
    readSizeAt data off = .error (.ioError .unexpectedEof) := by
  rw [readSizeAt, readExactAt_eof h (by omega)]

theorem readAt_eof_short {data : Bytes} {off : Nat} (h : data.length < off + 8) :
    readAt data off = .error (.ioError .unexpectedEof) := by
  rw [readAt, readSizeAt_eof h]

theorem readAt_encodeRec {a pre suf : Bytes} {off : Nat} {r : Rec}
    (ha : a = pre ++ (encodeRec r ++ suf)) (hoff : off = pre.length)
    (hk : r.key.length < 2 ^ 64) (hv : r.value.length < 2 ^ 64)
    (hu : isValidUtf8 r.key = true) :
    readAt a off = .ok (r.key, r.value.length, off + 16 + r.key.length) := by
  have ha1 : a = pre ++ (usizeBytes r.key.length ++
      (usizeBytes r.value.length ++ (r.key ++ (r.value ++ suf)))) := by
    rw [ha]; simp [encodeRec]
  have ha2 : a = (pre ++ usizeBytes r.key.length) ++
      (usizeBytes r.value.length ++ (r.key ++ (r.value ++ suf))) := by
    rw [ha1]; simp
  have ha3 : a = (pre ++ usizeBytes r.key.length ++ usizeBytes r.value.length) ++
      (r.key ++ (r.value ++ suf)) := by
    rw [ha1]; simp
  have hlen2 : off + 8 = (pre ++ usizeBytes r.key.length).length := by
    simp [hoff, usizeBytes_length]
  have hlen3 : off + 8 + 8 =
      (pre ++ usizeBytes r.key.length ++ usizeBytes r.value.length).length := by
    simp [hoff, usizeBytes_length]
  simp only [readAt, readSizeAt_of_eq ha1 hoff hk, readSizeAt_of_eq ha2 hlen2 hv,
    readExactAt_of_eq ha3 hlen3 rfl, hu, if_true]

theorem readAt_truncated {a pre : Bytes} {off m : Nat} {r : Rec}
    (ha : a = pre ++ (encodeRec r).take m) (hoff : off = pre.length)
    (hm : m < 16 + r.key.length)
    (hk : r.key.length < 2 ^ 64) (hv : r.value.length < 2 ^ 64) :
    readAt a off = .error (.ioError .unexpectedEof) := by
  have hrs : 16 + r.key.length ≤ recSize r := by
    simp [recSize]
  have hlen : a.length = pre.length + m := by
    rw [ha]
    simp only [List.length_append, List.length_take, encodeRec_length]
    omega
  by_cases h8 : m < 8
  · exact readAt_eof_short (by omega)
  · have htk : (encodeRec r).take m = usizeBytes r.key.length ++
        ((usizeBytes r.value.length ++ (r.key ++ r.value)).take (m - 8)) := by
      rw [encodeRec, List.append_assoc, List.append_assoc, List.take_append_eq_append_take,
        List.take_of_length_le (by rw [usizeBytes_length]; omega), usizeBytes_length]
    have ha1 : a = pre ++ (usizeBytes r.key.length ++
        ((usizeBytes r.value.length ++ (r.key ++ r.value)).take (m - 8))) := by
      rw [ha, htk]
    by_cases h16 : m < 16
    · simp only [readAt, readSizeAt_of_eq ha1 hoff hk, readSizeAt_eof (show a.length < off + 8 + 8 by omega)]
    · have htk2 : (usizeBytes r.value.length ++ (r.key ++ r.value)).take (m - 8)
          = usizeBytes r.value.length ++ ((r.key ++ r.value).take (m - 16)) := by
        rw [List.take_append_eq_append_take,
          List.take_of_length_le (by rw [usizeBytes_length]; omega), usizeBytes_length]
        congr 1
      have ha2 : a = (pre ++ usizeBytes r.key.length) ++
          (usizeBytes r.value.length ++ ((r.key ++ r.value).take (m - 16))) := by
        rw [ha1, htk2]
        simp
      have h2off : off + 8 = (pre ++ usizeBytes r.key.length).length := by
        simp [hoff, usizeBytes_length]
      simp only [readAt, readSizeAt_of_eq ha1 hoff hk, readSizeAt_of_eq ha2 h2off hv,
        readExactAt_eof (show a.length < off + 8 + 8 + r.key.length by omega)
          (show r.key.length ≠ 0 by omega)]

theorem find?_filter_of_imp {α : Type} {p q : α → Bool} (l : List α)
    (h : ∀ x, p x = true → q x = true) : (l.filter q).find? p = l.find? p := by
  induction l with
  | nil => rfl
  | cons a t ih =>
    by_cases hq : q a = true
    · rw [List.filter_cons, if_pos hq, List.find?_cons, List.find?_cons]
      cases hp : p a
      · exact ih
      · rfl
    · have hp : p a = false := by
        cases hpa : p a
        · rfl
        · exact absurd (h a hpa) hq
      rw [List.filter_cons, if_neg hq, List.find?_cons, hp, ih]

theorem mapLookup_nil (k : Bytes) : mapLookup k ([] : Map) = none := rfl

theorem mapLookup_remove_self (k : Bytes) (m : Map) :
    mapLookup k (mapRemove k m) = none := by
  rw [mapLookup, mapRemove]
  rw [List.find?_eq_none.2]
  · rfl
  · intro x hx hpx
    have := List.of_mem_filter hx
    rw [hpx] at this
    simp at this

theorem mapLookup_remove_ne {k k' : Bytes} (h : k' ≠ k) (m : Map) :
    mapLookup k' (mapRemove k m) = mapLookup k' m := by
  rw [mapLookup, mapRemove, mapLookup]
  rw [find?_filter_of_imp]
  intro x hx
  simp only [beq_iff_eq] at hx
  simp [hx, h]

theorem mapLookup_insert_self (k : Bytes) (ve : ValueEntry) (m : Map) :
    mapLookup k (mapInsert k ve m) = some ve := by
  rw [mapInsert, mapLookup, List.find?_append]
  have h1 : (mapRemove k m).find? (fun p => p.1 == k) = none := by
    have := mapLookup_remove_self k m
    rw [mapLookup] at this
    cases hf : (mapRemove k m).find? (fun p => p.1 == k)
    · rfl
    · rw [hf] at this
      simp at this
  rw [h1]
  simp [List.find?_cons]

theorem mapLookup_insert_ne {k k' : Bytes} (h : k' ≠ k) (ve : ValueEntry) (m : Map) :
    mapLookup k' (mapInsert k ve m) = mapLookup k' m := by
  have h2 : ([(k, ve)] : Map).find? (fun p => p.1 == k') = none := by
    simp [List.find?_cons, Ne.symm h]
  rw [mapInsert, mapLookup, List.find?_append, h2]
  have h4 : ((mapRemove k m).find? (fun p => p.1 == k')).or none
      = (mapRemove k m).find? (fun p => p.1 == k') := by
    cases (mapRemove k m).find? (fun p => p.1 == k') <;> rfl
  rw [h4]
  exact mapLookup_remove_ne h m

theorem mapRemove_keys_sub (k : Bytes) (m : Map) (x : Bytes)
    (hx : x ∈ (mapRemove k m).map Prod.fst) : x ∈ m.map Prod.fst := by
  simp only [mapRemove, List.mem_map] at hx ⊢
  obtain ⟨p, hp, hpx⟩ := hx
  exact ⟨p, List.mem_of_mem_filter hp, hpx⟩

theorem mapRemove_nodup (k : Bytes) (m : Map)
    (h : (m.map Prod.fst).Nodup) : ((mapRemove k m).map Prod.fst).Nodup := by
  rw [mapRemove]
  induction m with
  | nil => simp
  | cons a t ih =>
    simp only [List.map_cons, List.nodup_cons] at h
    rw [List.filter_cons]
    by_cases hq : (!(a.1 == k)) = true
    · rw [if_pos hq]
      simp only [List.map_cons, List.nodup_cons]
      refine ⟨fun hc => h.1 ?_, ih h.2⟩
      exact mapRemove_keys_sub k t a.1 hc
    · rw [if_neg hq]
      exact ih h.2

theorem mapInsert_nodup (k : Bytes) (ve : ValueEntry) (m : Map)
    (h : (m.map Prod.fst).Nodup) : ((mapInsert k ve m).map Prod.fst).Nodup := by
  rw [mapInsert, List.map_append]
  rw [List.nodup_append]
  refine ⟨mapRemove_nodup k m h, by simp, ?_⟩
  intro x hx hx2
  simp only [List.map_cons, List.map_nil, List.mem_singleton] at hx2
  subst hx2
  simp only [mapRemove, List.mem_map] at hx
  obtain ⟨p, hp, hpk⟩ := hx
  have hf := List.of_mem_filter hp
  simp [hpk] at hf

theorem loadLoopF_spec (fid : Nat) (rs : List Rec) : ∀ (pre tail : Bytes) (m : Map) (c fuel : Nat),
    (∀ r ∈ rs, WfRec r) →
    readAt (pre ++ (encodeRecs rs ++ tail)) (pre.length + (encodeRecs rs).length)
      = .error (.ioError .unexpectedEof) →
    rs.length < fuel →
    loadLoopF (pre ++ (encodeRecs rs ++ tail)) fid fuel m pre.length c
      = .ok (replayRecs fid pre.length m rs, c + rs.length) := by
  induction rs with
  | nil =>
    intro pre tail m c fuel hwf heof hfuel
    match fuel, hfuel with
    | fuel + 1, _ =>
      have heof' : readAt (pre ++ (encodeRecs ([] : List Rec) ++ tail)) pre.length
          = .error (.ioError .unexpectedEof) := by
        have h0 : pre.length + (encodeRecs ([] : List Rec)).length = pre.length := by
          simp [encodeRecs]
        rw [← h0]
        exact heof
      rw [loadLoopF, heof']
      simp [replayRecs]
  | cons r rs ih =>
    intro pre tail m c fuel hwf heof hfuel
    match fuel, hfuel with
    | fuel + 1, hfuel =>
      have hwr : WfRec r := hwf r (by simp)
      have hdata : pre ++ (encodeRecs (r :: rs) ++ tail)
          = (pre ++ encodeRec r) ++ (encodeRecs rs ++ tail) := by
        simp [encodeRecs_cons]
      have hshape : pre ++ (encodeRecs (r :: rs) ++ tail)
          = pre ++ (encodeRec r ++ (encodeRecs rs ++ tail)) := by
        simp [encodeRecs_cons]
      have hread : readAt (pre ++ (encodeRecs (r :: rs) ++ tail)) pre.length
          = .ok (r.key, r.value.length, pre.length + 16 + r.key.length) :=
        readAt_encodeRec hshape rfl hwr.1 hwr.2.1 hwr.2.2.1
      have hprelen : (pre ++ encodeRec r).length = pre.length + recSize r := by
        simp [encodeRec_length]
      have heof2 : readAt ((pre ++ encodeRec r) ++ (encodeRecs rs ++ tail))
          ((pre ++ encodeRec r).length + (encodeRecs rs).length)
          = .error (.ioError .unexpectedEof) := by
        rw [← hdata, hprelen]
        have h1 : pre.length + recSize r + (encodeRecs rs).length
            = pre.length + (encodeRecs (r :: rs)).length := by
          simp [encodeRecs_cons, encodeRec_length]
          omega
        rw [h1]
        exact heof
      have ihp := ih (pre ++ encodeRec r) tail
      simp only [loadLoopF, hread]
      by_cases hz : r.value.length = 0
      · rw [if_pos hz]
        have hoff : pre.length + 16 + r.key.length = (pre ++ encodeRec r).length := by
          rw [hprelen, recSize]
          omega
        rw [hoff, hdata]
        rw [ihp (mapRemove r.key m) (c + 1) fuel (fun x hx => hwf x (by simp [hx])) heof2 (by simpa using hfuel)]
        have happ : replayRecs fid pre.length m (r :: rs)
            = replayRecs fid (pre.length + recSize r) (mapRemove r.key m) rs := by
          rw [replayRecs, applyRec, if_pos hz]
        rw [happ, ← hprelen]
        simp only [List.length_cons]
        rw [show c + 1 + rs.length = c + (rs.length + 1) from by omega]
      · rw [if_neg hz]
        have hoff : pre.length + 16 + r.key.length + r.value.length
            = (pre ++ encodeRec r).length := by
          rw [hprelen, recSize]
          omega
        rw [hoff, hdata]
        rw [ihp (mapInsert r.key ⟨fid, r.value.length, pre.length + 16 + r.key.length⟩ m)
          (c + 1) fuel (fun x hx => hwf x (by simp [hx])) heof2 (by simpa using hfuel)]
        have happ : replayRecs fid pre.length m (r :: rs)
            = replayRecs fid (pre.length + recSize r)
                (mapInsert r.key ⟨fid, r.value.length, pre.length + 16 + r.key.length⟩ m) rs := by
          rw [replayRecs, applyRec, if_neg hz]
        rw [happ, ← hprelen]
        simp only [List.length_cons]
        rw [show c + 1 + rs.length = c + (rs.length + 1) from by omega]

theorem load_log_file_spec (w : Wal) (fid : Nat) (rs : List Rec) (tail : Bytes) (m : Map)
    (hfile : getFile w fid = encodeRecs rs ++ tail)
    (hwf : ∀ r ∈ rs, WfRec r)
    (heof : readAt (encodeRecs rs ++ tail) (encodeRecs rs).length
      = .error (.ioError .unexpectedEof)) :
    w.load_log_file fid m = .ok (replayRecs fid 0 m rs, rs.length) := by
  have hfuel : rs.length < (encodeRecs rs ++ tail).length + 1 := by
    have := length_le_encodeRecs rs
    simp only [List.length_append]
    omega
  have h := loadLoopF_spec fid rs [] tail m 0 ((encodeRecs rs ++ tail).length + 1) hwf
    (by simpa using heof) (by simpa using hfuel)
  simp only [Wal.load_log_file, hfile]
  simpa using h

theorem load_log_file_clean (w : Wal) (fid : Nat) (rs : List Rec) (m : Map)
    (hfile : getFile w fid = encodeRecs rs)
    (hwf : ∀ r ∈ rs, WfRec r) :
    w.load_log_file fid m = .ok (replayRecs fid 0 m rs, rs.length) := by
  apply load_log_file_spec w fid rs [] m (by simpa using hfile) hwf
  apply readAt_eof_short
  simp only [List.append_nil]
  omega

theorem replayGo_hist (w : Wal) : ∀ (h : Hist) (m : Map) (c : Nat),
    (∀ p ∈ h, getFile w p.1 = encodeRecs p.2 ∧ ∀ r ∈ p.2, WfRec r) →
    replayGo w (h.map Prod.fst) m c = .ok (replayHist h m, c + countHist h)
  | [], m, c, _ => by
    simp [replayGo, replayHist, countHist]
  | (fid, rs) :: t, m, c, hh => by
    have h1 := hh (fid, rs) (by simp)
    rw [List.map_cons]
    simp only [replayGo, load_log_file_clean w fid rs m h1.1 h1.2]
    rw [replayGo_hist w t _ _ (fun p hp => hh p (by simp [hp]))]
    simp only [replayHist, countHist, List.map_cons, List.sum_cons]
    rw [show c + rs.length + (t.map (fun p => p.2.length)).sum
      = c + (rs.length + (t.map (fun p => p.2.length)).sum) from by omega]

theorem replay_hist (w : Wal) (h : Hist) (m : Map)
    (hfiles : w.files = h.map Prod.fst)
    (hcontent : ∀ p ∈ h, getFile w p.1 = encodeRecs p.2 ∧ ∀ r ∈ p.2, WfRec r) :
    w.replay m = .ok (replayHist h m, countHist h) := by
  rw [Wal.replay, hfiles, replayGo_hist w h m 0 hcontent, Nat.zero_add]

theorem insertSorted_eq_cons {x : Nat} {t : List Nat} (h : ∀ y ∈ t, x ≤ y) :
    insertSorted x t = x :: t := by
  cases t with
  | nil => rfl
  | cons y t' =>
    rw [insertSorted, if_pos (h y (by simp))]

theorem sortNat_of_sorted {l : List Nat} (h : l.Pairwise (· < ·)) : sortNat l = l := by
  induction l with
  | nil => rfl
  | cons x t ih =>
    rw [List.pairwise_cons] at h
    rw [sortNat, ih h.2, insertSorted_eq_cons (fun y hy => Nat.le_of_lt (h.1 y hy))]

theorem find?_of_mem_nodup {d : Disk} (hnd : (d.map Prod.fst).Nodup) {fid : Nat} {bs : Bytes}
    (hm : (fid, bs) ∈ d) : d.find? (fun p => p.1 == fid) = some (fid, bs) := by
  induction d with
  | nil => simp at hm
  | cons q t ih =>
    simp only [List.map_cons, List.nodup_cons] at hnd
    rcases List.mem_cons.1 hm with h1 | h1
    · subst h1
      simp [List.find?_cons]
    · have hne : q.1 ≠ fid := by
        intro hc
        apply hnd.1
        rw [hc]
        exact List.mem_map.2 ⟨(fid, bs), h1, rfl⟩
      have hbeq : (q.1 == fid) = false := by simp [hne]
      rw [List.find?_cons, hbeq]
      exact ih hnd.2 h1

theorem getFile_histDisk {h : Hist} (hnd : (h.map Prod.fst).Nodup) {fid : Nat} {rs : List Rec}
    (hm : (fid, rs) ∈ h) :
    getFile ⟨(histDisk h).map Prod.fst, histDisk h, ((histDisk h).map Prod.fst).foldr max 0 + 1⟩ fid
      = encodeRecs rs := by
  have hmem : (fid, encodeRecs rs) ∈ histDisk h :=
    List.mem_map.2 ⟨(fid, rs), hm, rfl⟩
  have hnd' : ((histDisk h).map Prod.fst).Nodup := by
    have : (histDisk h).map Prod.fst = h.map Prod.fst := by
      simp [histDisk]
    rw [this]
    exact hnd
  rw [getFile, find?_of_mem_nodup hnd' hmem]
  rfl

theorem nodup_of_sorted {l : List Nat} (h : l.Pairwise (· < ·)) : l.Nodup :=
  h.imp Nat.ne_of_lt

theorem getFile_hist {w : Wal} {h : Hist} (hdisk : w.disk = histDisk h)
    (hnd : (h.map Prod.fst).Nodup) {fid : Nat} {rs : List Rec} (hm : (fid, rs) ∈ h) :
    getFile w fid = encodeRecs rs := by
  have hmem : (fid, encodeRecs rs) ∈ histDisk h := List.mem_map.2 ⟨(fid, rs), hm, rfl⟩
  have hnd' : ((histDisk h).map Prod.fst).Nodup := by
    have he : (histDisk h).map Prod.fst = h.map Prod.fst := by
      simp [histDisk]
    rw [he]
    exact hnd
  rw [getFile, hdisk, find?_of_mem_nodup hnd' hmem]
  rfl

theorem ensureFile_mem {w : Wal} {fid : Nat} (h : fid ∈ w.disk.map Prod.fst) :
    ensureFile w fid = w := by
  rw [ensureFile, if_pos]
  rw [List.find?_isSome]
  simp only [List.mem_map] at h
  obtain ⟨p, hp, hfid⟩ := h
  exact ⟨p, hp, by simp [hfid]⟩

theorem ensureFile_not_mem {w : Wal} {fid : Nat} (h : fid ∉ w.disk.map Prod.fst) :
    ensureFile w fid = { w with disk := w.disk ++ [(fid, [])] } := by
  have hn : w.disk.find? (fun p => p.1 == fid) = none := by
    rw [List.find?_eq_none]
    intro x hx hpx
    exact h (List.mem_map.2 ⟨x, hx, by simpa using hpx⟩)
  rw [ensureFile, hn]
  rfl

theorem diskAppend_nil (d : Disk) (fid : Nat) : diskAppend d fid [] = d := by
  simp [diskAppend]

theorem diskAppend_append_dist (d1 d2 : Disk) (fid : Nat) (bs : Bytes) :
    diskAppend (d1 ++ d2) fid bs = diskAppend d1 fid bs ++ diskAppend d2 fid bs := by
  simp [diskAppend]

theorem diskAppend_not_mem {d : Disk} {fid : Nat} (h : fid ∉ d.map Prod.fst) (bs : Bytes) :
    diskAppend d fid bs = d := by
  induction d with
  | nil => rfl
  | cons p t ih =>
    simp only [List.map_cons, List.mem_cons, not_or] at h
    simp only [diskAppend, List.map_cons]
    rw [if_neg (by simp; exact fun hc => h.1 hc.symm)]
    have ht := ih h.2
    simp only [diskAppend] at ht
    rw [ht]

theorem diskAppend_cons_self (fid : Nat) (old bs : Bytes) (t : Disk) :
    diskAppend ((fid, old) :: t) fid bs = (fid, old ++ bs) :: diskAppend t fid bs := by
  simp [diskAppend]

theorem diskAppend_diskAppend (d : Disk) (fid : Nat) (a b : Bytes) :
    diskAppend (diskAppend d fid a) fid b = diskAppend d fid (a ++ b) := by
  induction d with
  | nil => rfl
  | cons p t ih =>
    simp only [diskAppend, List.map_cons] at ih ⊢
    rw [ih]
    by_cases hp : (p.1 == fid) = true
    · rw [if_pos hp, if_pos hp, if_pos (show (((p.1, p.2 ++ a) : Nat × Bytes).1 == fid) = true from hp)]
      simp
    · rw [if_neg hp, if_neg hp, if_neg hp]

theorem getFile_last_absent {d : Disk} {fid : Nat} (h : fid ∉ d.map Prod.fst) (bs : Bytes)
    (w : Wal) (hw : w.disk = d ++ [(fid, bs)]) : getFile w fid = bs := by
  rw [getFile, hw, List.find?_append]
  have h1 : d.find? (fun p => p.1 == fid) = none := by
    rw [List.find?_eq_none]
    intro x hx hpx
    exact h (List.mem_map.2 ⟨x, hx, by simpa using hpx⟩)
  rw [h1]
  simp [List.find?_cons]

theorem write_eq_writeRec (w : Wal) (k v : Bytes) (mode : Operation) :
    Wal.write w k v mode = Wal.write w (recOf k v mode).key (recOf k v mode).value .SET := by
  cases mode <;> rfl

theorem create_nil {w : Wal} (hf : w.files = []) :
    w.create_log_file_if_needed = pushNew w := by
  rw [Wal.create_log_file_if_needed, hf, List.getLast?_nil]

theorem create_concat {w : Wal} {l : List Nat} {f : Nat} (hf : w.files = l ++ [f])
    (hmem : f ∈ w.disk.map Prod.fst) :
    w.create_log_file_if_needed =
      if SEGMENT_SIZE ≤ (getFile w f).length then pushNew w else w := by
  rw [Wal.create_log_file_if_needed, hf, List.getLast?_concat]
  simp only [ensureFile_mem hmem]

theorem write_set_nil {w : Wal} (hf : w.files = []) (hd : w.disk = []) (k v : Bytes) :
    Wal.write w k v .SET =
      (⟨[w.nextId], [(w.nextId, encodeRec ⟨k, v⟩)], w.nextId + 1⟩,
       ⟨w.nextId, v.length, 16 + k.length⟩) := by
  obtain ⟨f, d, n⟩ := w
  simp only at hf hd
  subst hf hd
  by_cases hv : 0 < v.length
  · simp [Wal.write, Wal.create_log_file_if_needed, pushNew, ensureFile,
      getFile, diskAppend, encodeRec, hv, usizeBytes_length, List.append_assoc]
    omega
  · have hv0 : v = [] := by
      rw [← List.length_eq_zero]
      omega
    subst hv0
    simp [Wal.write, Wal.create_log_file_if_needed, pushNew, ensureFile,
      getFile, diskAppend, encodeRec, usizeBytes_length, List.append_assoc]
    omega

theorem write_set_roll {w : Wal} {l : List Nat} {f : Nat} (hf : w.files = l ++ [f])
    (hmem : f ∈ w.disk.map Prod.fst)
    (hbig : SEGMENT_SIZE ≤ (getFile w f).length)
    (hnid : w.nextId ∉ w.disk.map Prod.fst)
    (k v : Bytes) :
    Wal.write w k v .SET =
      (⟨w.files ++ [w.nextId], w.disk ++ [(w.nextId, encodeRec ⟨k, v⟩)], w.nextId + 1⟩,
       ⟨w.nextId, v.length, 16 + k.length⟩) := by
  have hcr : w.create_log_file_if_needed = pushNew w := by
    rw [create_concat hf hmem, if_pos hbig]
  have hfid : (pushNew w).files.getLast?.getD 0 = w.nextId := by
    rw [pushNew]
    simp only [List.getLast?_concat, Option.getD_some]
  have hens : ensureFile (pushNew w) w.nextId =
      ⟨(pushNew w).files, w.disk ++ [(w.nextId, [])], (pushNew w).nextId⟩ := by
    rw [ensureFile_not_mem (show w.nextId ∉ (pushNew w).disk.map Prod.fst from hnid)]
    rfl
  have hda2 : ∀ a b : Bytes, diskAppend (w.disk ++ [(w.nextId, a)]) w.nextId b
      = w.disk ++ [(w.nextId, a ++ b)] := by
    intro a b
    rw [diskAppend_append_dist, diskAppend_not_mem hnid, diskAppend_cons_self]
    rfl
  have hget : ∀ (fs : List Nat) (n2 : Nat) (bs : Bytes),
      getFile ⟨fs, w.disk ++ [(w.nextId, bs)], n2⟩ w.nextId = bs := by
    intro fs n2 bs
    exact getFile_last_absent hnid bs _ rfl
  by_cases hv : 0 < v.length
  · simp only [Wal.write, hcr, hfid, hens]
    rw [if_pos hv]
    simp [hda2, hget, pushNew, encodeRec, usizeBytes_length, List.append_assoc]
    omega
  · have hv0 : v = [] := by
      rw [← List.length_eq_zero]
      omega
    subst hv0
    simp only [Wal.write, hcr, hfid, hens]
    rw [if_neg hv]
    simp [hda2, hget, pushNew, encodeRec, usizeBytes_length, List.append_assoc]
    omega

theorem write_set_app {w : Wal} {d₀ : Disk} {f : Nat} {bs : Bytes} {l : List Nat}
    (hf : w.files = l ++ [f]) (hd : w.disk = d₀ ++ [(f, bs)])
    (hf0 : f ∉ d₀.map Prod.fst)
    (hsmall : bs.length < SEGMENT_SIZE)
    (k v : Bytes) :
    Wal.write w k v .SET =
      (⟨w.files, d₀ ++ [(f, bs ++ encodeRec ⟨k, v⟩)], w.nextId⟩,
       ⟨f, v.length, bs.length + 16 + k.length⟩) := by
  have hmem : f ∈ w.disk.map Prod.fst := by
    rw [hd]
    simp
  have hget : getFile w f = bs := getFile_last_absent hf0 bs w hd
  have hcr : w.create_log_file_if_needed = w := by
    rw [create_concat hf hmem, hget, if_neg (by omega)]
  have hfid : w.files.getLast?.getD 0 = f := by
    rw [hf]
    simp only [List.getLast?_concat, Option.getD_some]
  have hens : ensureFile w f = w := ensureFile_mem hmem
  have hda2 : ∀ a b : Bytes, diskAppend (d₀ ++ [(f, a)]) f b = d₀ ++ [(f, a ++ b)] := by
    intro a b
    rw [diskAppend_append_dist, diskAppend_not_mem hf0, diskAppend_cons_self]
    rfl
  have hda : ∀ cs : Bytes, diskAppend w.disk f cs = d₀ ++ [(f, bs ++ cs)] := by
    intro cs
    rw [hd, hda2]
  have hget2 : ∀ (fs : List Nat) (n2 : Nat) (cs : Bytes),
      getFile ⟨fs, d₀ ++ [(f, cs)], n2⟩ f = cs := by
    intro fs n2 cs
    exact getFile_last_absent hf0 cs _ rfl
  by_cases hv : 0 < v.length
  · simp only [Wal.write, hcr, hfid, hens]
    rw [if_pos hv]
    simp [hda, hda2, hget2, encodeRec, usizeBytes_length, List.append_assoc]
    omega
  · have hv0 : v = [] := by
      rw [← List.length_eq_zero]
      omega
    subst hv0
    simp only [Wal.write, hcr, hfid, hens]
    rw [if_neg hv]
    simp [hda, hda2, hget2, encodeRec, usizeBytes_length, List.append_assoc]
    omega

theorem encodeRecs_concat (rs : List Rec) (r : Rec) :
    encodeRecs (rs ++ [r]) = encodeRecs rs ++ encodeRec r := by
  rw [encodeRecs_append]
  simp [encodeRecs]

theorem write_hist {w : Wal} {h : Hist} (k v : Bytes)
    (hdisk : w.disk = histDisk h) (hfiles : w.files = h.map Prod.fst)
    (hsort : (h.map Prod.fst).Pairwise (· < ·))
    (hlt : ∀ fid ∈ h.map Prod.fst, fid < w.nextId) :
    Wal.write w k v .SET =
      (⟨(histAppend h w.nextId ⟨k, v⟩).hist.map Prod.fst,
        histDisk (histAppend h w.nextId ⟨k, v⟩).hist,
        (histAppend h w.nextId ⟨k, v⟩).nid⟩,
       ⟨(histAppend h w.nextId ⟨k, v⟩).fid, v.length,
        (histAppend h w.nextId ⟨k, v⟩).vpos⟩) := by
  rcases List.eq_nil_or_concat' h with rfl | ⟨h₀, p, rfl⟩
  · have hf : w.files = [] := by simpa using hfiles
    have hd : w.disk = [] := by simpa [histDisk] using hdisk
    rw [write_set_nil hf hd k v]
    simp [histAppend, histDisk, encodeRecs, hf]
  · have hnd : ((h₀ ++ [p]).map Prod.fst).Nodup := nodup_of_sorted hsort
    have hnd' : (h₀.map Prod.fst ++ [p.1]).Nodup := by simpa using hnd
    have hp0 : p.1 ∉ h₀.map Prod.fst := by
      rw [List.nodup_append] at hnd'
      intro hc
      exact hnd'.2.2 hc (by simp)
    have hpmem : (p.1, p.2) ∈ h₀ ++ [p] := by simp
    have hgetp : getFile w p.1 = encodeRecs p.2 := getFile_hist hdisk hnd hpmem
    have hfiles' : w.files = h₀.map Prod.fst ++ [p.1] := by simpa using hfiles
    have hdisk' : w.disk = histDisk h₀ ++ [(p.1, encodeRecs p.2)] := by
      rw [hdisk]
      simp [histDisk]
    have hnid : w.nextId ∉ w.disk.map Prod.fst := by
      intro hc
      have hids : w.disk.map Prod.fst = (h₀ ++ [p]).map Prod.fst := by
        rw [hdisk]
        simp [histDisk]
      rw [hids] at hc
      exact absurd (hlt _ hc) (by omega)
    by_cases hbig : SEGMENT_SIZE ≤ (encodeRecs p.2).length
    · rw [write_set_roll hfiles' (by rw [hdisk']; simp) (by rw [hgetp]; exact hbig) hnid k v]
      have hha : histAppend (h₀ ++ [p]) w.nextId ⟨k, v⟩ =
          ⟨(h₀ ++ [p]) ++ [(w.nextId, [⟨k, v⟩])], w.nextId, w.nextId + 1, 16 + k.length⟩ := by
        rw [histAppend, List.getLast?_concat]
        simp only [if_pos hbig]
      rw [hha]
      simp [histDisk, encodeRecs, hfiles, hdisk]
    · rw [write_set_app hfiles' hdisk' (by simpa [histDisk] using hp0) (by omega) k v]
      have hha : histAppend (h₀ ++ [p]) w.nextId ⟨k, v⟩ =
          ⟨h₀ ++ [(p.1, p.2 ++ [⟨k, v⟩])], p.1, w.nextId,
            (encodeRecs p.2).length + 16 + k.length⟩ := by
        rw [histAppend, List.getLast?_concat]
        simp only [if_neg hbig, List.dropLast_concat]
      rw [hha]
      simp [histDisk, encodeRecs_concat, hfiles', hdisk']

theorem histAppend_cases (h : Hist) (nid : Nat) (r : Rec) :
    (histAppend h nid r = ⟨h ++ [(nid, [r])], nid, nid + 1, 16 + r.key.length⟩ ∧
      (h = [] ∨ ∃ h₀ p, h = h₀ ++ [p] ∧ SEGMENT_SIZE ≤ (encodeRecs p.2).length))
    ∨ (∃ h₀ p, h = h₀ ++ [p] ∧ (encodeRecs p.2).length < SEGMENT_SIZE ∧
       histAppend h nid r = ⟨h₀ ++ [(p.1, p.2 ++ [r])], p.1, nid,
         (encodeRecs p.2).length + 16 + r.key.length⟩) := by
  rcases List.eq_nil_or_concat' h with rfl | ⟨h₀, p, rfl⟩
  · exact Or.inl ⟨rfl, Or.inl rfl⟩
  · by_cases hbig : SEGMENT_SIZE ≤ (encodeRecs p.2).length
    · refine Or.inl ⟨?_, Or.inr ⟨h₀, p, rfl, hbig⟩⟩
      rw [histAppend, List.getLast?_concat]
      simp only [if_pos hbig]
    · refine Or.inr ⟨h₀, p, rfl, by omega, ?_⟩
      rw [histAppend, List.getLast?_concat]
      simp only [if_neg hbig, List.dropLast_concat]

theorem applyRec_eq_applyRecV (fid off : Nat) (m : Map) (r : Rec) :
    applyRec fid off m r = applyRecV fid (off + 16 + r.key.length) m r := rfl

theorem replayRecs_concat (fid : Nat) (off : Nat) (m : Map) (rs : List Rec) (r : Rec) :
    replayRecs fid off m (rs ++ [r])
      = applyRec fid (off + (encodeRecs rs).length) (replayRecs fid off m rs) r := by
  induction rs generalizing off m with
  | nil => simp [replayRecs, encodeRecs]
  | cons r0 rs ih =>
    simp only [List.cons_append, replayRecs, List.append_eq]
    rw [ih]
    congr 1
    simp only [encodeRecs_cons, List.length_append, encodeRec_length]
    omega

theorem replayHist_concat (h : Hist) (p : Nat × List Rec) (m : Map) :
    replayHist (h ++ [p]) m = replayRecs p.1 0 (replayHist h m) p.2 := by
  induction h generalizing m with
  | nil => rfl
  | cons q t ih => simp [replayHist, ih]

theorem replayHist_histAppend (h : Hist) (nid : Nat) (r : Rec) (m : Map) :
    replayHist (histAppend h nid r).hist m =
      applyRecV (histAppend h nid r).fid (histAppend h nid r).vpos (replayHist h m) r := by
  rcases histAppend_cases h nid r with ⟨heq, _⟩ | ⟨h₀, p, rfl, hsmall, heq⟩
  · rw [heq]
    simp only [replayHist_concat]
    rw [show replayRecs nid 0 (replayHist h m) [r]
      = applyRec nid 0 (replayHist h m) r from rfl]
    rw [applyRec_eq_applyRecV, Nat.zero_add]
  · rw [heq]
    simp only [replayHist_concat]
    rw [replayRecs_concat, applyRec_eq_applyRecV, Nat.zero_add]

theorem mapLookup_applyRecV_self (fid vpos : Nat) (m : Map) (r : Rec) :
    mapLookup r.key (applyRecV fid vpos m r)
      = if r.value.length = 0 then none else some ⟨fid, r.value.length, vpos⟩ := by
  rw [applyRecV]
  by_cases hz : r.value.length = 0
  · rw [if_pos hz, if_pos hz, mapLookup_remove_self]
  · rw [if_neg hz, if_neg hz, mapLookup_insert_self]

theorem mapLookup_applyRecV_ne {k : Bytes} (fid vpos : Nat) (m : Map) (r : Rec)
    (hne : k ≠ r.key) :
    mapLookup k (applyRecV fid vpos m r) = mapLookup k m := by
  rw [applyRecV]
  by_cases hz : r.value.length = 0
  · rw [if_pos hz, mapLookup_remove_ne hne]
  · rw [if_neg hz, mapLookup_insert_ne hne]

theorem readExactAt_extend {a ext : Bytes} {off len : Nat} {v : Bytes}
    (hok : readExactAt a off len = .ok v) : readExactAt (a ++ ext) off len = .ok v := by
  rcases readExactAt_ok_bound hok with hz | hb
  · subst hz
    rw [readExactAt_zero] at hok ⊢
    exact hok
  · have hab : a.take a.length = (a ++ ext).take a.length := by
      rw [List.take_length, List.take_left]
    rw [← readExactAt_congr hab (Nat.le_refl _) hb]
    exact hok

theorem read_value_extend {w w' : Wal} {ve : ValueEntry} {ext : Bytes}
    (hfe : getFile w' ve.file_id = getFile w ve.file_id ++ ext)
    {v : Bytes} (hok : w.read_value ve = .ok v) : w'.read_value ve = .ok v := by
  rw [Wal.read_value] at hok ⊢
  cases hra : readExactAt (getFile w ve.file_id) ve.vpos ve.vsz with
  | error e =>
    rw [hra] at hok
    exact absurd hok (by simp)
  | ok buf =>
    rw [hra] at hok
    rw [hfe, readExactAt_extend hra]
    exact hok

theorem read_value_zero (w : Wal) (ve : ValueEntry) (hz : ve.vsz = 0) :
    w.read_value ve = .ok [] := by
  rw [Wal.read_value, hz, readExactAt_zero]
  rfl

theorem getFile_append_case {w w' : Wal} (d : Disk) (nid : Nat) (bs : Bytes)
    (hw : w.disk = d) (hw' : w'.disk = d ++ [(nid, bs)])
    (hnid : nid ∉ d.map Prod.fst) (fid : Nat) :
    ∃ ext, getFile w' fid = getFile w fid ++ ext := by
  by_cases hf : fid = nid
  · subst hf
    refine ⟨bs, ?_⟩
    rw [getFile_last_absent hnid bs w' hw']
    have hn : d.find? (fun p => p.1 == fid) = none := by
      rw [List.find?_eq_none]
      intro x hx hpx
      exact hnid (List.mem_map.2 ⟨x, hx, by simpa using hpx⟩)
    rw [getFile, hw, hn]
    rfl
  · refine ⟨[], ?_⟩
    rw [List.append_nil, getFile, getFile, hw, hw', List.find?_append]
    have h2 : ([(nid, bs)] : Disk).find? (fun p => p.1 == fid) = none := by
      rw [List.find?_eq_none]
      intro x hx hpx
      rw [List.mem_singleton] at hx
      subst hx
      simp only [beq_iff_eq] at hpx
      exact hf hpx.symm
    rw [h2]
    cases d.find? (fun p => p.1 == fid) <;> rfl

theorem getFile_append_last {w w' : Wal} (d₀ : Disk) (f : Nat) (bs cs : Bytes)
    (hw : w.disk = d₀ ++ [(f, bs)]) (hw' : w'.disk = d₀ ++ [(f, bs ++ cs)])
    (hf0 : f ∉ d₀.map Prod.fst) (fid : Nat) :
    ∃ ext, getFile w' fid = getFile w fid ++ ext := by
  by_cases hf : fid = f
  · subst hf
    refine ⟨cs, ?_⟩
    rw [getFile_last_absent hf0 (bs ++ cs) w' hw', getFile_last_absent hf0 bs w hw]
  · refine ⟨[], ?_⟩
    rw [List.append_nil, getFile, getFile, hw, hw', List.find?_append, List.find?_append]
    have h2 : ∀ es : Bytes, ([(f, es)] : Disk).find? (fun p => p.1 == fid) = none := by
      intro es
      rw [List.find?_eq_none]
      intro x hx hpx
      rw [List.mem_singleton] at hx
      subst hx
      simp only [beq_iff_eq] at hpx
      exact hf hpx.symm
    rw [h2, h2]

theorem histAppend_disk_extends {h : Hist} {nid : Nat} {r : Rec}
    (hnd : (h.map Prod.fst).Nodup)
    {w w' : Wal} (hw : w.disk = histDisk h)
    (hw' : w'.disk = histDisk (histAppend h nid r).hist)
    (hnmem : nid ∉ h.map Prod.fst) (fid : Nat) :
    ∃ ext, getFile w' fid = getFile w fid ++ ext := by
  have hids : (histDisk h).map Prod.fst = h.map Prod.fst := by
    simp [histDisk]
  rcases histAppend_cases h nid r with ⟨heq, _⟩ | ⟨h₀, p, rfl, hsmall, heq⟩
  · rw [heq] at hw'
    have hw'2 : w'.disk = histDisk h ++ [(nid, encodeRecs [r])] := by
      rw [hw']
      simp [histDisk]
    exact getFile_append_case (histDisk h) nid (encodeRecs [r]) hw hw'2
      (by rw [hids]; exact hnmem) fid
  · rw [heq] at hw'
    have hw'2 : w'.disk = histDisk h₀ ++ [(p.1, encodeRecs p.2 ++ encodeRec r)] := by
      rw [hw']
      simp [histDisk, encodeRecs_concat]
    have hw2 : w.disk = histDisk h₀ ++ [(p.1, encodeRecs p.2)] := by
      rw [hw]
      simp [histDisk]
    have hp0 : p.1 ∉ h₀.map Prod.fst := by
      have hnd' : (h₀.map Prod.fst ++ [p.1]).Nodup := by simpa using hnd
      rw [List.nodup_append] at hnd'
      intro hc
      exact hnd'.2.2 hc (by simp)
    exact getFile_append_last (histDisk h₀) p.1 (encodeRecs p.2) (encodeRec r) hw2 hw'2
      (by have : (histDisk h₀).map Prod.fst = h₀.map Prod.fst := by simp [histDisk]
          rw [this]
          exact hp0) fid

theorem lwwSpec_append (S : List Op) (op : Op) (q : Bytes) :
    lwwSpec (S ++ [op]) q = match op with
      | .set a v => if a == q then some v else lwwSpec S q
      | .remove a => if a == q then none else lwwSpec S q
      | .get _ => lwwSpec S q := by
  rw [lwwSpec, List.foldl_append]
  cases op <;> rfl

theorem PairOk_mono {S : List Op} (op : Op) {r : Rec} (h : PairOk S r) :
    PairOk (S ++ [op]) r := by
  rcases h with h1 | ⟨h1, u, h2⟩
  · exact Or.inl (List.mem_append_left _ h1)
  · exact Or.inr ⟨h1, u, List.mem_append_left _ h2⟩

theorem histAppend_ids_nid (h : Hist) (nid : Nat) (r : Rec) :
    ((histAppend h nid r).hist.map Prod.fst = h.map Prod.fst ++ [nid] ∧
      (histAppend h nid r).nid = nid + 1) ∨
    ((histAppend h nid r).hist.map Prod.fst = h.map Prod.fst ∧
      (histAppend h nid r).nid = nid) := by
  rcases histAppend_cases h nid r with ⟨heq, _⟩ | ⟨h₀, p, rfl, hsmall, heq⟩
  · rw [heq]
    exact Or.inl ⟨by simp, rfl⟩
  · rw [heq]
    exact Or.inr ⟨by simp, rfl⟩

theorem histAppend_recs {P : Rec → Prop} {h : Hist} {nid : Nat} {r : Rec}
    (hall : ∀ p ∈ h, ∀ x ∈ p.2, P x) (hr : P r) :
    ∀ p ∈ (histAppend h nid r).hist, ∀ x ∈ p.2, P x := by
  rcases histAppend_cases h nid r with ⟨heq, _⟩ | ⟨h₀, p, rfl, hsmall, heq⟩
  · rw [heq]
    intro q hq x hx
    rcases List.mem_append.1 hq with hq1 | hq1
    · exact hall q hq1 x hx
    · rw [List.mem_singleton] at hq1
      subst hq1
      rw [List.mem_singleton] at hx
      subst hx
      exact hr
  · rw [heq]
    intro q hq x hx
    rcases List.mem_append.1 hq with hq1 | hq1
    · exact hall q (List.mem_append_left _ hq1) x hx
    · rw [List.mem_singleton] at hq1
      subst hq1
      rcases List.mem_append.1 hx with hx1 | hx1
      · exact hall p (List.mem_append_right _ (by simp)) x (by simpa using hx1)
      · rw [List.mem_singleton] at hx1
        subst hx1
        exact hr

theorem histAppend_size {h : Hist} {nid : Nat} {r : Rec}
    (hsz : ∀ p ∈ h, p.2 = [] ∨ (encodeRecs p.2.dropLast).length < SEGMENT_SIZE) :
    ∀ p ∈ (histAppend h nid r).hist,
      p.2 = [] ∨ (encodeRecs p.2.dropLast).length < SEGMENT_SIZE := by
  rcases histAppend_cases h nid r with ⟨heq, _⟩ | ⟨h₀, p, rfl, hsmall, heq⟩
  · rw [heq]
    intro q hq
    rcases List.mem_append.1 hq with hq1 | hq1
    · exact hsz q hq1
    · rw [List.mem_singleton] at hq1
      subst hq1
      right
      simp [encodeRecs, SEGMENT_SIZE]
  · rw [heq]
    intro q hq
    rcases List.mem_append.1 hq with hq1 | hq1
    · exact hsz q (List.mem_append_left _ hq1)
    · rw [List.mem_singleton] at hq1
      subst hq1
      right
      simpa [List.dropLast_concat] using hsmall

theorem getFile_histAppend_self {h : Hist} {nid : Nat} {r : Rec}
    (hsort : (h.map Prod.fst).Pairwise (· < ·))
    (hlt : ∀ f ∈ h.map Prod.fst, f < nid)
    {w' : Wal} (hw' : w'.disk = histDisk (histAppend h nid r).hist) :
    ∃ pre : Bytes, getFile w' (histAppend h nid r).fid = pre ++ encodeRec r ∧
      pre.length + 16 + r.key.length = (histAppend h nid r).vpos := by
  have hnd : (h.map Prod.fst).Nodup := nodup_of_sorted hsort
  rcases histAppend_cases h nid r with ⟨heq, _⟩ | ⟨h₀, p, rfl, hsmall, heq⟩
  · refine ⟨[], ?_, by rw [heq]; simp⟩
    rw [heq]
    have hnd2 : ((h ++ [(nid, [r])]).map Prod.fst).Nodup := by
      simp only [List.map_append, List.map_cons, List.map_nil]
      rw [List.nodup_append]
      refine ⟨hnd, by simp, ?_⟩
      intro a ha ha2
      rw [List.mem_singleton] at ha2
      subst ha2
      exact absurd (hlt a ha) (by omega)
    have := getFile_hist (h := h ++ [(nid, [r])]) (by rw [hw', heq]) hnd2
      (show ((nid, [r]) : Nat × List Rec) ∈ h ++ [(nid, [r])] by simp)
    rw [this]
    simp [encodeRecs]
  · refine ⟨encodeRecs p.2, ?_, by rw [heq]⟩
    rw [heq]
    have hnd2 : ((h₀ ++ [(p.1, p.2 ++ [r])]).map Prod.fst).Nodup := by
      simpa using hnd
    have := getFile_hist (h := h₀ ++ [(p.1, p.2 ++ [r])]) (by rw [hw', heq]) hnd2
      (show ((p.1, p.2 ++ [r]) : Nat × List Rec) ∈ h₀ ++ [(p.1, p.2 ++ [r])] by simp)
    rw [this]
    exact encodeRecs_concat p.2 r

theorem read_value_new {w' : Wal} {pre : Bytes} {fid : Nat} {k v : Bytes}
    (hfe : getFile w' fid = pre ++ encodeRec ⟨k, v⟩)
    (hu : isValidUtf8 v = true) :
    w'.read_value ⟨fid, v.length, pre.length + 16 + k.length⟩ = .ok v := by
  have hre : readExactAt (getFile w' fid) (pre.length + 16 + k.length) v.length = .ok v := by
    apply @readExactAt_of_eq (getFile w' fid)
      (pre ++ usizeBytes k.length ++ usizeBytes v.length ++ k) v []
      (pre.length + 16 + k.length) v.length
    · rw [hfe, encodeRec]
      simp [List.append_assoc]
    · simp [usizeBytes_length]
      omega
    · rfl
  rw [Wal.read_value]
  simp only [hre, hu, if_true]

theorem InvH_write_insert {S : List Op} {s : KvStore} {h : Hist} (inv : InvH S s h)
    (k v : Bytes) (hk : WfStr k) (hv : WfStr v) (c' : Nat) :
    InvH (S ++ [.set k v])
      ⟨mapInsert k (s.log.write k v .SET).2 s.map, (s.log.write k v .SET).1, c'⟩
      (histAppend h s.log.nextId ⟨k, v⟩).hist := by
  have hw := write_hist k v inv.disk_eq inv.files_eq inv.files_sorted inv.files_lt
  have hnmem : s.log.nextId ∉ h.map Prod.fst := by
    intro hc
    exact absurd (inv.files_lt _ hc) (by omega)
  have hnd : (h.map Prod.fst).Nodup := nodup_of_sorted inv.files_sorted
  have hgp := @getFile_histAppend_self h s.log.nextId ⟨k, v⟩ inv.files_sorted
    inv.files_lt (s.log.write k v .SET).1 (by rw [hw])
  obtain ⟨pre, hpre, hvpos⟩ := hgp
  have hext : ∀ fid, ∃ ext, getFile (s.log.write k v .SET).1 fid = getFile s.log fid ++ ext := by
    intro fid
    exact histAppend_disk_extends hnd inv.disk_eq (by rw [hw]) hnmem fid
  refine ⟨by simp only [hw], by simp only [hw], ?_, ?_, ?_, ?_, ?_, ?_, ?_⟩
  · rcases histAppend_ids_nid h s.log.nextId ⟨k, v⟩ with ⟨hid, hnid⟩ | ⟨hid, hnid⟩
    · rw [hid]
      rw [List.pairwise_append]
      refine ⟨inv.files_sorted, by simp, ?_⟩
      intro x hx y hy
      rw [List.mem_singleton] at hy
      subst hy
      exact inv.files_lt x hx
    · rw [hid]
      exact inv.files_sorted
  · simp only [hw]
    rcases histAppend_ids_nid h s.log.nextId ⟨k, v⟩ with ⟨hid, hnid⟩ | ⟨hid, hnid⟩
    · rw [hid, hnid]
      intro fid hfid
      rcases List.mem_append.1 hfid with hf1 | hf1
      · have := inv.files_lt fid hf1
        omega
      · rw [List.mem_singleton] at hf1
        omega
    · rw [hid, hnid]
      exact inv.files_lt
  · refine histAppend_recs (fun p hp x hx => ?_) ?_
    · obtain ⟨h1, h2⟩ := inv.recs_wf p hp x hx
      exact ⟨h1, PairOk_mono _ h2⟩
    · exact ⟨⟨hk.2, hv.2, hk.1, hv.1⟩, Or.inl (by simp)⟩
  · exact histAppend_size inv.size_ok
  · exact mapInsert_nodup _ _ _ inv.map_nodup
  · intro q
    rw [lwwSpec_append]
    simp only
    by_cases hq : k = q
    · subst hq
      rw [if_pos (by simp)]
      refine ⟨⟨(histAppend h s.log.nextId ⟨k, v⟩).fid, v.length,
        (histAppend h s.log.nextId ⟨k, v⟩).vpos⟩, ?_, rfl, ?_⟩
      · have hve : (s.log.write k v .SET).2 =
            ⟨(histAppend h s.log.nextId ⟨k, v⟩).fid, v.length,
              (histAppend h s.log.nextId ⟨k, v⟩).vpos⟩ := by
          rw [hw]
        rw [hve, mapLookup_insert_self]
      · rw [← hvpos]
        exact read_value_new hpre hv.1
    · rw [if_neg (by simpa using hq)]
      have hlk : mapLookup q (mapInsert k (s.log.write k v .SET).2 s.map)
          = mapLookup q s.map := mapLookup_insert_ne (fun hc => hq hc.symm) _ _
      have hml := inv.map_lww q
      cases hls : lwwSpec S q with
      | none =>
        rw [hls] at hml
        simp only [hlk]
        exact hml
      | some u =>
        rw [hls] at hml
        obtain ⟨ve', hl, hsz, hr⟩ := hml
        refine ⟨ve', by rw [hlk]; exact hl, hsz, ?_⟩
        obtain ⟨ext, hfe⟩ := hext ve'.file_id
        exact read_value_extend hfe hr
  · intro q
    rw [replayHist_histAppend]
    have hve : (s.log.write k v .SET).2 =
        ⟨(histAppend h s.log.nextId ⟨k, v⟩).fid, v.length,
          (histAppend h s.log.nextId ⟨k, v⟩).vpos⟩ := by
      rw [hw]
    by_cases hq : q = k
    · subst hq
      rw [mapLookup_applyRecV_self _ _ _ ⟨q, v⟩, hve, mapLookup_insert_self]
      by_cases hz : v.length = 0 <;> simp [hz]
    · rw [mapLookup_applyRecV_ne _ _ _ ⟨k, v⟩ hq, inv.replay_map q,
        mapLookup_insert_ne hq]

theorem lwwSpec_some_mem {S : List Op} {q u : Bytes} (h : lwwSpec S q = some u) :
    Op.set q u ∈ S := by
  induction S using List.reverseRecOn with
  | nil => simp [lwwSpec] at h
  | append_singleton S op ih =>
    rw [lwwSpec_append] at h
    cases op with
    | set a w =>
      simp only at h
      by_cases haq : (a == q) = true
      · rw [if_pos haq] at h
        have ha : a = q := by simpa using haq
        have hw : w = u := by simpa using h
        subst ha hw
        simp
      · rw [if_neg haq] at h
        exact List.mem_append_left _ (ih h)
    | remove a =>
      simp only at h
      by_cases haq : (a == q) = true
      · rw [if_pos haq] at h
        cases h
      · rw [if_neg haq] at h
        exact List.mem_append_left _ (ih h)
    | get a =>
      simp only at h
      exact List.mem_append_left _ (ih h)

theorem InvH_extend_noop {S : List Op} {s : KvStore} {h : Hist} (inv : InvH S s h) (op : Op)
    (hlww : ∀ q, lwwSpec (S ++ [op]) q = lwwSpec S q ∨
      (lwwSpec (S ++ [op]) q = none ∧ mapLookup q s.map = none)) :
    InvH (S ++ [op]) s h := by
  refine ⟨inv.disk_eq, inv.files_eq, inv.files_sorted, inv.files_lt, ?_, inv.size_ok,
    inv.map_nodup, ?_, inv.replay_map⟩
  · intro p hp x hx
    obtain ⟨h1, h2⟩ := inv.recs_wf p hp x hx
    exact ⟨h1, PairOk_mono _ h2⟩
  · intro q
    rcases hlww q with hq | ⟨hq, hnone⟩
    · rw [hq]
      exact inv.map_lww q
    · rw [hq]
      exact hnone

theorem InvH_remove {S : List Op} {s : KvStore} {h : Hist} (inv : InvH S s h)
    (k : Bytes) (hk : WfStr k) (hsome : (mapLookup k s.map).isSome = true) (c' : Nat) :
    InvH (S ++ [.remove k])
      ⟨mapRemove k s.map, (s.log.write k [] .RM).1, c'⟩
      (histAppend h s.log.nextId ⟨k, []⟩).hist := by
  have hwr : s.log.write k [] .RM = s.log.write k [] .SET := write_eq_writeRec s.log k [] .RM
  have hw0 := write_hist k [] inv.disk_eq inv.files_eq inv.files_sorted inv.files_lt
  have hw : s.log.write k [] .RM =
      (⟨(histAppend h s.log.nextId ⟨k, []⟩).hist.map Prod.fst,
        histDisk (histAppend h s.log.nextId ⟨k, []⟩).hist,
        (histAppend h s.log.nextId ⟨k, []⟩).nid⟩,
       ⟨(histAppend h s.log.nextId ⟨k, []⟩).fid, ([] : Bytes).length,
        (histAppend h s.log.nextId ⟨k, []⟩).vpos⟩) := by
    rw [hwr]
    exact hw0
  have hnmem : s.log.nextId ∉ h.map Prod.fst := by
    intro hc
    exact absurd (inv.files_lt _ hc) (by omega)
  have hnd : (h.map Prod.fst).Nodup := nodup_of_sorted inv.files_sorted
  have hext : ∀ fid, ∃ ext,
      getFile (s.log.write k [] .RM).1 fid = getFile s.log fid ++ ext := by
    intro fid
    exact histAppend_disk_extends hnd inv.disk_eq (by rw [hw]) hnmem fid
  have hexu : ∃ u, lwwSpec S k = some u := by
    have hml := inv.map_lww k
    cases hls : lwwSpec S k with
    | none =>
      rw [hls] at hml
      rw [hml] at hsome
      cases hsome
    | some u => exact ⟨u, rfl⟩
  obtain ⟨u, hu⟩ := hexu
  refine ⟨by simp only [hw], by simp only [hw], ?_, ?_, ?_, ?_, ?_, ?_, ?_⟩
  · rcases histAppend_ids_nid h s.log.nextId ⟨k, []⟩ with ⟨hid, hnid⟩ | ⟨hid, hnid⟩
    · rw [hid]
      rw [List.pairwise_append]
      refine ⟨inv.files_sorted, by simp, ?_⟩
      intro x hx y hy
      rw [List.mem_singleton] at hy
      subst hy
      exact inv.files_lt x hx
    · rw [hid]
      exact inv.files_sorted
  · simp only [hw]
    rcases histAppend_ids_nid h s.log.nextId ⟨k, []⟩ with ⟨hid, hnid⟩ | ⟨hid, hnid⟩
    · rw [hid, hnid]
      intro fid hfid
      rcases List.mem_append.1 hfid with hf1 | hf1
      · have := inv.files_lt fid hf1
        omega
      · rw [List.mem_singleton] at hf1
        omega
    · rw [hid, hnid]
      exact inv.files_lt
  · refine histAppend_recs (fun p hp x hx => ?_) ?_
    · obtain ⟨h1, h2⟩ := inv.recs_wf p hp x hx
      exact ⟨h1, PairOk_mono _ h2⟩
    · refine ⟨⟨hk.2, by simp, hk.1, rfl⟩, Or.inr ⟨rfl, u, ?_⟩⟩
      exact List.mem_append_left _ (lwwSpec_some_mem hu)
  · exact histAppend_size inv.size_ok
  · exact mapRemove_nodup _ _ inv.map_nodup
  · intro q
    rw [lwwSpec_append]
    simp only
    by_cases hq : k = q
    · subst hq
      rw [if_pos (by simp)]
      exact mapLookup_remove_self k s.map
    · rw [if_neg (by simpa using hq)]
      have hlk : mapLookup q (mapRemove k s.map) = mapLookup q s.map :=
        mapLookup_remove_ne (fun hc => hq hc.symm) _
      have hml := inv.map_lww q
      cases hls : lwwSpec S q with
      | none =>
        rw [hls] at hml
        rw [hlk]
        exact hml
      | some w =>
        rw [hls] at hml
        obtain ⟨ve', hl, hsz, hr⟩ := hml
        refine ⟨ve', by rw [hlk]; exact hl, hsz, ?_⟩
        obtain ⟨ext, hfe⟩ := hext ve'.file_id
        exact read_value_extend hfe hr
  · intro q
    rw [replayHist_histAppend]
    by_cases hq : q = k
    · subst hq
      rw [mapLookup_applyRecV_self _ _ _ ⟨q, []⟩]
      rw [mapLookup_remove_self]
      simp
    · rw [mapLookup_applyRecV_ne _ _ _ ⟨k, []⟩ hq, inv.replay_map q,
        mapLookup_remove_ne hq]

theorem mapLookup_none_iff {m : Map} {q : Bytes} :
    mapLookup q m = none ↔ q ∉ m.map Prod.fst := by
  cases hf : m.find? (fun p => p.1 == q) with
  | none =>
    rw [mapLookup, hf]
    constructor
    · intro _ hc
      obtain ⟨p, hp, hpq⟩ := List.mem_map.1 hc
      exact (List.find?_eq_none.1 hf p hp) (by simp [hpq])
    · intro _
      rfl
  | some x =>
    rw [mapLookup, hf]
    constructor
    · intro hc
      cases hc
    · intro hc
      exfalso
      apply hc
      refine List.mem_map.2 ⟨x, List.mem_of_find?_eq_some hf, ?_⟩
      have := List.find?_some hf
      simpa using this

theorem mapLookup_append_single_self {m : Map} {k : Bytes} (ve : ValueEntry)
    (hnone : mapLookup k m = none) :
    mapLookup k (m ++ [(k, ve)]) = some ve := by
  rw [mapLookup, List.find?_append]
  have h1 : m.find? (fun p => p.1 == k) = none := by
    cases hf : m.find? (fun p => p.1 == k) with
    | none => rfl
    | some x =>
      rw [mapLookup, hf] at hnone
      cases hnone
  rw [h1]
  simp [List.find?_cons]

theorem mapLookup_append_single_ne {m : Map} {k q : Bytes} (ve : ValueEntry)
    (hq : q ≠ k) :
    mapLookup q (m ++ [(k, ve)]) = mapLookup q m := by
  rw [mapLookup, List.find?_append, mapLookup]
  have h2 : ([(k, ve)] : Map).find? (fun p => p.1 == q) = none := by
    rw [List.find?_eq_none]
    intro x hx hpx
    rw [List.mem_singleton] at hx
    subst hx
    simp only [beq_iff_eq] at hpx
    exact hq hpx.symm
  rw [h2]
  cases m.find? (fun p => p.1 == q) <;> rfl

theorem histAppend_sorted {h : Hist} {nid : Nat} {r : Rec}
    (hs : (h.map Prod.fst).Pairwise (· < ·)) (hlt : ∀ f ∈ h.map Prod.fst, f < nid) :
    ((histAppend h nid r).hist.map Prod.fst).Pairwise (· < ·) := by
  rcases histAppend_ids_nid h nid r with ⟨hid, _⟩ | ⟨hid, _⟩
  · rw [hid, List.pairwise_append]
    refine ⟨hs, by simp, ?_⟩
    intro x hx y hy
    rw [List.mem_singleton] at hy
    subst hy
    exact hlt x hx
  · rw [hid]
    exact hs

theorem histAppend_lt {h : Hist} {nid : Nat} {r : Rec}
    (hlt : ∀ f ∈ h.map Prod.fst, f < nid) :
    ∀ f ∈ (histAppend h nid r).hist.map Prod.fst, f < (histAppend h nid r).nid := by
  rcases histAppend_ids_nid h nid r with ⟨hid, hnid⟩ | ⟨hid, hnid⟩
  · rw [hid, hnid]
    intro f hf
    rcases List.mem_append.1 hf with hf1 | hf1
    · have := hlt f hf1
      omega
    · rw [List.mem_singleton] at hf1
      omega
  · rw [hid, hnid]
    exact hlt

theorem histAppend_nid_mono (h : Hist) (nid : Nat) (r : Rec) :
    nid ≤ (histAppend h nid r).nid := by
  rcases histAppend_ids_nid h nid r with ⟨_, hnid⟩ | ⟨_, hnid⟩
  · rw [hnid]
    omega
  · rw [hnid]

theorem histAppend_fid_mem (h : Hist) (nid : Nat) (r : Rec) :
    (histAppend h nid r).fid ∈ (histAppend h nid r).hist.map Prod.fst := by
  rcases histAppend_cases h nid r with ⟨heq, _⟩ | ⟨h₀, p, hh, hsmall, heq⟩ <;> rw [heq] <;> simp

theorem histAppend_ids_sub {h : Hist} {nid : Nat} {r : Rec} {f : Nat}
    (hf : f ∈ h.map Prod.fst) : f ∈ (histAppend h nid r).hist.map Prod.fst := by
  rcases histAppend_ids_nid h nid r with ⟨hid, _⟩ | ⟨hid, _⟩
  · rw [hid]
    exact List.mem_append_left _ hf
  · rw [hid]
    exact hf

theorem histAppend_gids {h : Hist} {nid id0 : Nat} {r : Rec}
    (hg : ∀ f ∈ h.map Prod.fst, id0 ≤ f) (h0 : id0 ≤ nid) :
    ∀ f ∈ (histAppend h nid r).hist.map Prod.fst, id0 ≤ f := by
  rcases histAppend_ids_nid h nid r with ⟨hid, _⟩ | ⟨hid, _⟩
  · rw [hid]
    intro f hf
    rcases List.mem_append.1 hf with hf1 | hf1
    · exact hg f hf1
    · rw [List.mem_singleton] at hf1
      omega
  · rw [hid]
    exact hg

theorem histAppend_ne (h : Hist) (nid : Nat) (r : Rec) :
    (histAppend h nid r).hist ≠ [] := by
  rcases histAppend_cases h nid r with ⟨heq, _⟩ | ⟨h₀, p, hh, hsmall, heq⟩ <;> rw [heq] <;> simp

theorem create_last_absent {w : Wal} {l : List Nat} {f : Nat} (hf : w.files = l ++ [f])
    (habs : f ∉ w.disk.map Prod.fst) :
    w.create_log_file_if_needed = { w with disk := w.disk ++ [(f, [])] } := by
  rw [Wal.create_log_file_if_needed, hf, List.getLast?_concat]
  simp only [ensureFile_not_mem habs]
  have hg : getFile { w with disk := w.disk ++ [(f, [])] } f = [] :=
    getFile_last_absent habs [] _ rfl
  rw [if_neg (by rw [hg]; simp [SEGMENT_SIZE])]
  rw [hf]

theorem write_congr_create {w w' : Wal}
    (hc : w.create_log_file_if_needed = w'.create_log_file_if_needed)
    (k v : Bytes) (mode : Operation) : Wal.write w k v mode = Wal.write w' k v mode := by
  simp only [Wal.write, hc]

theorem write_create_absent {w : Wal} {l : List Nat} {f : Nat} (hf : w.files = l ++ [f])
    (habs : f ∉ w.disk.map Prod.fst) (k v : Bytes) (mode : Operation) :
    Wal.write w k v mode = Wal.write { w with disk := w.disk ++ [(f, [])] } k v mode := by
  apply write_congr_create
  rw [create_last_absent hf habs]
  have hmem : f ∈ ({ w with disk := w.disk ++ [(f, [])] } : Wal).disk.map Prod.fst := by
    simp
  rw [create_concat (w := { w with disk := w.disk ++ [(f, [])] }) hf hmem]
  have hg : getFile { w with disk := w.disk ++ [(f, [])] } f = [] :=
    getFile_last_absent habs [] _ rfl
  rw [hg, if_neg (by simp [SEGMENT_SIZE])]

theorem histAppend_append_left (h g : Hist) (nid : Nat) (r : Rec) (hg : g ≠ []) :
    (histAppend (h ++ g) nid r).hist = h ++ (histAppend g nid r).hist ∧
    (histAppend (h ++ g) nid r).fid = (histAppend g nid r).fid ∧
    (histAppend (h ++ g) nid r).nid = (histAppend g nid r).nid ∧
    (histAppend (h ++ g) nid r).vpos = (histAppend g nid r).vpos := by
  rcases List.eq_nil_or_concat' g with rfl | ⟨g₀, p, rfl⟩
  · exact absurd rfl hg
  · rw [histAppend, histAppend, show h ++ (g₀ ++ [p]) = (h ++ g₀) ++ [p] by simp,
      List.getLast?_concat, List.getLast?_concat]
    by_cases hbig : SEGMENT_SIZE ≤ (encodeRecs p.2).length
    · simp [hbig]
    · simp [hbig, List.dropLast_concat]

theorem compactLoop_spec (S : List Op) (h : Hist) (id0 : Nat) (V : Bytes → Bytes)
    (hwfS : ∀ q u, Op.set q u ∈ S → WfStr q ∧ WfStr u) :
    ∀ (todo done : Map) (w : Wal) (g : Hist),
    CLoop S h id0 V w g done →
    (∀ p ∈ todo, w.read_value p.2 = .ok (V p.1) ∧ lwwSpec S p.1 = some (V p.1)) →
    (done.map Prod.fst ++ todo.map Prod.fst).Nodup →
    ∃ w' g' done',
      compactLoop w done todo = (.ok (), w', done ++ done') ∧
      CLoop S h id0 V w' g' (done ++ done') ∧
      done'.map Prod.fst = todo.map Prod.fst
  | [], done, w, g, cl, _, _ =>
    ⟨w, g, [], by simp [compactLoop], by rw [List.append_nil]; exact cl, rfl⟩
  | (k0, ve0) :: todo, done, w, g, cl, hreads, hnd => by
    obtain ⟨hrd, hlww⟩ := hreads (k0, ve0) (by simp)
    have hw := write_hist k0 (V k0) cl.disk_eq cl.files_eq cl.sorted cl.lt
    obtain ⟨hAh, hAf, hAn, hAv⟩ := histAppend_append_left h g w.nextId ⟨k0, V k0⟩ cl.gne
    have hmemS : Op.set k0 (V k0) ∈ S := lwwSpec_some_mem hlww
    obtain ⟨hwk, hwv⟩ := hwfS _ _ hmemS
    have hndAll : ((h ++ g).map Prod.fst).Nodup := nodup_of_sorted cl.sorted
    have hnmem : w.nextId ∉ (h ++ g).map Prod.fst := by
      intro hc
      exact absurd (cl.lt _ hc) (by omega)
    have hk0done : mapLookup k0 done = none := by
      rw [mapLookup_none_iff]
      rw [List.nodup_append] at hnd
      intro hc
      exact hnd.2.2 hc (by simp)
    obtain ⟨pre, hpre, hvpos⟩ := @getFile_histAppend_self (h ++ g) w.nextId ⟨k0, V k0⟩
      cl.sorted cl.lt (w.write k0 (V k0) .SET).1 (by rw [hw])
    have hext : ∀ fid, ∃ ext,
        getFile (w.write k0 (V k0) .SET).1 fid = getFile w fid ++ ext := by
      intro fid
      exact histAppend_disk_extends hndAll cl.disk_eq (by rw [hw]) hnmem fid
    have hnve : (w.write k0 (V k0) .SET).2 =
        ⟨(histAppend (h ++ g) w.nextId ⟨k0, V k0⟩).fid, (V k0).length,
          (histAppend (h ++ g) w.nextId ⟨k0, V k0⟩).vpos⟩ := by
      rw [hw]
    have hreadnew : (w.write k0 (V k0) .SET).1.read_value (w.write k0 (V k0) .SET).2
        = .ok (V k0) := by
      rw [hnve, ← hvpos]
      exact read_value_new hpre hwv.1
    have cl2 : CLoop S h id0 V (w.write k0 (V k0) .SET).1
        (histAppend g w.nextId ⟨k0, V k0⟩).hist
        (done ++ [(k0, (w.write k0 (V k0) .SET).2)]) := by
      refine ⟨?_, ?_, ?_, ?_, ?_, ?_, ?_, ?_, ?_, ?_, ?_⟩
      · rw [hw]
        simp only
        rw [hAh]
      · rw [hw]
        simp only
        rw [hAh]
      · have := histAppend_sorted cl.sorted cl.lt (r := ⟨k0, V k0⟩)
        rw [hAh] at this
        simpa using this
      · have := histAppend_lt cl.lt (r := ⟨k0, V k0⟩)
        rw [hAh] at this
        intro f hf
        have h2 := this f (by simpa using hf)
        rw [hw]
        simpa [hAn] using h2
      · have h1 := histAppend_nid_mono (h ++ g) w.nextId ⟨k0, V k0⟩
        have h2 := cl.le_next
        rw [hw]
        simp only
        omega
      · exact histAppend_ne g w.nextId ⟨k0, V k0⟩
      · exact histAppend_gids cl.gids cl.le_next
      · have := @histAppend_recs (fun x => WfRec x ∧ PairOk S x) (h ++ g) w.nextId
          ⟨k0, V k0⟩ cl.recs ⟨⟨hwk.2, hwv.2, hwk.1, hwv.1⟩, Or.inl hmemS⟩
        rw [hAh] at this
        exact this
      · have := @histAppend_size (h ++ g) w.nextId ⟨k0, V k0⟩ cl.size
        rw [hAh] at this
        exact this
      · intro p hp
        rcases List.mem_append.1 hp with hp1 | hp1
        · obtain ⟨hr1, hr2, hr3⟩ := cl.dreads p hp1
          obtain ⟨ext, hfe⟩ := hext p.2.file_id
          exact ⟨read_value_extend hfe hr1, hr2, histAppend_ids_sub hr3⟩
        · rw [List.mem_singleton] at hp1
          subst hp1
          refine ⟨hreadnew, by rw [hnve], ?_⟩
          rw [hnve]
          simp only
          rw [hAf]
          exact histAppend_fid_mem g w.nextId ⟨k0, V k0⟩
      · intro q
        rw [replayHist_histAppend]
        by_cases hq : q = k0
        · subst hq
          rw [mapLookup_applyRecV_self _ _ _ ⟨q, V q⟩]
          rw [mapLookup_append_single_self _ hk0done, hnve]
          simp only [← hAf, ← hAv]
          by_cases hz : (V q).length = 0 <;> simp [hz]
        · rw [mapLookup_applyRecV_ne _ _ _ ⟨k0, V k0⟩ hq, cl.replay q,
            mapLookup_append_single_ne _ hq]
    have hreads2 : ∀ p ∈ todo, (w.write k0 (V k0) .SET).1.read_value p.2 = .ok (V p.1) ∧
        lwwSpec S p.1 = some (V p.1) := by
      intro p hp
      obtain ⟨hr1, hr2⟩ := hreads p (by simp [hp])
      obtain ⟨ext, hfe⟩ := hext p.2.file_id
      exact ⟨read_value_extend hfe hr1, hr2⟩
    have hnd2 : ((done ++ [(k0, (w.write k0 (V k0) .SET).2)]).map Prod.fst
        ++ todo.map Prod.fst).Nodup := by
      have : (done ++ [(k0, (w.write k0 (V k0) .SET).2)]).map Prod.fst
          ++ todo.map Prod.fst = done.map Prod.fst ++ k0 :: todo.map Prod.fst := by
        simp
      rw [this]
      simpa using hnd
    obtain ⟨w', g', done'', hloop, cl', hkeys⟩ :=
      compactLoop_spec S h id0 V hwfS todo
        (done ++ [(k0, (w.write k0 (V k0) .SET).2)])
        (w.write k0 (V k0) .SET).1
        (histAppend g w.nextId ⟨k0, V k0⟩).hist cl2 hreads2 hnd2
    refine ⟨w', g', (k0, (w.write k0 (V k0) .SET).2) :: done'', ?_, ?_, ?_⟩
    · simp only [compactLoop, hrd]
      rw [hloop]
      simp
    · have : done ++ [(k0, (w.write k0 (V k0) .SET).2)] ++ done''
          = done ++ ((k0, (w.write k0 (V k0) .SET).2) :: done'') := by
        simp
      rw [← this]
      exact cl'
    · simp [hkeys]

theorem mapLookup_of_mem_nodup {m : Map} (hnd : (m.map Prod.fst).Nodup) {k : Bytes}
    {ve : ValueEntry} (hm : (k, ve) ∈ m) : mapLookup k m = some ve := by
  induction m with
  | nil => simp at hm
  | cons q t ih =>
    simp only [List.map_cons, List.nodup_cons] at hnd
    rcases List.mem_cons.1 hm with h1 | h1
    · subst h1
      rw [mapLookup, List.find?_cons]
      simp
    · have hne : q.1 ≠ k := by
        intro hc
        apply hnd.1
        rw [hc]
        exact List.mem_map.2 ⟨(k, ve), h1, rfl⟩
      have hbeq : (q.1 == k) = false := by simp [hne]
      rw [mapLookup, List.find?_cons, hbeq]
      exact ih hnd.2 h1

theorem mapLookup_some_mem_keys {m : Map} {k : Bytes} {ve : ValueEntry}
    (h : mapLookup k m = some ve) : k ∈ m.map Prod.fst := by
  by_contra hc
  rw [← mapLookup_none_iff] at hc
  rw [h] at hc
  cases hc

theorem read_value_pushNew (w : Wal) (ve : ValueEntry) :
    (pushNew w).read_value ve = w.read_value ve := rfl

theorem getFile_right {wa wb : Wal} (h g : Hist)
    (hnd : ((h ++ g).map Prod.fst).Nodup)
    (hda : wa.disk = histDisk (h ++ g)) (hdb : wb.disk = histDisk g)
    {fid : Nat} (hfid : fid ∈ g.map Prod.fst) : getFile wa fid = getFile wb fid := by
  obtain ⟨p, hp, hpf⟩ := List.mem_map.1 hfid
  subst hpf
  have hgnd : (g.map Prod.fst).Nodup := by
    rw [List.map_append, List.nodup_append] at hnd
    exact hnd.2.1
  have h1 : getFile wa p.1 = encodeRecs p.2 :=
    getFile_hist hda hnd (by simpa using List.mem_append_right h hp)
  have h2 : getFile wb p.1 = encodeRecs p.2 :=
    getFile_hist hdb hgnd (by simpa using hp)
  rw [h1, h2]

theorem diskErase_head {d : Disk} {f : Nat} {bs : Bytes} (h : f ∉ d.map Prod.fst) :
    diskErase ((f, bs) :: d) f = d := by
  rw [diskErase, List.filter_cons]
  rw [if_neg (by simp)]
  rw [List.filter_eq_self.2]
  intro p hp
  have hne : p.1 ≠ f := fun hc => h (List.mem_map.2 ⟨p, hp, hc⟩)
  simp [hne]

theorem deleteFirst_hist : ∀ (h g : Hist) (w : Wal),
    w.disk = histDisk (h ++ g) → w.files = (h ++ g).map Prod.fst →
    ((h ++ g).map Prod.fst).Nodup →
    deleteFirst h.length w = (.ok (), ⟨g.map Prod.fst, histDisk g, w.nextId⟩)
  | [], g, w, hd, hf, _ => by
    simp only [List.length_nil, deleteFirst]
    obtain ⟨wf, wd, wn⟩ := w
    simp only at hd hf
    subst hd hf
    simp
  | p :: h, g, w, hd, hf, hnd => by
    have hf' : w.files = p.1 :: (h ++ g).map Prod.fst := by simpa using hf
    have hnd' : (p.1 :: (h ++ g).map Prod.fst).Nodup := by simpa using hnd
    have hp1 : p.1 ∉ (h ++ g).map Prod.fst := (List.nodup_cons.1 hnd').1
    have hdisk' : w.disk = (p.1, encodeRecs p.2) :: histDisk (h ++ g) := by
      rw [hd]
      simp [histDisk]
    have hfind : (w.disk.find? (fun q => q.1 == p.1)).isSome = true := by
      rw [hdisk']
      simp [List.find?_cons]
    have herase : diskErase w.disk p.1 = histDisk (h ++ g) := by
      rw [hdisk']
      apply diskErase_head
      simpa [histDisk] using hp1
    simp only [List.length_cons, deleteFirst, hf', hfind, if_true, herase]
    exact deleteFirst_hist h g ⟨(h ++ g).map Prod.fst, histDisk (h ++ g), w.nextId⟩
      rfl rfl (List.nodup_cons.1 hnd').2

theorem histAppend_single_empty (f n : Nat) (r : Rec) :
    histAppend [(f, [])] n r = ⟨[(f, [r])], f, n, 16 + r.key.length⟩ := by
  rw [histAppend]
  simp [SEGMENT_SIZE, encodeRecs]

theorem read_value_congr_file {w w' : Wal} {ve : ValueEntry}
    (hg : getFile w ve.file_id = getFile w' ve.file_id) :
    w.read_value ve = w'.read_value ve := by
  rw [Wal.read_value, Wal.read_value, hg]

theorem getFile_append_empty {w : Wal} {f : Nat} (habs : f ∉ w.disk.map Prod.fst)
    (fid : Nat) :
    getFile { w with disk := w.disk ++ [(f, [])] } fid = getFile w fid := by
  have hn : ∀ d : Disk, f ∉ d.map Prod.fst → d.find? (fun p => p.1 == f) = none := by
    intro d hd
    rw [List.find?_eq_none]
    intro x hx hpx
    exact hd (List.mem_map.2 ⟨x, hx, by simpa using hpx⟩)
  by_cases hf : fid = f
  · subst hf
    rw [getFile_last_absent habs [] _ rfl, getFile, hn w.disk habs]
    rfl
  · rw [getFile, getFile]
    simp only
    rw [List.find?_append]
    have h2 : ([(f, [])] : Disk).find? (fun p => p.1 == fid) = none := by
      rw [List.find?_eq_none]
      intro x hx hpx
      rw [List.mem_singleton] at hx
      subst hx
      simp only [beq_iff_eq] at hpx
      exact hf hpx.symm
    rw [h2]
    cases w.disk.find? (fun p => p.1 == fid) <;> rfl

theorem InvH_compact {S : List Op} {s : KvStore} {h : Hist} (inv : InvH S s h)
    (hwfS : ∀ q u, Op.set q u ∈ S → WfStr q ∧ WfStr u)
    (hmne : s.map ≠ []) (c' : Nat) :
    ∃ w' m' h', s.log.compact s.map = (.ok (), w', m') ∧ InvH S ⟨m', w', c'⟩ h' ∧
      m'.map Prod.fst = s.map.map Prod.fst := by
  set V : Bytes → Bytes := fun q => (lwwSpec S q).getD [] with hV
  have hreads0 : ∀ p ∈ s.map, s.log.read_value p.2 = .ok (V p.1) ∧
      lwwSpec S p.1 = some (V p.1) ∧ p.2.vsz = (V p.1).length := by
    intro p hp
    have hlk : mapLookup p.1 s.map = some p.2 :=
      mapLookup_of_mem_nodup inv.map_nodup (by exact hp)
    have hml := inv.map_lww p.1
    cases hls : lwwSpec S p.1 with
    | none =>
      rw [hls] at hml
      rw [hml] at hlk
      cases hlk
    | some v =>
      rw [hls] at hml
      obtain ⟨ve, hve, hsz, hrd⟩ := hml
      rw [hlk] at hve
      injection hve with hve
      subst hve
      have hVv : V p.1 = v := by
        rw [hV]
        simp [hls]
      rw [hVv]
      exact ⟨hrd, rfl, hsz⟩
  cases hm : s.map with
  | nil => exact absurd hm hmne
  | cons e0 rest =>
  obtain ⟨k0, ve0⟩ := e0
  have hid0 : s.log.nextId ∉ s.log.disk.map Prod.fst := by
    intro hc
    have hids : s.log.disk.map Prod.fst = h.map Prod.fst := by
      rw [inv.disk_eq]
      simp [histDisk]
    rw [hids] at hc
    exact absurd (inv.files_lt _ hc) (by omega)
  have hwf1 : (pushNew s.log).files = h.map Prod.fst ++ [s.log.nextId] := by
    rw [pushNew, inv.files_eq]
  have habs1 : s.log.nextId ∉ (pushNew s.log).disk.map Prod.fst := hid0
  have hbridge : ∀ k v, (pushNew s.log).write k v .SET =
      Wal.write { pushNew s.log with disk := (pushNew s.log).disk ++ [(s.log.nextId, [])] }
        k v .SET := by
    intro k v
    exact write_create_absent hwf1 habs1 k v .SET
  set w1' : Wal := { pushNew s.log with
    disk := (pushNew s.log).disk ++ [(s.log.nextId, [])] } with hw1'
  have hgf1 : ∀ fid, getFile w1' fid = getFile (pushNew s.log) fid := by
    intro fid
    exact getFile_append_empty habs1 fid
  have cl0 : CLoop S h s.log.nextId V w1' [(s.log.nextId, [])] [] := by
    refine ⟨?_, ?_, ?_, ?_, ?_, ?_, ?_, ?_, ?_, ?_, ?_⟩
    · rw [hw1']
      simp only [pushNew]
      rw [inv.disk_eq]
      simp [histDisk, encodeRecs]
    · rw [hw1']
      simp only [pushNew]
      rw [inv.files_eq]
      simp
    · simp only [List.map_append, List.map_cons, List.map_nil]
      rw [List.pairwise_append]
      refine ⟨inv.files_sorted, by simp, ?_⟩
      intro x hx y hy
      rw [List.mem_singleton] at hy
      subst hy
      exact inv.files_lt x hx
    · intro f hf
      rw [hw1']
      simp only [pushNew]
      simp only [List.map_append, List.map_cons, List.map_nil] at hf
      rcases List.mem_append.1 hf with hf1 | hf1
      · have := inv.files_lt f hf1
        omega
      · rw [List.mem_singleton] at hf1
        omega
    · rw [hw1']
      simp [pushNew]
    · simp
    · intro f hf
      simp only [List.map_cons, List.map_nil, List.mem_singleton] at hf
      omega
    · intro p hp x hx
      rcases List.mem_append.1 hp with hp1 | hp1
      · exact inv.recs_wf p hp1 x hx
      · rw [List.mem_singleton] at hp1
        subst hp1
        simp at hx
    · intro p hp
      rcases List.mem_append.1 hp with hp1 | hp1
      · exact inv.size_ok p hp1
      · rw [List.mem_singleton] at hp1
        subst hp1
        exact Or.inl rfl
    · intro p hp
      simp at hp
    · intro q
      rfl
  have hreads1 : ∀ p ∈ (k0, ve0) :: rest, w1'.read_value p.2 = .ok (V p.1) ∧
      lwwSpec S p.1 = some (V p.1) := by
    intro p hp
    have h0 := hreads0 p (by rw [hm]; exact hp)
    refine ⟨?_, h0.2.1⟩
    rw [read_value_congr_file (hgf1 p.2.file_id), read_value_pushNew]
    exact h0.1
  have hndkeys : ((([] : Map)).map Prod.fst ++ ((k0, ve0) :: rest).map Prod.fst).Nodup := by
    have := inv.map_nodup
    rw [hm] at this
    simpa using this
  obtain ⟨w_f, g_f, done', hloop, clf, hkeys⟩ :=
    compactLoop_spec S h s.log.nextId V hwfS ((k0, ve0) :: rest) [] w1'
      [(s.log.nextId, [])] cl0 hreads1 hndkeys
  have hro : (pushNew s.log).read_value ve0 = .ok (V k0) := by
    rw [read_value_pushNew]
    exact (hreads0 (k0, ve0) (by rw [hm]; simp)).1
  have hro' : w1'.read_value ve0 = .ok (V k0) := by
    rw [read_value_congr_file (hgf1 ve0.file_id)]
    exact hro
  have hloop1 : compactLoop (pushNew s.log) [] ((k0, ve0) :: rest)
      = (.ok (), w_f, done') := by
    have heq : compactLoop (pushNew s.log) [] ((k0, ve0) :: rest)
        = compactLoop w1' [] ((k0, ve0) :: rest) := by
      simp only [compactLoop, hro, hro', hbridge]
    rw [heq]
    simpa using hloop
  have hdel := deleteFirst_hist h g_f w_f clf.disk_eq clf.files_eq
    (nodup_of_sorted clf.sorted)
  have hbefore : s.log.files.length = h.length := by
    rw [inv.files_eq]
    simp
  have hcompact : s.log.compact ((k0, ve0) :: rest) =
      (.ok (), ⟨g_f.map Prod.fst, histDisk g_f, w_f.nextId⟩, done') := by
    rw [Wal.compact]
    simp only [hloop1, hbefore, hdel]
  have hmnd : (((k0, ve0) :: rest).map Prod.fst).Nodup := hm ▸ inv.map_nodup
  have hdnd : (done'.map Prod.fst).Nodup := by
    rw [hkeys]
    exact hmnd
  have hgnd : (g_f.map Prod.fst).Nodup := by
    have := nodup_of_sorted clf.sorted
    rw [List.map_append, List.nodup_append] at this
    exact this.2.1
  have hdreads : ∀ p ∈ done', w_f.read_value p.2 = .ok (V p.1) ∧
      p.2.vsz = (V p.1).length ∧ p.2.file_id ∈ g_f.map Prod.fst := by
    intro p hp
    exact clf.dreads p (by simpa using hp)
  refine ⟨⟨g_f.map Prod.fst, histDisk g_f, w_f.nextId⟩, done', g_f, hcompact, ?_, hkeys⟩
  refine ⟨rfl, rfl, ?_, ?_, ?_, ?_, hdnd, ?_, ?_⟩
  · have := clf.sorted
    rw [List.map_append, List.pairwise_append] at this
    exact this.2.1
  · intro fid hfid
    exact clf.lt fid (by rw [List.map_append]; exact List.mem_append_right _ hfid)
  · intro p hp x hx
    exact clf.recs p (List.mem_append_right _ hp) x hx
  · intro p hp
    exact clf.size p (List.mem_append_right _ hp)
  · intro q
    cases hls : lwwSpec S q with
    | none =>
      have hml := inv.map_lww q
      rw [hls] at hml
      rw [mapLookup_none_iff] at hml ⊢
      simp only
      rw [hkeys, ← hm]
      exact hml
    | some v =>
      have hml := inv.map_lww q
      rw [hls] at hml
      obtain ⟨ve, hve, _, _⟩ := hml
      have hqk : q ∈ done'.map Prod.fst := by
        rw [hkeys, ← hm]
        exact mapLookup_some_mem_keys hve
      obtain ⟨p, hp, hpq⟩ := List.mem_map.1 hqk
      have hlq : mapLookup q done' = some p.2 := by
        rw [← hpq]
        exact mapLookup_of_mem_nodup hdnd (by exact hp)
      obtain ⟨hr1, hr2, hr3⟩ := hdreads p hp
      have hVq : V q = v := by
        rw [hV]
        simp [hls]
      refine ⟨p.2, hlq, ?_, ?_⟩
      · rw [hr2, hpq, hVq]
      · have hgf : getFile w_f p.2.file_id =
            getFile ⟨g_f.map Prod.fst, histDisk g_f, w_f.nextId⟩ p.2.file_id :=
          getFile_right h g_f (nodup_of_sorted clf.sorted) clf.disk_eq rfl hr3
        rw [← read_value_congr_file hgf, hr1, hpq, hVq]
  · intro q
    have := clf.replay q
    simpa using this

theorem InvH_fresh : InvH [] freshStore [] := by
  refine ⟨rfl, rfl, by simp, by simp, by simp, by simp, by decide, ?_, ?_⟩
  · intro k
    simp only [lwwSpec, List.foldl_nil]
    rfl
  · intro k
    rfl

theorem mapInsert_ne_nil (k : Bytes) (ve : ValueEntry) (m : Map) :
    mapInsert k ve m ≠ [] := by
  simp [mapInsert]

theorem Inv_runOp {S : List Op} {s : KvStore} (inv : Inv S s) (op : Op) (hop : WfOp op)
    (hwfS : WfOps S) : Inv (S ++ [op]) (runOp s op) := by
  obtain ⟨h, ih⟩ := inv
  cases op with
  | get k =>
    exact ⟨h, InvH_extend_noop ih _ (fun q => Or.inl (by rw [lwwSpec_append]))⟩
  | set k v =>
    obtain ⟨hk, hv⟩ := hop
    by_cases hcond : compactCond (mapInsert k (s.log.write k v .SET).2 s.map)
        s.ops_count = true
    · have ih1 := InvH_write_insert ih k v hk hv s.ops_count
      have hwfS' : ∀ q u, Op.set q u ∈ S ++ [Op.set k v] → WfStr q ∧ WfStr u := by
        intro q u hqu
        rcases List.mem_append.1 hqu with h1 | h1
        · exact hwfS _ h1
        · rw [List.mem_singleton] at h1
          injection h1 with e1 e2
          subst e1 e2
          exact ⟨hk, hv⟩
      obtain ⟨w', m', h', hcomp, ih2, _⟩ := InvH_compact ih1 hwfS'
        (mapInsert_ne_nil _ _ _) (s.ops_count + 1)
      refine ⟨h', ?_⟩
      have hrun : runOp s (.set k v) = ⟨m', w', s.ops_count + 1⟩ := by
        simp only [runOp, KvStore.set, KvStore.setC, KvStore.compact_if_needed]
        rw [if_pos hcond]
        simp only at hcomp
        rw [hcomp]
      rw [hrun]
      exact ih2
    · refine ⟨(histAppend h s.log.nextId ⟨k, v⟩).hist, ?_⟩
      have hrun : runOp s (.set k v) =
          ⟨mapInsert k (s.log.write k v .SET).2 s.map, (s.log.write k v .SET).1,
            s.ops_count + 1⟩ := by
        simp only [runOp, KvStore.set, KvStore.setC, KvStore.compact_if_needed]
        rw [if_neg hcond]
      rw [hrun]
      exact InvH_write_insert ih k v hk hv (s.ops_count + 1)
  | remove k =>
    by_cases hsome : (mapLookup k s.map).isSome = true
    · refine ⟨(histAppend h s.log.nextId ⟨k, []⟩).hist, ?_⟩
      have hrun : runOp s (.remove k) =
          ⟨mapRemove k s.map, (s.log.write k [] .RM).1, s.ops_count + 1⟩ := by
        simp only [runOp, KvStore.remove, KvStore.removeG]
        rw [if_pos hsome]
        simp
      rw [hrun]
      exact InvH_remove ih k hop hsome (s.ops_count + 1)
    · refine ⟨h, ?_⟩
      have hrun : runOp s (.remove k) = s := by
        simp only [runOp, KvStore.remove, KvStore.removeG]
        rw [if_neg hsome]
      rw [hrun]
      refine InvH_extend_noop ih _ (fun q => ?_)
      by_cases hq : k = q
      · subst hq
        refine Or.inr ⟨?_, ?_⟩
        · rw [lwwSpec_append]
          simp
        · cases hlk : mapLookup k s.map with
          | none => rfl
          | some ve =>
            rw [hlk] at hsome
            simp at hsome
      · refine Or.inl ?_
        rw [lwwSpec_append]
        simp only
        rw [if_neg (by simpa using hq)]

theorem Inv_runOps (S : List Op) (hS : WfOps S) : Inv S (runOps freshStore S) := by
  induction S using List.reverseRecOn with
  | nil => exact ⟨[], InvH_fresh⟩
  | append_singleton S op ih =>
    have h1 : WfOps S := fun o ho => hS o (List.mem_append_left _ ho)
    have h2 : WfOp op := hS op (by simp)
    have hr : runOps freshStore (S ++ [op]) = runOp (runOps freshStore S) op := by
      rw [runOps, runOps, List.foldl_append]
      rfl
    rw [hr]
    exact Inv_runOp (ih h1) op h2 h1

theorem ensureFile_files (w : Wal) (fid : Nat) : (ensureFile w fid).files = w.files := by
  rw [ensureFile]
  split
  · rfl
  · rfl

theorem ensureFile_nextId (w : Wal) (fid : Nat) : (ensureFile w fid).nextId = w.nextId := by
  rw [ensureFile]
  split
  · rfl
  · rfl

theorem write_files (w : Wal) (k v : Bytes) (mode : Operation) :
    (w.write k v mode).1.files = w.files ∨
      (w.write k v mode).1.files = w.files ++ [w.nextId] := by
  have h4 : (w.write k v mode).1.files = w.create_log_file_if_needed.files := by
    simp only [Wal.write]
    split
    · exact ensureFile_files _ _
    · exact ensureFile_files _ _
  rw [h4, Wal.create_log_file_if_needed]
  cases hgl : w.files.getLast? with
  | none => exact Or.inr rfl
  | some f =>
    simp only
    split
    · refine Or.inr ?_
      show (ensureFile w f).files ++ [(ensureFile w f).nextId] = w.files ++ [w.nextId]
      rw [ensureFile_files, ensureFile_nextId]
    · exact Or.inl (ensureFile_files _ _)

theorem write_vsz (w : Wal) (k v : Bytes) :
    (w.write k v .SET).2.vsz = v.length := rfl

theorem mapLookup_some_mem {m : Map} {k : Bytes} {ve : ValueEntry}
    (h : mapLookup k m = some ve) : (k, ve) ∈ m := by
  rw [mapLookup] at h
  cases hf : m.find? (fun p => p.1 == k) with
  | none =>
    rw [hf] at h
    cases h
  | some p =>
    rw [hf] at h
    have hm := List.mem_of_find?_eq_some hf
    have hp : p.1 = k := by simpa using List.find?_some hf
    have hv : p.2 = ve := by simpa using h
    rw [← hp, ← hv]
    simpa using hm

theorem read_value_ok_length {w : Wal} {ve : ValueEntry} {v : Bytes}
    (h : w.read_value ve = .ok v) : v.length = ve.vsz := by
  rw [Wal.read_value] at h
  cases hr : readExactAt (getFile w ve.file_id) ve.vpos ve.vsz with
  | error e =>
    rw [hr] at h
    cases h
  | ok buf =>
    rw [hr] at h
    simp only at h
    by_cases hu : isValidUtf8 buf = true
    · rw [if_pos hu] at h
      have hb : buf = v := by simpa using h
      rw [← hb]
      exact readExactAt_ok_length hr
    · rw [if_neg hu] at h
      cases h

theorem getFile_absent {w : Wal} {fid : Nat} (h : fid ∉ w.disk.map Prod.fst) :
    getFile w fid = [] := by
  have hn : w.disk.find? (fun p => p.1 == fid) = none := by
    rw [List.find?_eq_none]
    intro x hx hpx
    exact h (List.mem_map.2 ⟨x, hx, by simpa using hpx⟩)
  rw [getFile, hn]
  rfl

theorem openDisk_clean {h : Hist} (hsorted : (h.map Prod.fst).Pairwise (· < ·))
    (hwf : ∀ p ∈ h, ∀ x ∈ p.2, WfRec x) :
    KvStore.openDisk (histDisk h) =
      .ok ⟨replayHist h [], Wal.openD (histDisk h), 0⟩ := by
  have hnd : (h.map Prod.fst).Nodup := nodup_of_sorted hsorted
  have hmapfst : (histDisk h).map Prod.fst = h.map Prod.fst := by
    simp [histDisk]
  have hfiles : (Wal.openD (histDisk h)).files = h.map Prod.fst := by
    show sortNat ((histDisk h).map Prod.fst) = h.map Prod.fst
    rw [hmapfst]
    exact sortNat_of_sorted hsorted
  have hcontent : ∀ p ∈ h, getFile (Wal.openD (histDisk h)) p.1 = encodeRecs p.2 ∧
      ∀ r ∈ p.2, WfRec r := by
    intro p hp
    exact ⟨getFile_hist rfl hnd hp, fun r hr => hwf p hp r hr⟩
  have hrep := replay_hist (Wal.openD (histDisk h)) h [] hfiles hcontent
  rw [KvStore.openDisk]
  simp only [hrep]

theorem compactLoop_append {m1 : Map} : ∀ {w : Wal} {d : Map} {w' : Wal} {d' : Map},
    compactLoop w d m1 = (.ok (), w', d') → ∀ m2 : Map,
    compactLoop w d (m1 ++ m2) = compactLoop w' d' m2 := by
  induction m1 with
  | nil =>
    intro w d w' d' h m2
    rw [compactLoop] at h
    have hw : w = w' := congrArg (fun p => p.2.1) h
    have hd : d = d' := congrArg (fun p => p.2.2) h
    rw [List.nil_append, hw, hd]
  | cons p t ih =>
    intro w d w' d' h m2
    obtain ⟨k0, ve0⟩ := p
    cases hrv : w.read_value ve0 with
    | error e =>
      rw [compactLoop, hrv] at h
      cases congrArg (fun q => q.1) h
    | ok value =>
      rw [compactLoop, hrv] at h
      rw [List.cons_append, compactLoop, hrv]
      exact ih h m2

theorem compactLoop_key_vsz0 (k : Bytes) : ∀ (todo : Map) (w : Wal) (done : Map),
    (∀ p ∈ done, p.1 = k → p.2.vsz = 0) →
    (∀ p ∈ todo, p.1 = k → p.2.vsz = 0) →
    ∀ p ∈ (compactLoop w done todo).2.2, p.1 = k → p.2.vsz = 0
  | [], w, done, hd, _ => by
    intro p hp
    rw [compactLoop] at hp
    exact hd p hp
  | (k0, ve0) :: todo, w, done, hd, ht => by
    cases hrv : w.read_value ve0 with
    | error e =>
      simp only [compactLoop, hrv]
      intro p hp hpk
      rcases List.mem_append.1 hp with h1 | h1
      · exact hd p h1 hpk
      · exact ht p h1 hpk
    | ok value =>
      simp only [compactLoop, hrv]
      refine compactLoop_key_vsz0 k todo _ _ ?_ ?_
      · intro p hp hpk
        rcases List.mem_append.1 hp with h1 | h1
        · exact hd p h1 hpk
        · rw [List.mem_singleton] at h1
          subst h1
          have hv0 : ve0.vsz = 0 := ht (k0, ve0) (by simp) hpk
          have hlen : value.length = ve0.vsz := read_value_ok_length hrv
          show (w.write k0 value .SET).2.vsz = 0
          rw [write_vsz, hlen, hv0]
      · intro p hp hpk
        exact ht p (by simp [hp]) hpk

theorem readAt_encodeRec_badkey {a pre suf : Bytes} {off : Nat} {r : Rec}
    (ha : a = pre ++ (encodeRec r ++ suf)) (hoff : off = pre.length)
    (hk : r.key.length < 2 ^ 64) (hv : r.value.length < 2 ^ 64)
    (hu : isValidUtf8 r.key = false) :
    readAt a off = .error .serializationError := by
  have ha1 : a = pre ++ (usizeBytes r.key.length ++
      (usizeBytes r.value.length ++ (r.key ++ (r.value ++ suf)))) := by
    rw [ha]; simp [encodeRec]
  have ha2 : a = (pre ++ usizeBytes r.key.length) ++
      (usizeBytes r.value.length ++ (r.key ++ (r.value ++ suf))) := by
    rw [ha1]; simp
  have ha3 : a = (pre ++ usizeBytes r.key.length ++ usizeBytes r.value.length) ++
      (r.key ++ (r.value ++ suf)) := by
    rw [ha1]; simp
  have hlen2 : off + 8 = (pre ++ usizeBytes r.key.length).length := by
    simp [hoff, usizeBytes_length]
  have hlen3 : off + 8 + 8 =
      (pre ++ usizeBytes r.key.length ++ usizeBytes r.value.length).length := by
    simp [hoff, usizeBytes_length]
  simp only [readAt, readSizeAt_of_eq ha1 hoff hk, readSizeAt_of_eq ha2 hlen2 hv,
    readExactAt_of_eq ha3 hlen3 rfl, hu, Bool.false_eq_true, if_false]

theorem loadLoopF_error (fid : Nat) (rs : List Rec) :
    ∀ (pre tail : Bytes) (m : Map) (c fuel : Nat) (e : KvsError),
    (∀ r ∈ rs, WfRec r) →
    readAt (pre ++ (encodeRecs rs ++ tail)) (pre.length + (encodeRecs rs).length)
      = .error e →
    e ≠ .ioError .unexpectedEof →
    rs.length < fuel →
    loadLoopF (pre ++ (encodeRecs rs ++ tail)) fid fuel m pre.length c = .error e := by
  induction rs with
  | nil =>
    intro pre tail m c fuel e hwf herr hne hfuel
    match fuel, hfuel with
    | fuel + 1, _ =>
      have herr' : readAt (pre ++ (encodeRecs ([] : List Rec) ++ tail)) pre.length
          = .error e := by
        have h0 : pre.length + (encodeRecs ([] : List Rec)).length = pre.length := by
          simp [encodeRecs]
        rw [← h0]
        exact herr
      rw [loadLoopF, herr']
      cases e with
      | ioError kind =>
        cases kind with
        | unexpectedEof => exact absurd rfl hne
        | other => rfl
      | serializationError => rfl
      | eofError => rfl
      | keyNotFound k => rfl
  | cons r rs ih =>
    intro pre tail m c fuel e hwf herr hne hfuel
    match fuel, hfuel with
    | fuel + 1, hfuel =>
      have hwr : WfRec r := hwf r (by simp)
      have hdata : pre ++ (encodeRecs (r :: rs) ++ tail)
          = (pre ++ encodeRec r) ++ (encodeRecs rs ++ tail) := by
        simp [encodeRecs_cons]
      have hshape : pre ++ (encodeRecs (r :: rs) ++ tail)
          = pre ++ (encodeRec r ++ (encodeRecs rs ++ tail)) := by
        simp [encodeRecs_cons]
      have hread : readAt (pre ++ (encodeRecs (r :: rs) ++ tail)) pre.length
          = .ok (r.key, r.value.length, pre.length + 16 + r.key.length) :=
        readAt_encodeRec hshape rfl hwr.1 hwr.2.1 hwr.2.2.1
      have hprelen : (pre ++ encodeRec r).length = pre.length + recSize r := by
        simp [encodeRec_length]
      have herr2 : readAt ((pre ++ encodeRec r) ++ (encodeRecs rs ++ tail))
          ((pre ++ encodeRec r).length + (encodeRecs rs).length) = .error e := by
        rw [← hdata, hprelen]
        have h1 : pre.length + recSize r + (encodeRecs rs).length
            = pre.length + (encodeRecs (r :: rs)).length := by
          simp [encodeRecs_cons, encodeRec_length]
          omega
        rw [h1]
        exact herr
      have ihp := ih (pre ++ encodeRec r) tail
      simp only [loadLoopF, hread]
      by_cases hz : r.value.length = 0
      · rw [if_pos hz]
        have hoff : pre.length + 16 + r.key.length = (pre ++ encodeRec r).length := by
          rw [hprelen, recSize]
          omega
        rw [hoff, hdata]
        exact ihp (mapRemove r.key m) (c + 1) fuel e (fun x hx => hwf x (by simp [hx]))
          herr2 hne (by simpa using hfuel)
      · rw [if_neg hz]
        have hoff : pre.length + 16 + r.key.length + r.value.length
            = (pre ++ encodeRec r).length := by
          rw [hprelen, recSize]
          omega
        rw [hoff, hdata]
        exact ihp (mapInsert r.key ⟨fid, r.value.length, pre.length + 16 + r.key.length⟩ m)
          (c + 1) fuel e (fun x hx => hwf x (by simp [hx])) herr2 hne (by simpa using hfuel)

theorem load_log_file_badkey (w : Wal) (fid : Nat) (ts : List Rec) (bad : Rec) (m : Map)
    (hfile : getFile w fid = encodeRecs (ts ++ [bad]))
    (hwf : ∀ x ∈ ts, WfRec x)
    (hk : bad.key.length < 2 ^ 64) (hv : bad.value.length < 2 ^ 64)
    (hu : isValidUtf8 bad.key = false) :
    w.load_log_file fid m = .error .serializationError := by
  have hfile' : getFile w fid = encodeRecs ts ++ encodeRec bad := by
    rw [hfile, encodeRecs_concat]
  have herr : readAt ([] ++ (encodeRecs ts ++ encodeRec bad))
      (([] : Bytes).length + (encodeRecs ts).length) = .error .serializationError := by
    apply @readAt_encodeRec_badkey ([] ++ (encodeRecs ts ++ encodeRec bad))
      (encodeRecs ts) ([] : Bytes) (([] : Bytes).length + (encodeRecs ts).length) bad
      ?_ (by simp) hk hv hu
    simp
  have hfuel : ts.length < (encodeRecs ts ++ encodeRec bad).length + 1 := by
    have := length_le_encodeRecs ts
    simp only [List.length_append]
    omega
  have h := loadLoopF_error fid ts [] (encodeRec bad) m 0
    ((encodeRecs ts ++ encodeRec bad).length + 1) .serializationError hwf herr
    (by simp) (by simpa using hfuel)
  simp only [Wal.load_log_file, hfile']
  simpa using h

theorem truncFile_map_fst (d : Disk) (fid n : Nat) :
    (truncFile d fid n).map Prod.fst = d.map Prod.fst := by
  rw [truncFile, List.map_map]
  apply List.map_congr_left
  intro p _
  simp only [Function.comp_apply]
  split
  · rfl
  · rfl

theorem find?_truncFile_self {d : Disk} (hnd : (d.map Prod.fst).Nodup) {fid : Nat}
    {bs : Bytes} (hm : (fid, bs) ∈ d) (n : Nat) :
    (truncFile d fid n).find? (fun p => p.1 == fid)
      = some (fid, bs.take (bs.length - n)) := by
  have hnd' : ((truncFile d fid n).map Prod.fst).Nodup := by
    rw [truncFile_map_fst]
    exact hnd
  apply find?_of_mem_nodup hnd'
  rw [truncFile]
  refine List.mem_map.2 ⟨(fid, bs), hm, ?_⟩
  simp

theorem getFile_truncFile_self {d : Disk} (hnd : (d.map Prod.fst).Nodup) {fid : Nat}
    {bs : Bytes} (hm : (fid, bs) ∈ d) (n : Nat) {w : Wal}
    (hw : w.disk = truncFile d fid n) :
    getFile w fid = bs.take (bs.length - n) := by
  rw [getFile, hw, find?_truncFile_self hnd hm n]
  rfl

theorem getFile_truncFile_other {d : Disk} (hnd : (d.map Prod.fst).Nodup) {fid f : Nat}
    (hne : f ≠ fid) {bs : Bytes} (hm : (f, bs) ∈ d) (n : Nat) {w : Wal}
    (hw : w.disk = truncFile d fid n) :
    getFile w f = bs := by
  have hnd' : ((truncFile d fid n).map Prod.fst).Nodup := by
    rw [truncFile_map_fst]
    exact hnd
  have hmem : (f, bs) ∈ truncFile d fid n := by
    rw [truncFile]
    refine List.mem_map.2 ⟨(f, bs), hm, ?_⟩
    simp [hne]
  rw [getFile, hw, find?_of_mem_nodup hnd' hmem]
  rfl

theorem mapRemove_subset {k : Bytes} {m : Map} {p : Bytes × ValueEntry}
    (h : p ∈ mapRemove k m) : p ∈ m := (List.mem_filter.1 h).1

theorem replayRecs_mem_or (fid : Nat) : ∀ (rs : List Rec) (off : Nat) (m : Map)
    (p : Bytes × ValueEntry), p ∈ replayRecs fid off m rs →
    p ∈ m ∨ (p.2.file_id = fid ∧ p.2.vpos + p.2.vsz ≤ off + (encodeRecs rs).length)
  | [], off, m, p, hp => by
    rw [replayRecs] at hp
    exact Or.inl hp
  | r :: rs, off, m, p, hp => by
    rw [replayRecs] at hp
    rcases replayRecs_mem_or fid rs (off + recSize r) (applyRec fid off m r) p hp
      with h1 | ⟨h1, h2⟩
    · rw [applyRec] at h1
      by_cases hz : r.value.length = 0
      · rw [if_pos hz] at h1
        exact Or.inl (mapRemove_subset h1)
      · rw [if_neg hz] at h1
        rw [mapInsert] at h1
        rcases List.mem_append.1 h1 with h3 | h3
        · exact Or.inl (mapRemove_subset h3)
        · rw [List.mem_singleton] at h3
          subst h3
          refine Or.inr ⟨rfl, ?_⟩
          simp only [encodeRecs_cons, List.length_append, encodeRec_length, recSize]
          omega
    · refine Or.inr ⟨h1, ?_⟩
      simp only [encodeRecs_cons, List.length_append, encodeRec_length] at h2 ⊢
      omega

theorem replayHist_mem_or (fid B : Nat) : ∀ (h : Hist) (m : Map),
    (∀ q ∈ h, q.1 = fid → (encodeRecs q.2).length ≤ B) →
    ∀ p ∈ replayHist h m, p ∈ m ∨ p.2.file_id ≠ fid ∨ p.2.vpos + p.2.vsz ≤ B
  | [], m, _, p, hp => by
    rw [replayHist] at hp
    exact Or.inl hp
  | q :: t, m, hq, p, hp => by
    rw [replayHist] at hp
    rcases replayHist_mem_or fid B t (replayRecs q.1 0 m q.2)
        (fun x hx hxf => hq x (by simp [hx]) hxf) p hp with h1 | h1
    · rcases replayRecs_mem_or q.1 q.2 0 m p h1 with h2 | ⟨h2, h3⟩
      · exact Or.inl h2
      · by_cases hf : q.1 = fid
        · refine Or.inr (Or.inr ?_)
          have := hq q (by simp) hf
          omega
        · refine Or.inr (Or.inl ?_)
          rw [h2]
          exact hf
    · exact Or.inr h1

theorem replayGo_loads (w : Wal) : ∀ (h : Hist) (m : Map) (c : Nat),
    (∀ p ∈ h, ∀ m' : Map,
      w.load_log_file p.1 m' = .ok (replayRecs p.1 0 m' p.2, p.2.length)) →
    replayGo w (h.map Prod.fst) m c = .ok (replayHist h m, c + countHist h)
  | [], m, c, _ => by
    simp [replayGo, replayHist, countHist]
  | (fid, rs) :: t, m, c, hh => by
    have h1 := hh (fid, rs) (by simp) m
    rw [List.map_cons]
    simp only [replayGo, h1]
    rw [replayGo_loads w t _ _ (fun p hp => hh p (by simp [hp]))]
    simp only [replayHist, countHist, List.map_cons, List.sum_cons]
    rw [show c + rs.length + (t.map (fun p => p.2.length)).sum
      = c + (rs.length + (t.map (fun p => p.2.length)).sum) from by omega]

theorem read_value_within {w w' : Wal} {ve : ValueEntry} {pre ext : Bytes}
    (h1 : getFile w ve.file_id = pre) (h2 : getFile w' ve.file_id = pre ++ ext)
    (hb : ve.vpos + ve.vsz ≤ pre.length) :
    w'.read_value ve = w.read_value ve := by
  rw [Wal.read_value, Wal.read_value, h1, h2]
  have he : readExactAt (pre ++ ext) ve.vpos ve.vsz = readExactAt pre ve.vpos ve.vsz := by
    by_cases hz : ve.vsz = 0
    · rw [hz, readExactAt_zero, readExactAt_zero]
    · have hok : readExactAt pre ve.vpos ve.vsz
          = .ok ((pre.drop ve.vpos).take ve.vsz) := by
        rw [readExactAt, if_neg hz, if_pos hb]
      rw [hok, readExactAt_extend hok]
  rw [he]

theorem find?_isSome_of_mem {d : Disk} {fid : Nat} (h : fid ∈ d.map Prod.fst) :
    (d.find? (fun p => p.1 == fid)).isSome = true := by
  obtain ⟨p, hp, hpf⟩ := List.mem_map.1 h
  cases hf : d.find? (fun q => q.1 == fid) with
  | some q => rfl
  | none =>
    rw [List.find?_eq_none] at hf
    have := hf p hp
    rw [hpf] at this
    simp at this

theorem get_of_InvH {S : List Op} {s : KvStore} {h : Hist} (inv : InvH S s h)
    (k : Bytes) : s.get k = .ok (lwwGet S k) := by
  have hml := inv.map_lww k
  rw [KvStore.get, lwwGet]
  cases hls : lwwSpec S k with
  | none =>
    rw [hls] at hml
    rw [hml]
  | some v =>
    rw [hls] at hml
    obtain ⟨ve, hve, hsz, hrd⟩ := hml
    rw [hve]
    simp only
    by_cases hv : v = []
    · subst hv
      have h0 : ve.vsz = 0 := by simpa using hsz
      rw [if_neg (by omega), if_pos rfl]
    · have hpos : 0 < ve.vsz := by
        rw [hsz]
        cases v with
        | nil => exact absurd rfl hv
        | cons a t => simp
      rw [if_pos hpos, hrd, if_neg hv]

theorem get_none_of_vsz0 {m : Map} {k : Bytes}
    (h : ∀ x ∈ m, x.1 = k → x.2.vsz = 0) (w : Wal) (c : Nat) :
    KvStore.get ⟨m, w, c⟩ k = .ok none := by
  rw [KvStore.get]
  cases hlk : mapLookup k m with
  | none => rfl
  | some ve =>
    simp only
    have hm := mapLookup_some_mem hlk
    have h0 : ve.vsz = 0 := h (k, ve) hm rfl
    rw [if_neg (by omega)]

/-- C1 (corrected): after a well-formed sequence `S` on a freshly opened
store over an empty directory, `get k` returns the value of the most
recent `set(k, _)` in `S` not followed by a later `remove(k)`, except that
an empty value reads back as absent (`lwwGet`).  The original claim, which
would return the empty value itself, fails — see the counterexample. -/
theorem C1_lww (S : List Op) (hwf : WfOps S) (k : Bytes) :
    (runOps freshStore S).get k = .ok (lwwGet S k) := by
  obtain ⟨h, inv⟩ := Inv_runOps S hwf
  exact get_of_InvH inv k

/-- Witness for C1 at `S = [set "a" "x"]`, `k = "a"`. -/
theorem C1_lww_witness :
    (runOps freshStore [Op.set [97] [120]]).get [97]
      = .ok (lwwGet [Op.set [97] [120]] [97]) :=
  C1_lww [Op.set [97] [120]]
    (fun op hop => by
      rw [List.mem_singleton] at hop
      subst hop
      exact ⟨⟨by decide, by decide⟩, ⟨by decide, by decide⟩⟩)
    [97]

/-- C1 counterexample to the literal claim: after `set("a", "")` the most
recent `set` of `"a"` is not followed by any `remove("a")`, yet `get "a"`
returns absent instead of the empty value. -/
theorem C1_counterexample :
    lwwSpec [Op.set [97] []] [97] = some [] ∧
    (runOps freshStore [Op.set [97] []]).get [97] = .ok none := ⟨rfl, rfl⟩

/-- C2 (corrected): for a well-formed sequence all of whose `set` values
are non-empty, re-opening the directory the run left behind succeeds and
reconstructs an index that agrees with the pre-close in-memory index on
every key (the same `(file_id, vsz, vpos)` triple).  Without the
non-emptiness restriction the claim fails: `set(k, "")` leaves `k` in the
in-memory index with a `vsz = 0` entry, but replay removes `k` — see the
counterexample. -/
theorem C2_replay (S : List Op) (hwf : WfOps S) (hne : NonEmptyVals S) :
    ∃ s', KvStore.openDisk (runOps freshStore S).log.disk = .ok s' ∧
      ∀ k, mapLookup k s'.map = mapLookup k (runOps freshStore S).map := by
  obtain ⟨h, inv⟩ := Inv_runOps S hwf
  rw [inv.disk_eq]
  refine ⟨_, openDisk_clean inv.files_sorted
    (fun p hp x hx => (inv.recs_wf p hp x hx).1), ?_⟩
  intro k
  show mapLookup k (replayHist h []) = mapLookup k (runOps freshStore S).map
  rw [inv.replay_map k]
  have hml := inv.map_lww k
  cases hls : lwwSpec S k with
  | none =>
    rw [hls] at hml
    rw [hml]
    rfl
  | some v =>
    rw [hls] at hml
    obtain ⟨ve, hve, hsz, _⟩ := hml
    rw [hve]
    have hvne : v ≠ [] := by
      intro hc
      subst hc
      exact hne _ (lwwSpec_some_mem hls) rfl
    have hvsz : ve.vsz ≠ 0 := by
      rw [hsz]
      cases v with
      | nil => exact absurd rfl hvne
      | cons a t => simp
    simp [hvsz]

/-- Witness for C2 at `S = [set "a" "x"]`. -/
theorem C2_replay_witness :
    ∃ s', KvStore.openDisk (runOps freshStore [Op.set [97] [120]]).log.disk = .ok s' ∧
      ∀ k, mapLookup k s'.map
        = mapLookup k (runOps freshStore [Op.set [97] [120]]).map :=
  C2_replay [Op.set [97] [120]]
    (fun op hop => by
      rw [List.mem_singleton] at hop
      subst hop
      exact ⟨⟨by decide, by decide⟩, ⟨by decide, by decide⟩⟩)
    (fun op hop => by
      rw [List.mem_singleton] at hop
      subst hop
      simp)

set_option maxRecDepth 10000 in
/-- C2 counterexample to the literal claim: after `set("a", "")` the
in-memory index still holds `"a"` (entry `⟨1, 0, 17⟩`), while the index
reconstructed by `open` does not contain `"a"` at all. -/
theorem C2_counterexample :
    ∃ s', KvStore.openDisk (runOps freshStore [Op.set [97] []]).log.disk = .ok s' ∧
      mapLookup [97] s'.map = none ∧
      mapLookup [97] (runOps freshStore [Op.set [97] []]).map = some ⟨1, 0, 17⟩ :=
  ⟨_, rfl, rfl, rfl⟩

/-- C3 (corrected): the compaction trigger.  After a `set`, compaction runs
iff `live_keys / ops_count ≤ 0.7` computed on the post-insert index and the
pre-increment `ops_count` (`compactCond`); a `remove` never runs compaction
(its log keeps every existing segment, gaining at most the one fresh
segment a rollover allocates); and `open` starts `ops_count` at 0,
discarding the count of records replayed.  The original claim fails on
both points — see the counterexample. -/
theorem C3_trigger (s : KvStore) (k v q : Bytes) (d : Disk) (s' : KvStore)
    (hopen : KvStore.openDisk d = .ok s') :
    (s.setC k v).2
        = compactCond (mapInsert k (s.log.write k v .SET).2 s.map) s.ops_count
    ∧ ((s.remove q).2.log.files = s.log.files ∨
       (s.remove q).2.log.files = s.log.files ++ [s.log.nextId])
    ∧ s'.ops_count = 0 := by
  refine ⟨?_, ?_, ?_⟩
  · simp only [KvStore.setC, KvStore.compact_if_needed]
    by_cases hc : compactCond (mapInsert k (s.log.write k v .SET).2 s.map)
        s.ops_count = true
    · rw [if_pos hc, hc]
      rcases hcp : (s.log.write k v .SET).1.compact
          (mapInsert k (s.log.write k v .SET).2 s.map) with ⟨e, w2, m2⟩
      cases e with
      | ok u => rfl
      | error e => rfl
    · rw [if_neg hc]
      rw [Bool.not_eq_true] at hc
      exact hc.symm
  · rw [KvStore.remove, KvStore.removeG]
    by_cases hs : (mapLookup q s.map).isSome = true
    · rw [if_pos hs]
      exact write_files s.log q [] .RM
    · rw [if_neg hs]
      exact Or.inl rfl
  · rw [KvStore.openDisk] at hopen
    cases hrep : (Wal.openD d).replay [] with
    | ok p =>
      obtain ⟨m, c⟩ := p
      rw [hrep] at hopen
      simp only at hopen
      injection hopen with hopen
      rw [← hopen]
    | error e =>
      rw [hrep] at hopen
      simp only at hopen
      cases hopen

/-- Witness for C3 at the fresh store, `k = "a"`, `v = "x"`, `q = "b"` and
the empty directory. -/
theorem C3_trigger_witness :
    (freshStore.setC [97] [120]).2
        = compactCond (mapInsert [97] (freshStore.log.write [97] [120] .SET).2
            freshStore.map) freshStore.ops_count
    ∧ ((freshStore.remove [98]).2.log.files = freshStore.log.files ∨
       (freshStore.remove [98]).2.log.files
          = freshStore.log.files ++ [freshStore.log.nextId])
    ∧ freshStore.ops_count = 0 :=
  C3_trigger freshStore [97] [120] [98] [] freshStore rfl

/-- C3 counterexample to the literal claim: after the mutating `remove`
in `[set "a" "x", set "b" "y", remove "a"]` the live/ops ratio is 1/3,
well at or below 0.7 (`compactCond` holds), yet no compaction ran — the
log still consists of the single original segment. -/
theorem C3_counterexample :
    compactCond
        (runOps freshStore [Op.set [97] [120], Op.set [98] [121], Op.remove [97]]).map
        (runOps freshStore
          [Op.set [97] [120], Op.set [98] [121], Op.remove [97]]).ops_count = true
    ∧ (runOps freshStore
        [Op.set [97] [120], Op.set [98] [121], Op.remove [97]]).log.files = [1] :=
  ⟨rfl, rfl⟩

/-- C4 (confirmed): removing a key absent from the index fails with the
distinguished `KeyNotFound` error and returns the store unchanged — the
index, the segment files and `ops_count` are exactly those of the input
store. -/
theorem C4_remove_absent (s : KvStore) (k : Bytes)
    (habs : mapLookup k s.map = none) :
    s.remove k = (.error (.keyNotFound k), s) := by
  rw [KvStore.remove, KvStore.removeG, if_neg]
  rw [habs]
  simp

/-- Witness for C4: removing `"a"` from the fresh store. -/
theorem C4_remove_absent_witness :
    freshStore.remove [97] = (.error (.keyNotFound [97]), freshStore) :=
  C4_remove_absent freshStore [97] rfl

/-- C8 (confirmed): segment rollover.  If before a write the active (last)
segment already holds at least `SEGMENT_SIZE` bytes, the write allocates
the fresh identifier `nextId`, appends it to the file list and targets the
new segment; consequently, in every reachable state each segment file is
an under-`SEGMENT_SIZE` prefix followed by at most one final record. -/
theorem C8_rollover (w : Wal) (l : List Nat) (f : Nat) (k v : Bytes)
    (hf : w.files = l ++ [f]) (hmem : f ∈ w.disk.map Prod.fst)
    (hbig : SEGMENT_SIZE ≤ (getFile w f).length)
    (hnid : w.nextId ∉ w.disk.map Prod.fst)
    (S : List Op) (hwf : WfOps S) :
    ((w.write k v .SET).1.files = w.files ++ [w.nextId]
      ∧ (w.write k v .SET).2.file_id = w.nextId)
    ∧ ∀ p ∈ (runOps freshStore S).log.disk,
        p.2 = [] ∨ ∃ (pre : Bytes) (r : Rec),
          p.2 = pre ++ encodeRec r ∧ pre.length < SEGMENT_SIZE := by
  constructor
  · rw [write_set_roll hf hmem hbig hnid k v]
    exact ⟨rfl, rfl⟩
  · obtain ⟨h, inv⟩ := Inv_runOps S hwf
    intro p hp
    rw [inv.disk_eq, histDisk] at hp
    obtain ⟨q, hq, hqe⟩ := List.mem_map.1 hp
    subst hqe
    by_cases hq2 : q.2 = []
    · exact Or.inl (by simp [hq2, encodeRecs])
    · rcases inv.size_ok q hq with h1 | h1
      · exact absurd h1 hq2
      · refine Or.inr ⟨encodeRecs q.2.dropLast, q.2.getLast hq2, ?_, h1⟩
        show encodeRecs q.2 = _
        conv_lhs => rw [← List.dropLast_append_getLast hq2]
        rw [encodeRecs_concat]

/-- Witness for C8 at a wal whose single segment holds exactly
`SEGMENT_SIZE` zero bytes, and the empty sequence. -/
theorem C8_rollover_witness :
    ((Wal.write ⟨[1], [(1, List.replicate 128 0)], 2⟩ [97] [120] .SET).1.files
        = [1] ++ [2]
      ∧ (Wal.write ⟨[1], [(1, List.replicate 128 0)], 2⟩ [97] [120] .SET).2.file_id = 2)
    ∧ ∀ p ∈ (runOps freshStore []).log.disk,
        p.2 = [] ∨ ∃ (pre : Bytes) (r : Rec),
          p.2 = pre ++ encodeRec r ∧ pre.length < SEGMENT_SIZE := by
  have h := C8_rollover ⟨[1], [(1, List.replicate 128 0)], 2⟩ [] 1 [97] [120]
    rfl (by decide) (by decide) (by decide) []
    (fun op hop => absurd hop (List.not_mem_nil op))
  exact h

/-- C9 (confirmed): `set(k, "")` appends exactly the tombstone record —
the same bytes and `vsz = 0` entry a `remove` appends — after which
`get k` returns absent (the zero size is tested before any read, also
surviving an intervening compaction), and replay after a restart removes
`k` from the reconstructed index instead of inserting it. -/
theorem C9_tombstone (s : KvStore) (k : Bytes) (S : List Op)
    (hwf : WfOps (S ++ [Op.set k []])) :
    ((s.log.write k [] .SET).2.vsz = 0
      ∧ s.log.write k [] .SET = s.log.write k [] .RM)
    ∧ ((s.set k []).2.get k = .ok none)
    ∧ (∃ s', KvStore.openDisk
          (runOps freshStore (S ++ [Op.set k []])).log.disk = .ok s'
        ∧ mapLookup k s'.map = none) := by
  refine ⟨⟨rfl, (write_eq_writeRec s.log k [] .RM).symm⟩, ?_, ?_⟩
  · have hm1k : ∀ x ∈ mapInsert k (s.log.write k [] .SET).2 s.map,
        x.1 = k → x.2.vsz = 0 := by
      intro x hx hxk
      rw [mapInsert] at hx
      rcases List.mem_append.1 hx with h1 | h1
      · have := (List.mem_filter.1 h1).2
        rw [hxk] at this
        simp at this
      · rw [List.mem_singleton] at h1
        subst h1
        exact write_vsz s.log k []
    rw [KvStore.set]
    simp only [KvStore.setC, KvStore.compact_if_needed]
    by_cases hc : compactCond (mapInsert k (s.log.write k [] .SET).2 s.map)
        s.ops_count = true
    · rw [if_pos hc]
      rcases hcp : (s.log.write k [] .SET).1.compact
          (mapInsert k (s.log.write k [] .SET).2 s.map) with ⟨e, w2, m2⟩
      have hm2eq : m2 = (compactLoop (pushNew (s.log.write k [] .SET).1) []
          (mapInsert k (s.log.write k [] .SET).2 s.map)).2.2 := by
        rw [Wal.compact] at hcp
        rcases hcl : compactLoop (pushNew (s.log.write k [] .SET).1) []
            (mapInsert k (s.log.write k [] .SET).2 s.map) with ⟨e1, w1, d1⟩
        rw [hcl] at hcp
        cases e1 with
        | ok u =>
          simp only at hcp
          have := congrArg (fun z => z.2.2) hcp
          simp only at this
          exact this.symm
        | error e1 =>
          simp only at hcp
          have := congrArg (fun z => z.2.2) hcp
          simp only at this
          exact this.symm
      have hm2 : ∀ x ∈ m2, x.1 = k → x.2.vsz = 0 := by
        rw [hm2eq]
        exact compactLoop_key_vsz0 k
          (mapInsert k (s.log.write k [] .SET).2 s.map)
          (pushNew (s.log.write k [] .SET).1) [] (by simp) hm1k
      cases e with
      | ok u => exact get_none_of_vsz0 hm2 w2 (s.ops_count + 1)
      | error e => exact get_none_of_vsz0 hm2 w2 s.ops_count
    · rw [if_neg hc]
      exact get_none_of_vsz0 hm1k (s.log.write k [] .SET).1 (s.ops_count + 1)
  · obtain ⟨h, inv⟩ := Inv_runOps (S ++ [Op.set k []]) hwf
    rw [inv.disk_eq]
    refine ⟨_, openDisk_clean inv.files_sorted
      (fun p hp x hx => (inv.recs_wf p hp x hx).1), ?_⟩
    show mapLookup k (replayHist h []) = none
    rw [inv.replay_map k]
    have hml := inv.map_lww k
    have hls : lwwSpec (S ++ [Op.set k []]) k = some [] := by
      rw [lwwSpec_append]
      simp
    rw [hls] at hml
    obtain ⟨ve, hve, hsz, _⟩ := hml
    rw [hve]
    have h0 : ve.vsz = 0 := by simpa using hsz
    simp [h0]

/-- Witness for C9 at the fresh store, `k = "a"`, `S = []`. -/
theorem C9_tombstone_witness :
    ((freshStore.log.write [97] [] .SET).2.vsz = 0
      ∧ freshStore.log.write [97] [] .SET = freshStore.log.write [97] [] .RM)
    ∧ ((freshStore.set [97] []).2.get [97] = .ok none)
    ∧ (∃ s', KvStore.openDisk
          (runOps freshStore ([] ++ [Op.set [97] []])).log.disk = .ok s'
        ∧ mapLookup [97] s'.map = none) :=
  C9_tombstone freshStore [97] []
    (fun op hop => by
      rw [List.nil_append, List.mem_singleton] at hop
      subst hop
      exact ⟨⟨by decide, by decide⟩, ⟨by decide, by decide⟩⟩)

/-- C10 (confirmed): remove is not atomic on a failed append.  For a key
present in the index, the index entry is deleted before the tombstone is
appended, so when the append fails with an I/O error the call returns the
error while the key is already gone from the in-memory index, the log is
untouched and `ops_count` is not incremented. -/
theorem C10_remove_nonatomic (s : KvStore) (k : Bytes)
    (hsome : (mapLookup k s.map).isSome = true) :
    KvStore.removeG true s k
      = (.error (.ioError .other), ⟨mapRemove k s.map, s.log, s.ops_count⟩)
    ∧ mapLookup k (mapRemove k s.map) = none := by
  refine ⟨?_, mapLookup_remove_self k s.map⟩
  rw [KvStore.removeG, if_pos hsome]
  rfl

/-- Witness for C10 after `set "a" "x"` on the fresh store. -/
theorem C10_remove_nonatomic_witness :
    KvStore.removeG true (runOps freshStore [Op.set [97] [120]]) [97]
      = (.error (.ioError .other),
         ⟨mapRemove [97] (runOps freshStore [Op.set [97] [120]]).map,
          (runOps freshStore [Op.set [97] [120]]).log,
          (runOps freshStore [Op.set [97] [120]]).ops_count⟩)
    ∧ mapLookup [97] (mapRemove [97] (runOps freshStore [Op.set [97] [120]]).map)
        = none :=
  C10_remove_nonatomic (runOps freshStore [Op.set [97] [120]]) [97] rfl

theorem setFile_map_fst (d : Disk) (fid : Nat) (bs : Bytes) :
    (setFile d fid bs).map Prod.fst = d.map Prod.fst := by
  rw [setFile, List.map_map]
  apply List.map_congr_left
  intro p _
  simp only [Function.comp_apply]
  split
  · rfl
  · rfl

theorem find?_setFile_self {d : Disk} (hnd : (d.map Prod.fst).Nodup) {fid : Nat}
    {bs0 : Bytes} (hm : (fid, bs0) ∈ d) (bs : Bytes) :
    (setFile d fid bs).find? (fun p => p.1 == fid) = some (fid, bs) := by
  have hnd' : ((setFile d fid bs).map Prod.fst).Nodup := by
    rw [setFile_map_fst]
    exact hnd
  apply find?_of_mem_nodup hnd'
  rw [setFile]
  refine List.mem_map.2 ⟨(fid, bs0), hm, ?_⟩
  simp

theorem getFile_setFile_self {d : Disk} (hnd : (d.map Prod.fst).Nodup) {fid : Nat}
    {bs0 : Bytes} (hm : (fid, bs0) ∈ d) (bs : Bytes) {w : Wal}
    (hw : w.disk = setFile d fid bs) : getFile w fid = bs := by
  rw [getFile, hw, find?_setFile_self hnd hm bs]
  rfl

theorem getFile_setFile_other {d : Disk} (hnd : (d.map Prod.fst).Nodup) {fid x : Nat}
    (hne : x ≠ fid) {bs0 : Bytes} (hm : (x, bs0) ∈ d) (bs : Bytes) {w : Wal}
    (hw : w.disk = setFile d fid bs) : getFile w x = bs0 := by
  have hnd' : ((setFile d fid bs).map Prod.fst).Nodup := by
    rw [setFile_map_fst]
    exact hnd
  have hmem : (x, bs0) ∈ setFile d fid bs := by
    rw [setFile]
    refine List.mem_map.2 ⟨(x, bs0), hm, ?_⟩
    simp [hne]
  rw [getFile, hw, find?_of_mem_nodup hnd' hmem]
  rfl

theorem openDisk_loads {d : Disk} (g : Hist)
    (hfiles : sortNat (d.map Prod.fst) = g.map Prod.fst)
    (hloads : ∀ p ∈ g, ∀ m' : Map,
      (Wal.openD d).load_log_file p.1 m' = .ok (replayRecs p.1 0 m' p.2, p.2.length)) :
    KvStore.openDisk d = .ok ⟨replayHist g [], Wal.openD d, 0⟩ := by
  have hfs : (Wal.openD d).files = g.map Prod.fst := hfiles
  have hrep : (Wal.openD d).replay [] = .ok (replayHist g [], countHist g) := by
    rw [Wal.replay, hfs, replayGo_loads (Wal.openD d) g [] 0 hloads, Nat.zero_add]
  simp only [KvStore.openDisk, hrep]

/-- C6 (confirmed): replay error classification.  A segment made of
complete records followed by a partial record cut inside its header or key
replays cleanly — the partial record is discarded and the count of
complete records is returned — while a record whose key bytes are not
valid UTF-8 aborts the segment's replay with the serialization error, and
`open` on a directory holding such a segment fails with that error. -/
theorem C6_replay_errors (w1 w2 : Wal) (fid1 fid2 : Nat) (rs ts : List Rec)
    (r bad : Rec) (m0 : Nat) (m1 m2 : Map)
    (hwf : ∀ x ∈ rs, WfRec x) (hk : r.key.length < 2 ^ 64)
    (hv : r.value.length < 2 ^ 64) (hm0 : m0 < 16 + r.key.length)
    (hfile1 : getFile w1 fid1 = encodeRecs rs ++ (encodeRec r).take m0)
    (hwfts : ∀ x ∈ ts, WfRec x)
    (hbk : bad.key.length < 2 ^ 64) (hbv : bad.value.length < 2 ^ 64)
    (hbu : isValidUtf8 bad.key = false)
    (hfile2 : getFile w2 fid2 = encodeRecs (ts ++ [bad])) :
    (w1.load_log_file fid1 m1 = .ok (replayRecs fid1 0 m1 rs, rs.length))
    ∧ (w2.load_log_file fid2 m2 = .error .serializationError)
    ∧ (KvStore.openDisk [(fid2, encodeRecs (ts ++ [bad]))]
        = .error .serializationError) := by
  refine ⟨?_, ?_, ?_⟩
  · exact load_log_file_spec w1 fid1 rs ((encodeRec r).take m0) m1 hfile1 hwf
      (readAt_truncated rfl rfl hm0 hk hv)
  · exact load_log_file_badkey w2 fid2 ts bad m2 hfile2 hwfts hbk hbv hbu
  · have hgf : getFile (Wal.openD [(fid2, encodeRecs (ts ++ [bad]))]) fid2
        = encodeRecs (ts ++ [bad]) := by
      simp [getFile, Wal.openD]
    have hload := load_log_file_badkey (Wal.openD [(fid2, encodeRecs (ts ++ [bad]))])
      fid2 ts bad [] hgf hwfts hbk hbv hbu
    have hfiles : (Wal.openD [(fid2, encodeRecs (ts ++ [bad]))]).files = [fid2] := rfl
    have hrep : (Wal.openD [(fid2, encodeRecs (ts ++ [bad]))]).replay []
        = .error .serializationError := by
      rw [Wal.replay, hfiles]
      simp only [replayGo, hload]
    simp only [KvStore.openDisk, hrep]

/-- Witness for C6: a segment holding the first 9 bytes of a `("a", "x")`
record (cut inside the second size prefix), and a segment holding one
record whose key byte `0x80` is not valid UTF-8. -/
theorem C6_replay_errors_witness :
    ((⟨[1], [(1, (encodeRec ⟨[97], [120]⟩).take 9)], 2⟩ : Wal).load_log_file 1 []
        = .ok (replayRecs 1 0 [] [], ([] : List Rec).length))
    ∧ ((⟨[1], [(1, encodeRecs [⟨[128], []⟩])], 2⟩ : Wal).load_log_file 1 []
        = .error .serializationError)
    ∧ (KvStore.openDisk [(1, encodeRecs (([] : List Rec) ++ [⟨[128], []⟩]))]
        = .error .serializationError) :=
  C6_replay_errors ⟨[1], [(1, (encodeRec ⟨[97], [120]⟩).take 9)], 2⟩
    ⟨[1], [(1, encodeRecs [⟨[128], []⟩])], 2⟩ 1 1 [] [] ⟨[97], [120]⟩ ⟨[128], []⟩
    9 [] []
    (fun x hx => absurd hx (List.not_mem_nil x))
    (by decide) (by decide) (by decide) rfl
    (fun x hx => absurd hx (List.not_mem_nil x))
    (by decide) (by decide) (by decide) rfl

theorem get_congr_read {m : Map} {w w' : Wal} {c c' : Nat} (k : Bytes)
    (hrd : ∀ ve, mapLookup k m = some ve → 0 < ve.vsz →
      w.read_value ve = w'.read_value ve) :
    KvStore.get ⟨m, w, c⟩ k = KvStore.get ⟨m, w', c'⟩ k := by
  simp only [KvStore.get]
  cases hlk : mapLookup k m with
  | none => rfl
  | some ve =>
    simp only
    by_cases hz : 0 < ve.vsz
    · rw [if_pos hz, if_pos hz, hrd ve hlk hz]
    · rw [if_neg hz, if_neg hz]

/-- C5 (corrected): truncation recovery.  Truncating the last segment by
`n` bytes cutting into the final record's header or key region — that is,
with `value-size < n ≤ record-size` — yields an `open` that succeeds and
whose every `get` agrees with the store opened on the directory in which
the final record is wholly absent.  The original claim, allowing any
`1 ≤ n ≤ record-size`, fails: a cut confined to the value payload still
replays the record, leaving its index entry dangling past end-of-file, and
`get` on its key then returns an error — see the counterexample. -/
theorem C5_truncation (S : List Op) (hwfS : WfOps S) (f : Nat) (rs : List Rec)
    (r : Rec) (n : Nat) (hn1 : r.value.length < n) (hn2 : n ≤ recSize r)
    (_hlastf : (runOps freshStore S).log.files.getLast? = some f)
    (hbytes : getFile (runOps freshStore S).log f = encodeRecs (rs ++ [r]))
    (hwfr : ∀ x ∈ rs ++ [r], WfRec x) :
    ∃ s' s'',
      KvStore.openDisk (truncFile (runOps freshStore S).log.disk f n) = .ok s'
      ∧ KvStore.openDisk
          (setFile (runOps freshStore S).log.disk f (encodeRecs rs)) = .ok s''
      ∧ ∀ k, s'.get k = s''.get k := by
  obtain ⟨h, inv⟩ := Inv_runOps S hwfS
  have hnd : (h.map Prod.fst).Nodup := nodup_of_sorted inv.files_sorted
  have hdfst : (histDisk h).map Prod.fst = h.map Prod.fst := by simp [histDisk]
  have hdnd : ((histDisk h).map Prod.fst).Nodup := by
    rw [hdfst]
    exact hnd
  have hwfrr : WfRec r := hwfr r (by simp)
  have hwfrs : ∀ x ∈ rs, WfRec x := fun x hx => hwfr x (by simp [hx])
  have hrsz : recSize r = 16 + r.key.length + r.value.length := rfl
  have hfmem : f ∈ h.map Prod.fst := by
    by_contra hfn
    have habs : getFile (runOps freshStore S).log f = [] := by
      apply getFile_absent
      rw [inv.disk_eq, hdfst]
      exact hfn
    rw [hbytes] at habs
    have hlen := congrArg List.length habs
    rw [encodeRecs_concat] at hlen
    simp only [List.length_append, List.length_nil, encodeRec_length] at hlen
    omega
  obtain ⟨pf, hpf, hpff⟩ := List.mem_map.1 hfmem
  have hpf' : (f, pf.2) ∈ h := by
    rw [← hpff]
    exact hpf
  have hBf : encodeRecs pf.2 = encodeRecs rs ++ encodeRec r := by
    have h1 : getFile (runOps freshStore S).log f = encodeRecs pf.2 :=
      getFile_hist inv.disk_eq hnd hpf'
    rw [h1, encodeRecs_concat] at hbytes
    exact hbytes
  have hdmem : (f, encodeRecs pf.2) ∈ histDisk h := by
    rw [histDisk]
    exact List.mem_map.2 ⟨(f, pf.2), hpf', rfl⟩
  rw [inv.disk_eq]
  set g : Hist := h.map (fun p => if p.1 == f then (p.1, rs) else p) with hg
  have hgfst : g.map Prod.fst = h.map Prod.fst := by
    rw [hg, List.map_map]
    apply List.map_congr_left
    intro p _
    simp only [Function.comp_apply]
    split
    · rfl
    · rfl
  have hA1 : getFile (Wal.openD (truncFile (histDisk h) f n)) f
      = encodeRecs rs ++ (encodeRec r).take (recSize r - n) := by
    have h1 := getFile_truncFile_self hdnd hdmem n
      (w := Wal.openD (truncFile (histDisk h) f n)) rfl
    rw [hBf] at h1
    rw [h1]
    have hlen : (encodeRecs rs ++ encodeRec r).length - n
        = (encodeRecs rs).length + (recSize r - n) := by
      simp only [List.length_append, encodeRec_length]
      omega
    rw [hlen, List.take_append_eq_append_take,
      List.take_of_length_le (by omega),
      show (encodeRecs rs).length + (recSize r - n) - (encodeRecs rs).length
        = recSize r - n from by omega]
  have hA2 : ∀ q ∈ h, q.1 ≠ f →
      getFile (Wal.openD (truncFile (histDisk h) f n)) q.1 = encodeRecs q.2 := by
    intro q hq hqf
    have hqm : (q.1, encodeRecs q.2) ∈ histDisk h := List.mem_map.2 ⟨q, hq, rfl⟩
    exact getFile_truncFile_other hdnd hqf hqm n rfl
  have hB1 : getFile (Wal.openD (setFile (histDisk h) f (encodeRecs rs))) f
      = encodeRecs rs :=
    getFile_setFile_self hdnd hdmem (encodeRecs rs) rfl
  have hB2 : ∀ q ∈ h, q.1 ≠ f →
      getFile (Wal.openD (setFile (histDisk h) f (encodeRecs rs))) q.1
        = encodeRecs q.2 := by
    intro q hq hqf
    have hqm : (q.1, encodeRecs q.2) ∈ histDisk h := List.mem_map.2 ⟨q, hq, rfl⟩
    exact getFile_setFile_other hdnd hqf hqm (encodeRecs rs) rfl
  have heofT : readAt (encodeRecs rs ++ (encodeRec r).take (recSize r - n))
      (encodeRecs rs).length = .error (.ioError .unexpectedEof) :=
    readAt_truncated rfl rfl (by omega) hwfrr.1 hwfrr.2.1
  have hload1 : ∀ p ∈ g, ∀ m' : Map,
      (Wal.openD (truncFile (histDisk h) f n)).load_log_file p.1 m'
        = .ok (replayRecs p.1 0 m' p.2, p.2.length) := by
    intro p hp m'
    rw [hg] at hp
    obtain ⟨q, hq, hqe⟩ := List.mem_map.1 hp
    by_cases hqf : q.1 = f
    · have hpe : p = (f, rs) := by
        rw [← hqe, if_pos (by simp [hqf]), hqf]
      subst hpe
      exact load_log_file_spec _ f rs ((encodeRec r).take (recSize r - n)) m'
        hA1 hwfrs heofT
    · have hpe : p = q := by
        rw [← hqe, if_neg (by simp [hqf])]
      rw [hpe]
      exact load_log_file_clean _ q.1 q.2 m' (hA2 q hq hqf)
        (fun x hx => (inv.recs_wf q hq x hx).1)
  have hload2 : ∀ p ∈ g, ∀ m' : Map,
      (Wal.openD (setFile (histDisk h) f (encodeRecs rs))).load_log_file p.1 m'
        = .ok (replayRecs p.1 0 m' p.2, p.2.length) := by
    intro p hp m'
    rw [hg] at hp
    obtain ⟨q, hq, hqe⟩ := List.mem_map.1 hp
    by_cases hqf : q.1 = f
    · have hpe : p = (f, rs) := by
        rw [← hqe, if_pos (by simp [hqf]), hqf]
      subst hpe
      exact load_log_file_clean _ f rs m' hB1 hwfrs
    · have hpe : p = q := by
        rw [← hqe, if_neg (by simp [hqf])]
      rw [hpe]
      exact load_log_file_clean _ q.1 q.2 m' (hB2 q hq hqf)
        (fun x hx => (inv.recs_wf q hq x hx).1)
  have hsortT : sortNat ((truncFile (histDisk h) f n).map Prod.fst)
      = g.map Prod.fst := by
    rw [truncFile_map_fst, hdfst, hgfst]
    exact sortNat_of_sorted inv.files_sorted
  have hsortS : sortNat ((setFile (histDisk h) f (encodeRecs rs)).map Prod.fst)
      = g.map Prod.fst := by
    rw [setFile_map_fst, hdfst, hgfst]
    exact sortNat_of_sorted inv.files_sorted
  refine ⟨_, _, openDisk_loads g hsortT hload1, openDisk_loads g hsortS hload2, ?_⟩
  intro k
  apply get_congr_read
  intro ve hlk hz
  have hyp : ∀ q ∈ g, q.1 = f → (encodeRecs q.2).length ≤ (encodeRecs rs).length := by
    intro q hqg hqf1
    rw [hg] at hqg
    obtain ⟨q0, hq0, hq0e⟩ := List.mem_map.1 hqg
    by_cases hq0f : q0.1 = f
    · have hqq : q = (f, rs) := by
        rw [← hq0e, if_pos (by simp [hq0f]), hq0f]
      rw [hqq]
    · have hqq : q = q0 := by
        rw [← hq0e, if_neg (by simp [hq0f])]
      rw [hqq] at hqf1
      exact absurd hqf1 hq0f
  by_cases hvf : ve.file_id = f
  · have hrange : ve.vpos + ve.vsz ≤ (encodeRecs rs).length := by
      rcases replayHist_mem_or f (encodeRecs rs).length g [] hyp (k, ve)
          (mapLookup_some_mem hlk) with hc | hfe | hr
      · simp at hc
      · exact absurd hvf hfe
      · exact hr
    exact read_value_within (by rw [hvf]; exact hB1) (by rw [hvf]; exact hA1) hrange
  · by_cases hxm : ve.file_id ∈ h.map Prod.fst
    · obtain ⟨q, hqh, hqf⟩ := List.mem_map.1 hxm
      have hq' : (ve.file_id, q.2) ∈ h := by
        rw [← hqf]
        exact hqh
      have hqm : (ve.file_id, encodeRecs q.2) ∈ histDisk h :=
        List.mem_map.2 ⟨(ve.file_id, q.2), hq', rfl⟩
      apply read_value_congr_file
      rw [getFile_truncFile_other hdnd hvf hqm n rfl,
        getFile_setFile_other hdnd hvf hqm (encodeRecs rs) rfl]
    · have habs1 : ve.file_id
          ∉ (Wal.openD (truncFile (histDisk h) f n)).disk.map Prod.fst := by
        show ve.file_id ∉ (truncFile (histDisk h) f n).map Prod.fst
        rw [truncFile_map_fst, hdfst]
        exact hxm
      have habs2 : ve.file_id
          ∉ (Wal.openD (setFile (histDisk h) f (encodeRecs rs))).disk.map Prod.fst := by
        show ve.file_id ∉ (setFile (histDisk h) f (encodeRecs rs)).map Prod.fst
        rw [setFile_map_fst, hdfst]
        exact hxm
      apply read_value_congr_file
      rw [getFile_absent habs1, getFile_absent habs2]

/-- Witness for C5: two records for `"a"` in one segment; the last is
truncated by 2 bytes, a cut reaching its key region since its value holds
a single byte. -/
theorem C5_truncation_witness :
    ∃ s' s'',
      KvStore.openDisk (truncFile
        (runOps freshStore [Op.set [97] [120], Op.set [97] [121]]).log.disk 1 2)
        = .ok s'
      ∧ KvStore.openDisk (setFile
          (runOps freshStore [Op.set [97] [120], Op.set [97] [121]]).log.disk 1
          (encodeRecs [⟨[97], [120]⟩])) = .ok s''
      ∧ ∀ k, s'.get k = s''.get k :=
  C5_truncation [Op.set [97] [120], Op.set [97] [121]]
    (fun op hop => by
      rcases List.mem_cons.1 hop with h1 | h1
      · subst h1
        exact ⟨⟨by decide, by decide⟩, ⟨by decide, by decide⟩⟩
      · rw [List.mem_singleton] at h1
        subst h1
        exact ⟨⟨by decide, by decide⟩, ⟨by decide, by decide⟩⟩)
    1 [⟨[97], [120]⟩] ⟨[97], [121]⟩ 2 (by decide) (by decide) rfl rfl
    (fun x hx => by
      have hx' : x ∈ [(⟨[97], [120]⟩ : Rec), ⟨[97], [121]⟩] := by simpa using hx
      rcases List.mem_cons.1 hx' with h1 | h1
      · subst h1
        exact ⟨by decide, by decide, by decide, by decide⟩
      · rw [List.mem_singleton] at h1
        subst h1
        exact ⟨by decide, by decide, by decide, by decide⟩)

/-- C5 counterexample to the literal claim: truncating the only record's
segment by 1 byte — a cut confined to its 2-byte value — leaves an `open`
that succeeds but a dangling index entry, so `get "a"` fails with an I/O
error, while the state of the preceding records (none) answers absent. -/
theorem C5_counterexample :
    ∃ s',
      KvStore.openDisk (truncFile
        (runOps freshStore [Op.set [97] [120, 121]]).log.disk 1 1) = .ok s'
      ∧ s'.get [97] = .error (.ioError .unexpectedEof)
      ∧ ∃ s'', KvStore.openDisk (setFile
          (runOps freshStore [Op.set [97] [120, 121]]).log.disk 1 (encodeRecs []))
          = .ok s''
        ∧ s''.get [97] = .ok none :=
  ⟨_, rfl, rfl, _, rfl, rfl⟩

theorem histDisk_map_fst (h : Hist) : (histDisk h).map Prod.fst = h.map Prod.fst := by
  rw [histDisk, List.map_map]
  apply List.map_congr_left
  intro p _
  rfl

/-- C7 (confirmed): the compaction invariant, with `V q` the current value
of key `q` (its last-written value).  (i) After every prefix of the
rewrite loop, the whole index — rewritten part plus untouched remainder —
is consistent: each entry names a segment present on disk whose bytes at
the recorded location are that key's value.  (ii) Every prefix of the
deletion phase succeeds and preserves that consistency for the fully
rewritten index: all new records are written and all entries updated
before any pre-existing segment is deleted.  (iii) The whole compaction
succeeds and afterwards every `get` answers exactly as before. -/
theorem C7_compaction (S : List Op) (hwf : WfOps S) (hne : NonEmptyVals S)
    (hmne : (runOps freshStore S).map ≠ []) :
    (∀ i : Nat, ∃ wi di,
        compactLoop (pushNew (runOps freshStore S).log) []
            ((runOps freshStore S).map.take i) = (.ok (), wi, di)
        ∧ IndexOk wi (di ++ (runOps freshStore S).map.drop i)
            (fun q => (lwwSpec S q).getD []))
    ∧ (∀ wN dN,
        compactLoop (pushNew (runOps freshStore S).log) []
            (runOps freshStore S).map = (.ok (), wN, dN) →
        ∀ j, j ≤ (runOps freshStore S).log.files.length →
          ∃ wj, deleteFirst j wN = (.ok (), wj)
            ∧ IndexOk wj dN (fun q => (lwwSpec S q).getD []))
    ∧ (∃ w' m',
        (runOps freshStore S).log.compact (runOps freshStore S).map
          = (.ok (), w', m')
        ∧ ∀ k, KvStore.get ⟨m', w', (runOps freshStore S).ops_count⟩ k
            = (runOps freshStore S).get k) := by
  obtain ⟨h, inv⟩ := Inv_runOps S hwf
  set s : KvStore := runOps freshStore S with hs
  set V : Bytes → Bytes := fun q => (lwwSpec S q).getD [] with hV
  have hwfS' : ∀ q u, Op.set q u ∈ S → WfStr q ∧ WfStr u := fun q u hqu => hwf _ hqu
  have hnd : (h.map Prod.fst).Nodup := nodup_of_sorted inv.files_sorted
  have hreads0 : ∀ p ∈ s.map, s.log.read_value p.2 = .ok (V p.1) ∧
      lwwSpec S p.1 = some (V p.1) ∧ p.2.vsz = (V p.1).length := by
    intro p hp
    have hlk : mapLookup p.1 s.map = some p.2 :=
      mapLookup_of_mem_nodup inv.map_nodup (by exact hp)
    have hml := inv.map_lww p.1
    cases hls : lwwSpec S p.1 with
    | none =>
      rw [hls] at hml
      rw [hml] at hlk
      cases hlk
    | some v =>
      rw [hls] at hml
      obtain ⟨ve, hve, hsz, hrd⟩ := hml
      rw [hlk] at hve
      injection hve with hve
      subst hve
      have hVv : V p.1 = v := by
        rw [hV]
        simp [hls]
      rw [hVv]
      exact ⟨hrd, rfl, hsz⟩
  have hvszpos : ∀ p ∈ s.map, 0 < p.2.vsz := by
    intro p hp
    obtain ⟨_, hls, hsz⟩ := hreads0 p hp
    have hVne : V p.1 ≠ [] := by
      intro hc
      have hmem := lwwSpec_some_mem hls
      rw [hc] at hmem
      exact hne _ hmem rfl
    rw [hsz]
    cases hVp : V p.1 with
    | nil => exact absurd hVp hVne
    | cons a t => simp
  have hfidmem : ∀ p ∈ s.map, p.2.file_id ∈ h.map Prod.fst := by
    intro p hp
    by_contra hab
    have habs : getFile s.log p.2.file_id = [] := by
      apply getFile_absent
      rw [inv.disk_eq]
      have he : (histDisk h).map Prod.fst = h.map Prod.fst := by simp [histDisk]
      rw [he]
      exact hab
    have hro := (hreads0 p hp).1
    have hpos := hvszpos p hp
    rw [Wal.read_value, habs,
      readExactAt_eof (by simp only [List.length_nil]; omega) (by omega)] at hro
    cases hro
  have hgfeq : ∀ (gi : Hist) (wi : Wal), wi.disk = histDisk (h ++ gi) →
      ((h ++ gi).map Prod.fst).Nodup →
      ∀ p ∈ s.map, getFile wi p.2.file_id = getFile s.log p.2.file_id := by
    intro gi wi hdisk hnd2 p hp
    obtain ⟨q, hq, hqf⟩ := List.mem_map.1 (hfidmem p hp)
    have hq' : (p.2.file_id, q.2) ∈ h := by
      rw [← hqf]
      exact hq
    rw [getFile_hist hdisk hnd2 (List.mem_append_left _ hq'),
      getFile_hist inv.disk_eq hnd hq']
  have hIdxTodo : ∀ (gi : Hist) (wi : Wal), wi.disk = histDisk (h ++ gi) →
      ((h ++ gi).map Prod.fst).Nodup →
      ∀ p ∈ s.map,
        (wi.disk.find? (fun z => z.1 == p.2.file_id)).isSome = true ∧
        wi.read_value p.2 = .ok (V p.1) := by
    intro gi wi hdisk hnd2 p hp
    refine ⟨?_, ?_⟩
    · apply find?_isSome_of_mem
      rw [hdisk]
      rw [histDisk_map_fst, List.map_append]
      exact List.mem_append_left _ (hfidmem p hp)
    · rw [read_value_congr_file (hgfeq gi wi hdisk hnd2 p hp)]
      exact (hreads0 p hp).1
  have hIdxDone : ∀ (gi : Hist) (wi : Wal) (di : Map),
      CLoop S h s.log.nextId V wi gi di →
      ∀ p ∈ di, (wi.disk.find? (fun z => z.1 == p.2.file_id)).isSome = true ∧
        wi.read_value p.2 = .ok (V p.1) := by
    intro gi wi di cl p hp
    obtain ⟨h1, h2, h3⟩ := cl.dreads p hp
    refine ⟨?_, h1⟩
    apply find?_isSome_of_mem
    rw [cl.disk_eq]
    rw [histDisk_map_fst, List.map_append]
    exact List.mem_append_right _ h3
  cases hm : s.map with
  | nil => exact absurd hm hmne
  | cons e0 rest =>
  obtain ⟨k0, ve0⟩ := e0
  have hid0 : s.log.nextId ∉ s.log.disk.map Prod.fst := by
    intro hc
    have hids : s.log.disk.map Prod.fst = h.map Prod.fst := by
      rw [inv.disk_eq]
      simp [histDisk]
    rw [hids] at hc
    exact absurd (inv.files_lt _ hc) (by omega)
  have hwf1 : (pushNew s.log).files = h.map Prod.fst ++ [s.log.nextId] := by
    rw [pushNew, inv.files_eq]
  have habs1 : s.log.nextId ∉ (pushNew s.log).disk.map Prod.fst := hid0
  have hbridge : ∀ k v, (pushNew s.log).write k v .SET =
      Wal.write { pushNew s.log with disk := (pushNew s.log).disk ++ [(s.log.nextId, [])] }
        k v .SET := by
    intro k v
    exact write_create_absent hwf1 habs1 k v .SET
  set w1' : Wal := { pushNew s.log with
    disk := (pushNew s.log).disk ++ [(s.log.nextId, [])] } with hw1'
  have hgf1 : ∀ fid, getFile w1' fid = getFile (pushNew s.log) fid := by
    intro fid
    exact getFile_append_empty habs1 fid
  have cl0 : CLoop S h s.log.nextId V w1' [(s.log.nextId, [])] [] := by
    refine ⟨?_, ?_, ?_, ?_, ?_, ?_, ?_, ?_, ?_, ?_, ?_⟩
    · rw [hw1']
      simp only [pushNew]
      rw [inv.disk_eq]
      simp [histDisk, encodeRecs]
    · rw [hw1']
      simp only [pushNew]
      rw [inv.files_eq]
      simp
    · simp only [List.map_append, List.map_cons, List.map_nil]
      rw [List.pairwise_append]
      refine ⟨inv.files_sorted, by simp, ?_⟩
      intro x hx y hy
      rw [List.mem_singleton] at hy
      subst hy
      exact inv.files_lt x hx
    · intro f hf
      rw [hw1']
      simp only [pushNew]
      simp only [List.map_append, List.map_cons, List.map_nil] at hf
      rcases List.mem_append.1 hf with hf1 | hf1
      · have := inv.files_lt f hf1
        omega
      · rw [List.mem_singleton] at hf1
        omega
    · rw [hw1']
      simp [pushNew]
    · simp
    · intro f hf
      simp only [List.map_cons, List.map_nil, List.mem_singleton] at hf
      omega
    · intro p hp x hx
      rcases List.mem_append.1 hp with hp1 | hp1
      · exact inv.recs_wf p hp1 x hx
      · rw [List.mem_singleton] at hp1
        subst hp1
        simp at hx
    · intro p hp
      rcases List.mem_append.1 hp with hp1 | hp1
      · exact inv.size_ok p hp1
      · rw [List.mem_singleton] at hp1
        subst hp1
        exact Or.inl rfl
    · intro p hp
      simp at hp
    · intro q
      rfl
  have hreads1 : ∀ p ∈ (k0, ve0) :: rest, w1'.read_value p.2 = .ok (V p.1) ∧
      lwwSpec S p.1 = some (V p.1) := by
    intro p hp
    have h0 := hreads0 p (by rw [hm]; exact hp)
    refine ⟨?_, h0.2.1⟩
    rw [read_value_congr_file (hgf1 p.2.file_id), read_value_pushNew]
    exact h0.1
  have hro : (pushNew s.log).read_value ve0 = .ok (V k0) := by
    rw [read_value_pushNew]
    exact (hreads0 (k0, ve0) (by rw [hm]; simp)).1
  have hro' : w1'.read_value ve0 = .ok (V k0) := by
    rw [read_value_congr_file (hgf1 ve0.file_id)]
    exact hro
  have hmnd : (((k0, ve0) :: rest).map Prod.fst).Nodup := by
    have := inv.map_nodup
    rw [hm] at this
    exact this
  refine ⟨?_, ?_, ?_⟩
  · intro i
    cases i with
    | zero =>
      refine ⟨pushNew s.log, [], ?_, ?_⟩
      · rw [List.take_zero, compactLoop]
      · intro p hp
        rw [List.nil_append, List.drop_zero] at hp
        exact hIdxTodo [] (pushNew s.log)
          (by rw [List.append_nil]; exact inv.disk_eq)
          (by rw [List.append_nil]; exact hnd) p (by rw [hm]; exact hp)
    | succ j =>
      have hsub : ∀ p ∈ (k0, ve0) :: rest.take j, p ∈ (k0, ve0) :: rest := by
        intro p hp
        rcases List.mem_cons.1 hp with h1 | h1
        · rw [h1]
          exact List.mem_cons_self _ _
        · exact List.mem_cons_of_mem _ (List.take_subset j rest h1)
      have hreads1' : ∀ p ∈ (k0, ve0) :: rest.take j,
          w1'.read_value p.2 = .ok (V p.1) ∧ lwwSpec S p.1 = some (V p.1) :=
        fun p hp => hreads1 p (hsub p hp)
      have hndk : ((([] : Map)).map Prod.fst
          ++ ((k0, ve0) :: rest.take j).map Prod.fst).Nodup := by
        have hsl : List.Sublist (((k0, ve0) :: rest.take j).map Prod.fst)
            (((k0, ve0) :: rest).map Prod.fst) := by
          apply List.Sublist.map
          exact List.Sublist.cons₂ _ (List.take_sublist j rest)
        simpa using hsl.nodup hmnd
      obtain ⟨wi, gi, di, hloop, cli, hkeys⟩ :=
        compactLoop_spec S h s.log.nextId V hwfS' ((k0, ve0) :: rest.take j) [] w1'
          [(s.log.nextId, [])] cl0 hreads1' hndk
      have hbl : compactLoop (pushNew s.log) [] ((k0, ve0) :: rest.take j)
          = compactLoop w1' [] ((k0, ve0) :: rest.take j) := by
        simp only [compactLoop, hro, hro', hbridge]
      refine ⟨wi, di, ?_, ?_⟩
      · rw [List.take_succ_cons, hbl]
        simpa using hloop
      · intro p hp
        rcases List.mem_append.1 hp with h1 | h1
        · exact hIdxDone gi wi di cli p h1
        · have hps : p ∈ s.map := by
            rw [hm]
            exact List.mem_cons_of_mem _ (List.drop_subset j rest (by simpa using h1))
          exact hIdxTodo gi wi cli.disk_eq (nodup_of_sorted cli.sorted) p hps
  · have hndkeys : ((([] : Map)).map Prod.fst
        ++ ((k0, ve0) :: rest).map Prod.fst).Nodup := by
      simpa using hmnd
    obtain ⟨w_f, g_f, done', hloopF, clF, hkeysF⟩ :=
      compactLoop_spec S h s.log.nextId V hwfS' ((k0, ve0) :: rest) [] w1'
        [(s.log.nextId, [])] cl0 hreads1 hndkeys
    have hbl : compactLoop (pushNew s.log) [] ((k0, ve0) :: rest)
        = compactLoop w1' [] ((k0, ve0) :: rest) := by
      simp only [compactLoop, hro, hro', hbridge]
    intro wN dN hEq j hj
    rw [hbl, hloopF] at hEq
    have hwN : w_f = wN := congrArg (fun z => z.2.1) hEq
    have hdN : ([] : Map) ++ done' = dN := congrArg (fun z => z.2.2) hEq
    rw [← hwN, ← hdN]
    have hjh : j ≤ h.length := by
      have hfl : s.log.files.length = h.length := by
        rw [inv.files_eq]
        simp
      omega
    have hsplit : h ++ g_f = h.take j ++ (h.drop j ++ g_f) := by
      rw [← List.append_assoc, List.take_append_drop]
    have hdel := deleteFirst_hist (h.take j) (h.drop j ++ g_f) w_f
      (by rw [← hsplit]; exact clF.disk_eq) (by rw [← hsplit]; exact clF.files_eq)
      (by rw [← hsplit]; exact nodup_of_sorted clF.sorted)
    have hjlen : (h.take j).length = j := by
      rw [List.length_take]
      omega
    refine ⟨⟨(h.drop j ++ g_f).map Prod.fst, histDisk (h.drop j ++ g_f),
      w_f.nextId⟩, ?_, ?_⟩
    · rw [hjlen] at hdel
      exact hdel
    · intro p hp
      obtain ⟨h1, h2, h3⟩ := clF.dreads p (by simpa using hp)
      constructor
      · apply find?_isSome_of_mem
        show p.2.file_id ∈ (histDisk (h.drop j ++ g_f)).map Prod.fst
        rw [histDisk_map_fst, List.map_append]
        exact List.mem_append_right _ h3
      · have hnd3 : ((h.drop j ++ g_f).map Prod.fst).Nodup := by
          have hsl : List.Sublist ((h.drop j ++ g_f).map Prod.fst)
              ((h ++ g_f).map Prod.fst) := by
            apply List.Sublist.map
            exact List.Sublist.append (List.drop_sublist j h) (List.Sublist.refl g_f)
          exact hsl.nodup (nodup_of_sorted clF.sorted)
        have e1 : getFile w_f p.2.file_id
            = getFile ⟨g_f.map Prod.fst, histDisk g_f, w_f.nextId⟩ p.2.file_id :=
          getFile_right h g_f (nodup_of_sorted clF.sorted) clF.disk_eq rfl h3
        have e2 : getFile ⟨(h.drop j ++ g_f).map Prod.fst, histDisk (h.drop j ++ g_f),
              w_f.nextId⟩ p.2.file_id
            = getFile ⟨g_f.map Prod.fst, histDisk g_f, w_f.nextId⟩ p.2.file_id :=
          getFile_right (h.drop j) g_f hnd3 rfl rfl h3
        have hgww : getFile w_f p.2.file_id
            = getFile ⟨(h.drop j ++ g_f).map Prod.fst, histDisk (h.drop j ++ g_f),
                w_f.nextId⟩ p.2.file_id := by
          rw [e1, ← e2]
        rw [← read_value_congr_file hgww]
        exact h1
  · obtain ⟨w', m', h', hcompact, inv', hkeys'⟩ := InvH_compact inv hwfS' hmne s.ops_count
    rw [hm] at hcompact
    refine ⟨w', m', hcompact, ?_⟩
    intro k
    rw [get_of_InvH inv' k, get_of_InvH inv k]

/-- Witness for C7 at `S = [set "a" "x"]`. -/
theorem C7_compaction_witness :
    (∀ i : Nat, ∃ wi di,
        compactLoop (pushNew (runOps freshStore [Op.set [97] [120]]).log) []
            ((runOps freshStore [Op.set [97] [120]]).map.take i) = (.ok (), wi, di)
        ∧ IndexOk wi (di ++ (runOps freshStore [Op.set [97] [120]]).map.drop i)
            (fun q => (lwwSpec [Op.set [97] [120]] q).getD []))
    ∧ (∀ wN dN,
        compactLoop (pushNew (runOps freshStore [Op.set [97] [120]]).log) []
            (runOps freshStore [Op.set [97] [120]]).map = (.ok (), wN, dN) →
        ∀ j, j ≤ (runOps freshStore [Op.set [97] [120]]).log.files.length →
          ∃ wj, deleteFirst j wN = (.ok (), wj)
            ∧ IndexOk wj dN (fun q => (lwwSpec [Op.set [97] [120]] q).getD []))
    ∧ (∃ w' m',
        (runOps freshStore [Op.set [97] [120]]).log.compact
            (runOps freshStore [Op.set [97] [120]]).map = (.ok (), w', m')
        ∧ ∀ k, KvStore.get ⟨m', w',
              (runOps freshStore [Op.set [97] [120]]).ops_count⟩ k
            = (runOps freshStore [Op.set [97] [120]]).get k) :=
  C7_compaction [Op.set [97] [120]]
    (fun op hop => by
      rw [List.mem_singleton] at hop
      subst hop
      exact ⟨⟨by decide, by decide⟩, ⟨by decide, by decide⟩⟩)
    (fun op hop => by
      rw [List.mem_singleton] at hop
      subst hop
      simp)
    (by decide)

end Kvs
